import Mathlib

/-!
Verification of the `pushcrate` Sokoban solver (files `src/board.rs`,
`src/search.rs`).  The Rust code is shallowly embedded: grids are flat
`List Bool` rows-major arrays exactly as in the source (`y * width + x`
indexing), coordinates are natural numbers (the source's `u32` values are
always small and non-negative; all subtractions the source performs are
shown to be guarded in the safety analysis, so `Nat` truncated subtraction
agrees with `u32` arithmetic at every executed site), and out-of-bounds
array reads — which panic in Rust — are modelled by `List.getD` with the
panic-freedom conditions proved separately as explicit safety predicates.
-/

namespace Pushcrate

/-- `Action` from board.rs: the four agent moves. -/
inductive Action where
  | Up
  | Down
  | Left
  | Right
deriving DecidableEq, Repr

/-- `Board` from board.rs: static data of one puzzle.  `goals` pairs each
goal coordinate with its precomputed distance field. -/
structure Board where
  goals : List ((Nat × Nat) × List Nat)
  goal_tiles : List Bool
  walls : List Bool
  dead_tiles : List Bool
  width : Nat
deriving DecidableEq, Repr

/-- `BoardState` from board.rs: the mutable part of a configuration. -/
structure BoardState where
  player : Nat × Nat
  crates : List Bool
deriving DecidableEq, Repr

/-- `Board::is_goal` -/
def Board.is_goal (b : Board) (x y : Nat) : Bool :=
  b.goal_tiles.getD (y * b.width + x) false

/-- `Board::is_wall` -/
def Board.is_wall (b : Board) (x y : Nat) : Bool :=
  b.walls.getD (y * b.width + x) false

/-- `Board::is_crate` -/
def Board.is_crate (b : Board) (s : BoardState) (x y : Nat) : Bool :=
  s.crates.getD (y * b.width + x) false

/-- `Board::is_empty` -/
def Board.is_empty (b : Board) (s : BoardState) (x y : Nat) : Bool :=
  !b.is_wall x y && !b.is_crate s x y

/-- `Board::set_crate` -/
def Board.set_crate (b : Board) (s : BoardState) (x y : Nat) (crate_bit : Bool) :
    BoardState :=
  { s with crates := s.crates.set (y * b.width + x) crate_bit }

/-- `Board::is_dead_tile` -/
def Board.is_dead_tile (b : Board) (x y : Nat) : Bool :=
  b.dead_tiles.getD (y * b.width + x) false

/-- `Board::is_goal_state`: every goal tile holds a crate. -/
def Board.is_goal_state (b : Board) (s : BoardState) : Bool :=
  b.goals.all (fun g => b.is_crate s g.1.1 g.1.2)

/-- `Board::iter_crates`: the coordinates of the set bits of the crate
bitset, in index order. -/
def Board.iter_crates (b : Board) (s : BoardState) : List (Nat × Nat) :=
  (s.crates.enum.filter (fun p => p.2)).map
    (fun p => (p.1 % b.width, p.1 / b.width))

/-- The frozen-pair test done for one crate inside `Board::is_unsolvable`:
the crate at `(x, y)` together with the crate to its right (first
conjunct), or with the crate below it (second conjunct). -/
def Board.frozen_at (b : Board) (s : BoardState) (x y : Nat) : Bool :=
  (b.is_crate s (x + 1) y
      && (b.is_wall x (y - 1) || b.is_wall x (y + 1))
      && (b.is_wall (x + 1) (y - 1) || b.is_wall (x + 1) (y + 1))
      && !(b.is_goal x y && b.is_goal (x + 1) y))
    || (b.is_crate s x (y + 1)
      && (b.is_wall (x - 1) y || b.is_wall (x + 1) y)
      && (b.is_wall (x - 1) (y + 1) || b.is_wall (x + 1) (y + 1))
      && !(b.is_goal x y && b.is_goal x (y + 1)))

/-- `Board::is_unsolvable`: the dead-tile check is commented out in the
source ("we now check this as we move the crates"); only the two
frozen-pair rules remain. -/
def Board.is_unsolvable (b : Board) (s : BoardState) : Bool :=
  (b.iter_crates s).any (fun c => b.frozen_at s c.1 c.2)

/-- `Board::heuristic`.  The source's `.min().unwrap()` panics when the
crate is off every goal yet every goal is satisfied; that situation is
ruled out whenever the crate count equals the goal count (proved in the
safety analysis), and is modelled here by `Option.getD 0`. -/
def Board.heuristic (b : Board) (s : BoardState) : Nat :=
  let unsat_goal_dists :=
    (b.goals.filter (fun g => !b.is_crate s g.1.1 g.1.2)).map (fun g => g.2)
  (((b.iter_crates s).filter (fun c => !b.is_goal c.1 c.2)).map
    (fun c =>
      ((unsat_goal_dists.map
        (fun dists => dists.getD (c.2 * b.width + c.1) 0)).min?).getD 0)).sum

/-- The `read_path` closure inside `Board::create_children`: follow the
parent pointers recorded in `paths`, appending each recorded action.  The
source's `while let` loop is bounded here by fuel; the recorded parent
chains are acyclic (each entry points at an earlier-visited tile), so
`paths.length + 1` steps always suffice. -/
def read_path_aux (width : Nat) (paths : List (Option Action)) :
    Nat → Nat → List Action → List Action
  | 0, _, path => path
  | fuel + 1, index, path =>
    match paths.getD index none with
    | none => path
    | some a =>
      let index' :=
        match a with
        | Action.Up => index + width
        | Action.Down => index - width
        | Action.Left => index + 1
        | Action.Right => index - 1
      read_path_aux width paths fuel index' (path ++ [a])

/-- `read_path(paths, index, action)` from `Board::create_children`. -/
def read_path (width : Nat) (paths : List (Option Action)) (index : Nat)
    (action : Action) : List Action :=
  read_path_aux width paths (paths.length + 1) index [action]

/-- The state built inside the walk loop of `Board::create_children` for
one push: the crate at `(cx, cy)` moves to `(dx, dy)` (destination bit
set first, source bit cleared second, as in the source) and the agent
ends on the crate's former tile. -/
def push_result (b : Board) (s : BoardState) (cx cy dx dy : Nat) : BoardState :=
  { b.set_crate (b.set_crate s dx dy true) cx cy false with player := (cx, cy) }

/-- One candidate push inside the walk loop of `Board::create_children`:
the crate at `(cx, cy)` is pushed to `(dx, dy)`.  Returns the
accumulated children list, extended when the push is legal and the child
passes `is_unsolvable`. -/
def Board.try_push (b : Board) (s : BoardState)
    (paths : List (Option Action)) (index : Nat) (a : Action)
    (cx cy dx dy : Nat)
    (children : List (BoardState × List Action)) :
    List (BoardState × List Action) :=
  if b.is_crate s cx cy && b.is_empty s dx dy && !b.is_dead_tile dx dy then
    if !b.is_unsolvable (push_result b s cx cy dx dy) then
      children ++ [(push_result b s cx cy dx dy, read_path b.width paths index a)]
    else children
  else children

/-- A state admitted to the result set of `Board::create_children`: some
crate-adjacent-to-destination push whose destination is empty and
non-dead, and whose result passes the `is_unsolvable` filter. -/
def is_push_child (b : Board) (s : BoardState) (child : BoardState) : Prop :=
  ∃ cx cy dx dy, b.is_crate s cx cy = true ∧ b.is_empty s dx dy = true ∧
    b.is_dead_tile dx dy = false ∧
    child = push_result b s cx cy dx dy ∧ b.is_unsolvable child = false

/-- The `while let Some((x, y, action)) = queue.pop_front()` loop of
`Board::create_children`, with explicit fuel (one unit per pop; the
source loop performs at most `1 + 4 * walls.len()` pops). -/
def create_children_loop (b : Board) (s : BoardState) :
    Nat → List (Option Action) → List Bool →
    List (Nat × Nat × Option Action) →
    List (BoardState × List Action) → List (BoardState × List Action)
  | 0, _, _, _, children => children
  | _ + 1, _, _, [], children => children
  | fuel + 1, paths, seen, (x, y, action) :: queue, children =>
    let index := y * b.width + x
    if !seen.getD index false && b.is_empty s x y then
      let seen := seen.set index true
      let paths := paths.set index action
      let children := b.try_push s paths index Action.Up x (y-1) x (y-2) children
      let children := b.try_push s paths index Action.Down x (y+1) x (y+2) children
      let children := b.try_push s paths index Action.Left (x-1) y (x-2) y children
      let children := b.try_push s paths index Action.Right (x+1) y (x+2) y children
      create_children_loop b s fuel paths seen
        (queue ++ [(x, y-1, some Action.Up), (x, y+1, some Action.Down),
                   (x-1, y, some Action.Left), (x+1, y, some Action.Right)])
        children
    else
      create_children_loop b s fuel paths seen queue children

/-- `Board::create_children`. -/
def Board.create_children (b : Board) (s : BoardState) :
    List (BoardState × List Action) :=
  create_children_loop b s (4 * b.walls.length + 8)
    (List.replicate b.walls.length none)
    (List.replicate b.walls.length false)
    [(s.player.1, s.player.2, none)] []

/-- The BFS loop of `Board::calculate_goal_distance`, with explicit fuel
(one unit per pop). -/
def calculate_goal_distance_loop (width : Nat) (walls dead_tiles : List Bool) :
    Nat → List Nat → List Bool → List (Nat × Nat × Nat) → List Nat
  | 0, dists, _, _ => dists
  | _ + 1, dists, _, [] => dists
  | fuel + 1, dists, seen, (x, y, d) :: queue =>
    if !seen.getD (y * width + x) false && !walls.getD (y * width + x) false
        && !dead_tiles.getD (y * width + x) false then
      calculate_goal_distance_loop width walls dead_tiles fuel
        (dists.set (y * width + x) d) (seen.set (y * width + x) true)
        (queue ++ [(x+1, y, d+1), (x-1, y, d+1), (x, y+1, d+1), (x, y-1, d+1)])
    else
      calculate_goal_distance_loop width walls dead_tiles fuel dists seen queue

/-- `Board::calculate_goal_distance`: distances start as a zero vector and
are only written for tiles the BFS marks. -/
def calculate_goal_distance (goal : Nat × Nat) (width : Nat)
    (walls dead_tiles : List Bool) : List Nat :=
  calculate_goal_distance_loop width walls dead_tiles
    (4 * walls.length + 8) (List.replicate walls.length 0)
    (List.replicate walls.length false) [(goal.1, goal.2, 0)]

/-- `Board::calculate_goal_distances`. -/
def calculate_goal_distances (goals : List (Nat × Nat)) (width : Nat)
    (walls dead_tiles : List Bool) : List (List Nat) :=
  goals.map (fun goal => calculate_goal_distance goal width walls dead_tiles)

/-- The `is_dead_across` closure of `Board::find_dead_tiles`.  The
source's unbounded `for i in start..` scan exits before running off the
arrays on every input the source does not panic on; beyond the arrays
`next_to_walls` reads as `false`, so `length + 2` fuel is always enough
for the embedded scan to take the same exit. -/
def is_dead_across (next_to_walls goal_tiles corners walls : List Bool) :
    Nat → Nat → Bool
  | 0, _ => false
  | fuel + 1, i =>
    if !next_to_walls.getD i false || goal_tiles.getD i false then false
    else if corners.getD i false && walls.getD (i + 1) false then true
    else is_dead_across next_to_walls goal_tiles corners walls fuel (i + 1)

/-- The `is_dead_down` closure of `Board::find_dead_tiles`. -/
def is_dead_down (width : Nat) (next_to_walls goal_tiles corners walls : List Bool) :
    Nat → Nat → Bool
  | 0, _ => false
  | fuel + 1, i =>
    if !next_to_walls.getD i false || goal_tiles.getD i false then false
    else if corners.getD i false && walls.getD (i + width) false then true
    else is_dead_down width next_to_walls goal_tiles corners walls fuel (i + width)

/-- The `while !walls[j]` horizontal marking loop of
`Board::find_dead_tiles`. -/
def mark_dead_across (walls : List Bool) : Nat → List Bool → Nat → List Bool
  | 0, dead, _ => dead
  | fuel + 1, dead, j =>
    if walls.getD j false then dead
    else mark_dead_across walls fuel (dead.set j true) (j + 1)

/-- The `while !walls[j]` vertical marking loop of
`Board::find_dead_tiles`. -/
def mark_dead_down (walls : List Bool) (width : Nat) :
    Nat → List Bool → Nat → List Bool
  | 0, dead, _ => dead
  | fuel + 1, dead, j =>
    if walls.getD j false then dead
    else mark_dead_down walls width fuel (dead.set j true) (j + width)

/-- The `corners` vector of `Board::find_dead_tiles`. -/
def corners_vec (width : Nat) (walls interior : List Bool) : List Bool :=
  (List.range walls.length).map (fun i =>
    interior.getD i false &&
      ((walls.getD (i - width) false && walls.getD (i + 1) false) ||
       (walls.getD (i + 1) false && walls.getD (i + width) false) ||
       (walls.getD (i + width) false && walls.getD (i - 1) false) ||
       (walls.getD (i - 1) false && walls.getD (i - width) false)))

/-- The `next_to_walls` vector of `Board::find_dead_tiles`. -/
def next_to_walls_vec (width : Nat) (walls interior : List Bool) : List Bool :=
  (List.range walls.length).map (fun i =>
    interior.getD i false &&
      (walls.getD (i - 1) false || walls.getD (i + 1) false ||
       walls.getD (i - width) false || walls.getD (i + width) false))

/-- `Board::find_dead_tiles`. -/
def find_dead_tiles (width : Nat) (walls interior goal_tiles : List Bool) :
    List Bool :=
  let corners := corners_vec width walls interior
  let next_to_walls := next_to_walls_vec width walls interior
  let fuel := walls.length + 2
  (List.range walls.length).foldl (fun dead i =>
    if corners.getD i false && !goal_tiles.getD i false then
      let dead := dead.set i true
      let dead :=
        if is_dead_across next_to_walls goal_tiles corners walls fuel i then
          mark_dead_across walls fuel dead i
        else dead
      let dead :=
        if is_dead_down width next_to_walls goal_tiles corners walls fuel i then
          mark_dead_down walls width fuel dead i
        else dead
      dead
    else dead) (List.replicate walls.length false)

/-- `trim_end` on a line.  The validation pass has already restricted the
alphabet, so the only whitespace a line can contain is the space
character. -/
def trim_end (l : List Char) : List Char :=
  (l.reverse.dropWhile (fun c => c = ' ')).reverse

/-- `level.split('\n')`: n separators produce n + 1 pieces. -/
def split_newlines : List Char → List (List Char)
  | [] => [[]]
  | c :: rest =>
    match split_newlines rest with
    | [] => [[c]]
    | line :: more =>
      if c = '\n' then [] :: line :: more else (c :: line) :: more

/-- Accumulator of the character loop in `Board::parse_level_string`. -/
structure ParseAcc where
  players : List (Nat × Nat)
  goals : List (Nat × Nat)
  walls : List Bool
  crates : List Bool
  num_crates : Nat
deriving Repr

/-- One character of the parse loop.  The source's `_ => panic!()` arm is
unreachable (the alphabet was validated first) and is modelled as a
no-op together with the whitespace arm. -/
def parse_char (width : Nat) (i j : Nat) (acc : ParseAcc) (c : Char) : ParseAcc :=
  if c = '#' then { acc with walls := acc.walls.set (width * i + j) true }
  else if c = 'p' ∨ c = '@' then
    { acc with players := acc.players ++ [(j, i)] }
  else if c = 'P' ∨ c = '+' then
    { acc with players := acc.players ++ [(j, i)], goals := acc.goals ++ [(j, i)] }
  else if c = 'b' ∨ c = '$' then
    { acc with crates := acc.crates.set (width * i + j) true,
               num_crates := acc.num_crates + 1 }
  else if c = 'B' ∨ c = '*' then
    { acc with goals := acc.goals ++ [(j, i)],
               crates := acc.crates.set (width * i + j) true,
               num_crates := acc.num_crates + 1 }
  else if c = '.' then { acc with goals := acc.goals ++ [(j, i)] }
  else acc

/-- The nested `for (i, line) / for (j, c)` loop of
`Board::parse_level_string`. -/
def parse_lines (width : Nat) (lines : List (List Char)) (init : ParseAcc) :
    ParseAcc :=
  lines.enum.foldl
    (fun acc il => il.2.enum.foldl
      (fun acc jc => parse_char width il.1 jc.1 acc jc.2) acc) init

/-- The enclosure flood fill of `Board::parse_level_string`; `none` means
the fill reached the grid border ("Player is not enclosed in walls"). -/
def enclosure_loop (width height : Nat) (walls : List Bool) :
    Nat → List Bool → List (Nat × Nat) → Option (List Bool)
  | 0, interior, _ => some interior
  | _ + 1, interior, [] => some interior
  | fuel + 1, interior, (x, y) :: queue =>
    if !interior.getD (y * width + x) false && !walls.getD (y * width + x) false then
      if x = 0 || x = width - 1 || y = 0 || y = height - 1 then none
      else
        enclosure_loop width height walls fuel (interior.set (y * width + x) true)
          (queue ++ [(x+1, y), (x-1, y), (x, y+1), (x, y-1)])
    else enclosure_loop width height walls fuel interior queue

/-- `Board::parse_level_string` (the debug board printout of the source,
a pure side effect, is omitted). -/
def parse_level_string (level : String) : Except String (Board × BoardState) :=
  if !(level.toList.all (fun c => c ∈ "#pPbB@+$*. -_\n".toList)) then
    .error "Level contains invalid character"
  else
    let lines := (split_newlines level.toList).map (fun l => trim_end l)
    let lines := (lines.dropWhile (fun l => l = [])).takeWhile (fun l => l ≠ [])
    if lines = [] then .error "Level is empty"
    else
      let height := lines.length
      let width := (lines.map List.length).foldl Nat.max 0
      let acc := parse_lines width lines
        ⟨[], [], List.replicate (width * height) false,
         List.replicate (width * height) false, 0⟩
      if acc.players.length = 0 then .error "Level has no player"
      else if acc.players.length > 1 then .error "Level has more than one player"
      else if acc.num_crates ≠ acc.goals.length then
        .error "Number of crates and number of goals are not the same"
      else
        let player := acc.players.getD 0 (0, 0)
        match enclosure_loop width height acc.walls (4 * acc.walls.length + 8)
            (List.replicate acc.walls.length false) [(player.1, player.2)] with
        | none => .error "Player is not enclosed in walls"
        | some interior =>
          let goal_tiles := acc.goals.foldl
            (fun gt g => gt.set (g.2 * width + g.1) true)
            (List.replicate acc.walls.length false)
          let dead_tiles := find_dead_tiles width acc.walls interior goal_tiles
          let goal_distances :=
            calculate_goal_distances acc.goals width acc.walls dead_tiles
          .ok
            ({ goals := acc.goals.zip goal_distances,
               goal_tiles := goal_tiles,
               walls := acc.walls,
               dead_tiles := dead_tiles,
               width := width },
             { player := player, crates := acc.crates })

/-!
The search engine (`src/search.rs`).  As written the source file does not
typecheck against board.rs: `Path::Prev` is declared to hold a single
`Action` while `find_path` stores the `Box<[Action]>` segment returned by
`create_children` in it.  The embedding resolves the mismatch the only
way the surrounding code admits: a path node holds the whole
action-sequence segment of one expansion step.
-/

/-- `Node` from search.rs.  `path` is the `Rc<Path>` back-pointer chain,
newest segment first (`Path::None` is the empty list). -/
structure Node where
  state : BoardState
  path : List (List Action)
  h : Nat
  g : Nat
deriving DecidableEq, Repr

/-- `read_path` from search.rs: walk the back-pointer chain collecting
segments, then reverse.  Each stored segment is itself recorded
back-to-front by `Board::create_children`'s `read_path`, so the full
reconstruction is the reversal of the flattened chain. -/
def read_path_search (p : List (List Action)) : List Action :=
  p.flatten.reverse

/-- The `for (child, action) in board.create_children(&state)` loop of
`find_path`: each child state not yet in `seen` is inserted into `seen`
and pushed onto the heap with `g = node.g + 1` and `h = heuristic`.
Returns the updated `seen` and the list of newly pushed nodes. -/
def expand_step (b : Board) (node : Node) (acc : List BoardState × List Node)
    (ca : BoardState × List Action) : List BoardState × List Node :=
  if acc.1.contains ca.1 then acc
  else
    (acc.1 ++ [ca.1],
     acc.2 ++ [{ state := ca.1, path := ca.2 :: node.path,
                 h := b.heuristic ca.1, g := node.g + 1 }])

def expand (b : Board) (seen : List BoardState) (node : Node) :
    List BoardState × List Node :=
  (b.create_children node.state).foldl (expand_step b node) (seen, [])

/-- Pop a node of minimal `h + g` (the `Ord` instance of `Node` compares
only `h + g`, reversed for a min-heap).  Rust's `BinaryHeap` leaves the
order of equal-priority elements unspecified; the embedding takes the
leftmost minimal element. -/
def pop_min_node : List Node → Option (Node × List Node)
  | [] => none
  | n :: ns =>
    match pop_min_node ns with
    | none => some (n, [])
    | some (m, rest) =>
      if n.h + n.g ≤ m.h + m.g then some (n, ns) else some (m, n :: rest)

/-- The main loop of `find_path`, with explicit fuel (one unit per pop).
`none` = fuel exhausted; `some none` = heap emptied, the source returns
`None` ("unsolvable"); `some (some path)` = goal popped. -/
def find_path_loop (b : Board) :
    Nat → List BoardState → List Node → Option (Option (List Action))
  | 0, _, _ => none
  | fuel + 1, seen, heap =>
    match pop_min_node heap with
    | none => some none
    | some (node, rest) =>
      if b.is_goal_state node.state then
        some (some (read_path_search node.path))
      else
        let sn := expand b seen node
        find_path_loop b fuel sn.1 (rest ++ sn.2)

/-- `find_path` from search.rs, with explicit fuel for the main loop.
The start state is inserted into `seen` immediately and pushed with
`h = 0` ("don't really need heuristic for start node") and `g = 0`. -/
def find_path (fuel : Nat) (b : Board) (start : BoardState) :
    Option (Option (List Action)) :=
  find_path_loop b fuel [start] [{ state := start, path := [], h := 0, g := 0 }]

/-! Concrete levels, used to instantiate the general theorems and to
exhibit counterexamples.  They are fed through the embedded
`parse_level_string` exactly as the program would read them. -/

/-- A trivial solvable level: agent, crate, goal in a row. -/
def level_trivial : String := "#####\n#@$.#\n#####"

/-- The parsed trivial level (parsing succeeds; see the witnesses). -/
def parsed_trivial : Board × BoardState :=
  ((parse_level_string level_trivial).toOption).getD
    (⟨[], [], [], [], 0⟩, ⟨(0, 0), []⟩)

/-- A level whose first push needs a one-step walk first, so the action
sequence of the push has length 2. -/
def level_walk : String := "######\n#@ $.#\n######"

/-- The parsed walk level. -/
def parsed_walk : Board × BoardState :=
  ((parse_level_string level_walk).toOption).getD
    (⟨[], [], [], [], 0⟩, ⟨(0, 0), []⟩)

/-- The initial search node of `find_path` (`h = 0`, `g = 0`, empty
back-pointer chain). -/
def start_node (s : BoardState) : Node :=
  { state := s, path := [], h := 0, g := 0 }

/-- Two chambers: the goal chamber is walled off from the agent and the
crate, so the goal's distance BFS never reaches the crate's tile. -/
def level_chambers : String := "#######\n#@$ #.#\n#######"

/-- The parsed chamber level. -/
def parsed_chambers : Board × BoardState :=
  ((parse_level_string level_chambers).toOption).getD
    (⟨[], [], [], [], 0⟩, ⟨(0, 0), []⟩)

/-- A level on which pushing the right crate left creates a pair with a
wall above the left crate and a wall below the right crate — frozen for
the code's rule, not frozen for the spec's matching-side rule. -/
def level_mixed : String :=
  "########\n#    ..#\n# #    #\n#@$ $  #\n#  #   #\n#      #\n########"

/-- The parsed mixed-side level. -/
def parsed_mixed : Board × BoardState :=
  ((parse_level_string level_mixed).toOption).getD
    (⟨[], [], [], [], 0⟩, ⟨(0, 0), []⟩)

/-- A two-crate level on which the A* loop (leftmost minimal-`h+g` pop)
and the uninformed breadth-first baseline return solutions with the same
number of pushes but different action-sequence lengths. -/
def level_div : String := "#######\n#@$.# #\n# $  .#\n#######"

/-- The parsed divergence level. -/
def parsed_div : Board × BoardState :=
  ((parse_level_string level_div).toOption).getD
    (⟨[], [], [], [], 0⟩, ⟨(0, 0), []⟩)

/-- Modelled from the spec: the uninformed breadth-first baseline search
over the same push-generation model — a FIFO queue in place of the
priority heap, the identical child generator, seen-set discipline and
path reconstruction (`none` = fuel exhausted, `some none` = queue
emptied, `some (some path)` = goal dequeued). -/
def bfs_baseline_loop (b : Board) :
    Nat → List BoardState → List Node → Option (Option (List Action))
  | 0, _, _ => none
  | fuel + 1, seen, queue =>
    match queue with
    | [] => some none
    | node :: rest =>
      if b.is_goal_state node.state then
        some (some (read_path_search node.path))
      else
        let sn := expand b seen node
        bfs_baseline_loop b fuel sn.1 (rest ++ sn.2)

/-- Modelled from the spec: the baseline search entry point, mirroring
`find_path`'s initialisation. -/
def bfs_baseline (fuel : Nat) (b : Board) (start : BoardState) :
    Option (Option (List Action)) :=
  bfs_baseline_loop b fuel [start] [{ state := start, path := [], h := 0, g := 0 }]

/-- Grid adjacency as stepped by the walk BFS of `create_children`
(truncated arithmetic, as in the embedded loops). -/
def adj (t t' : Nat × Nat) : Prop :=
  t' = (t.1 + 1, t.2) ∨ t' = (t.1 - 1, t.2) ∨
  t' = (t.1, t.2 + 1) ∨ t' = (t.1, t.2 - 1)

instance (t t' : Nat × Nat) : Decidable (adj t t') := by
  unfold adj; infer_instance

/-- The agent can walk from its current position to `t` through empty
(non-wall, non-crate) tiles — the reachability explored by the walk BFS
of `Board::create_children`. -/
inductive WalkReachable (b : Board) (s : BoardState) : (Nat × Nat) → Prop where
  | base : b.is_empty s s.player.1 s.player.2 = true → WalkReachable b s s.player
  | step {t t' : Nat × Nat} : WalkReachable b s t → adj t t' →
      b.is_empty s t'.1 t'.2 = true → WalkReachable b s t'

/-- Modelled from the spec: the frozen-pair rule as §4.3 states it, with
the wall required on the *matching* side of both crates (above both or
below both; left of both or right of both for the vertical pair). -/
def spec_frozen_at (b : Board) (s : BoardState) (x y : Nat) : Bool :=
  (b.is_crate s (x + 1) y
      && ((b.is_wall x (y - 1) && b.is_wall (x + 1) (y - 1))
          || (b.is_wall x (y + 1) && b.is_wall (x + 1) (y + 1)))
      && !(b.is_goal x y && b.is_goal (x + 1) y))
    || (b.is_crate s x (y + 1)
      && ((b.is_wall (x - 1) y && b.is_wall (x - 1) (y + 1))
          || (b.is_wall (x + 1) y && b.is_wall (x + 1) (y + 1)))
      && !(b.is_goal x y && b.is_goal x (y + 1)))

/-- Modelled from the spec: the whole-state frozen test under the
matching-side rule. -/
def spec_frozen_state (b : Board) (s : BoardState) : Bool :=
  (b.iter_crates s).any (fun c => spec_frozen_at b s c.1 c.2)

/-- Row-major index of a tile, as computed throughout board.rs. -/
def tidx (b : Board) (t : Nat × Nat) : Nat :=
  t.2 * b.width + t.1

/-- The guards of one push site in `Board::create_children`: crate at
`(cx, cy)`, empty non-dead destination `(dx, dy)`, resulting child not
frozen. -/
def push_ok (b : Board) (s : BoardState) (cx cy dx dy : Nat) : Prop :=
  b.is_crate s cx cy = true ∧ b.is_empty s dx dy = true ∧
  b.is_dead_tile dx dy = false ∧
  b.is_unsolvable (push_result b s cx cy dx dy) = false

/-- The four crate/destination patterns relative to an agent tile `p`,
as probed by the walk loop (up, down, left, right). -/
def push_from (p : Nat × Nat) (cx cy dx dy : Nat) : Prop :=
  ((cx, cy) = (p.1, p.2 - 1) ∧ (dx, dy) = (p.1, p.2 - 2)) ∨
  ((cx, cy) = (p.1, p.2 + 1) ∧ (dx, dy) = (p.1, p.2 + 2)) ∨
  ((cx, cy) = (p.1 - 1, p.2) ∧ (dx, dy) = (p.1 - 2, p.2)) ∨
  ((cx, cy) = (p.1 + 1, p.2) ∧ (dx, dy) = (p.1 + 2, p.2))

/-- All four pushes probed at an agent tile `t` are present in
`children` whenever their guards hold. -/
def pushes_recorded (b : Board) (s : BoardState) (t : Nat × Nat)
    (children : List (BoardState × List Action)) : Prop :=
  (push_ok b s t.1 (t.2 - 1) t.1 (t.2 - 2) →
    ∃ acts, (push_result b s t.1 (t.2 - 1) t.1 (t.2 - 2), acts) ∈ children) ∧
  (push_ok b s t.1 (t.2 + 1) t.1 (t.2 + 2) →
    ∃ acts, (push_result b s t.1 (t.2 + 1) t.1 (t.2 + 2), acts) ∈ children) ∧
  (push_ok b s (t.1 - 1) t.2 (t.1 - 2) t.2 →
    ∃ acts, (push_result b s (t.1 - 1) t.2 (t.1 - 2) t.2, acts) ∈ children) ∧
  (push_ok b s (t.1 + 1) t.2 (t.1 + 2) t.2 →
    ∃ acts, (push_result b s (t.1 + 1) t.2 (t.1 + 2) t.2, acts) ∈ children)

/-- A successor that §4.3's contract admits, with the code's frozen-pair
filter: a push from a walk-reachable agent tile, crate present, empty
non-dead destination, child not frozen. -/
def legal_push_child (b : Board) (s : BoardState) (child : BoardState) : Prop :=
  ∃ p cx cy dx dy, WalkReachable b s p ∧ push_from p cx cy dx dy ∧
    push_ok b s cx cy dx dy ∧ child = push_result b s cx cy dx dy

/-- An enclosed-interior certificate: a duplicate-free set of tiles, none
on the border, all non-wall, closed under adjacency up to walls.  The
flood fill of `parse_level_string` guarantees such a set for every level
it accepts. -/
structure InteriorOk (b : Board) (I : List (Nat × Nat)) : Prop where
  nodup : I.Nodup
  bounds : ∀ t ∈ I, 0 < t.1 ∧ t.1 + 1 < b.width ∧ 0 < t.2 ∧
    (t.2 + 2) * b.width ≤ b.walls.length
  nonwall : ∀ t ∈ I, b.is_wall t.1 t.2 = false
  closed : ∀ t ∈ I, ∀ t', adj t t' → b.is_wall t'.1 t'.2 = true ∨ t' ∈ I

/-- Number of interior tiles the walk BFS has not yet marked. -/
def countUnseenI (b : Board) (I : List (Nat × Nat)) (sn : List Bool) : Nat :=
  (I.filter (fun t => !sn.getD (tidx b t) false)).length

/-- A crate path inside the interior `I`: the positions a crate passes
through when pushed from `t` to `g`, one push per step.  Every tile after
the first is an interior, non-wall, non-dead tile — exactly the tiles
the push generator allows as destinations and the goal-distance BFS
travels. -/
inductive CratePath (b : Board) (I : List (Nat × Nat)) :
    (Nat × Nat) → (Nat × Nat) → Nat → Prop where
  | refl (t : Nat × Nat) : CratePath b I t t 0
  | step {t t' g : Nat × Nat} {n : Nat} :
      adj t t' → t' ∈ I →
      b.is_wall t'.1 t'.2 = false → b.is_dead_tile t'.1 t'.2 = false →
      CratePath b I t' g n → CratePath b I t g (n + 1)

/-- `s` reaches a goal state in `n` generator steps. -/
inductive ReachesGoal (b : Board) : BoardState → Nat → Prop where
  | done {s : BoardState} : b.is_goal_state s = true → ReachesGoal b s 0
  | step {s c : BoardState} {acts : List Action} {n : Nat} :
      (c, acts) ∈ b.create_children s → ReachesGoal b c n →
      ReachesGoal b s (n + 1)

/-- A crate-to-goal assignment certificate of total cost at most `k`:
a pairing of the crates of `s` with the goal coordinates, each pair
carrying a crate path of recorded length. -/
def MatchBound (b : Board) (I : List (Nat × Nat)) (s : BoardState) (k : Nat) : Prop :=
  ∃ P : List ((Nat × Nat) × (Nat × Nat) × Nat),
    (P.map (fun e => e.1)).Perm (b.iter_crates s) ∧
    (P.map (fun e => e.2.1)).Perm (b.goals.map (fun g => g.1)) ∧
    (∀ e ∈ P, CratePath b I e.1 e.2.1 e.2.2) ∧
    (P.map (fun e => e.2.2)).sum ≤ k

/-- A tile the goal-distance BFS may occupy: non-wall and non-dead. -/
def allowed_tile (width : Nat) (walls dead_tiles : List Bool) (t : Nat × Nat) : Prop :=
  walls.getD (t.2 * width + t.1) false = false ∧
  dead_tiles.getD (t.2 * width + t.1) false = false

/-- Reachability along allowed tiles, as explored by the goal-distance
BFS of `Board::calculate_goal_distance` (neighbour coordinates use the
same truncated arithmetic as the embedded loop). -/
inductive GoalReachable (width : Nat) (walls dead_tiles : List Bool)
    (goal : Nat × Nat) : (Nat × Nat) → Prop where
  | base : allowed_tile width walls dead_tiles goal →
      GoalReachable width walls dead_tiles goal goal
  | step {t t' : Nat × Nat} : GoalReachable width walls dead_tiles goal t →
      (t' = (t.1 + 1, t.2) ∨ t' = (t.1 - 1, t.2) ∨
       t' = (t.1, t.2 + 1) ∨ t' = (t.1, t.2 - 1)) →
      allowed_tile width walls dead_tiles t' →
      GoalReachable width walls dead_tiles goal t'

/-- One **unrestricted** legal push — the game move of §4.3 without the
dead-square and frozen-pair pruning: the agent walks to `p` through
empty tiles, a crate sits in the probed direction, and the tile behind
the crate is empty. -/
def UStep (b : Board) (s z : BoardState) : Prop :=
  ∃ p cx cy dx dy, WalkReachable b s p ∧ push_from p cx cy dx dy ∧
    b.is_crate s cx cy = true ∧ b.is_empty s dx dy = true ∧
    z = push_result b s cx cy dx dy

/-- `s` reaches a state with every goal filled in `n` unrestricted
pushes. -/
inductive UReachesGoal (b : Board) : BoardState → Nat → Prop where
  | done {s : BoardState} : b.is_goal_state s = true → UReachesGoal b s 0
  | step {s z : BoardState} {n : Nat} :
      UStep b s z → UReachesGoal b z n → UReachesGoal b s (n + 1)

/-- Soundness certificate for the dead-tile mask: a dead tile is never a
goal tile, and each of the four pushes out of a dead tile is blocked by
a wall (at the destination or at the agent's pushing spot) or lands on
another dead tile.  The masks computed by `find_dead_tiles` have this
shape — corner tiles carry both a vertical and a horizontal wall, tiles
inside a marked run are walled along the run's cross axis and their run
neighbours are dead — and the property is decidable per board. -/
def DeadOk (b : Board) : Prop :=
  ∀ i, i < b.dead_tiles.length → b.dead_tiles.getD i false = true →
    b.goal_tiles.getD i false = false ∧
    (b.is_wall (i % b.width) (i / b.width - 1) = true ∨
     b.is_wall (i % b.width) (i / b.width + 1) = true ∨
     b.is_dead_tile (i % b.width) (i / b.width - 1) = true) ∧
    (b.is_wall (i % b.width) (i / b.width + 1) = true ∨
     b.is_wall (i % b.width) (i / b.width - 1) = true ∨
     b.is_dead_tile (i % b.width) (i / b.width + 1) = true) ∧
    (b.is_wall (i % b.width - 1) (i / b.width) = true ∨
     b.is_wall (i % b.width + 1) (i / b.width) = true ∨
     b.is_dead_tile (i % b.width - 1) (i / b.width) = true) ∧
    (b.is_wall (i % b.width + 1) (i / b.width) = true ∨
     b.is_wall (i % b.width - 1) (i / b.width) = true ∨
     b.is_dead_tile (i % b.width + 1) (i / b.width) = true)

/-- A horizontally adjacent crate pair matching the first disjunct of
`Board::frozen_at`: each crate walled above or below, not both tiles
goals. -/
def HPair (b : Board) (s : BoardState) (t : Nat × Nat) : Prop :=
  b.is_crate s t.1 t.2 = true ∧ b.is_crate s (t.1 + 1) t.2 = true ∧
  (b.is_wall t.1 (t.2 - 1) = true ∨ b.is_wall t.1 (t.2 + 1) = true) ∧
  (b.is_wall (t.1 + 1) (t.2 - 1) = true ∨
    b.is_wall (t.1 + 1) (t.2 + 1) = true) ∧
  ¬(b.is_goal t.1 t.2 = true ∧ b.is_goal (t.1 + 1) t.2 = true)

/-- A vertically adjacent crate pair matching the second disjunct of
`Board::frozen_at`. -/
def VPair (b : Board) (s : BoardState) (t : Nat × Nat) : Prop :=
  b.is_crate s t.1 t.2 = true ∧ b.is_crate s t.1 (t.2 + 1) = true ∧
  (b.is_wall (t.1 - 1) t.2 = true ∨ b.is_wall (t.1 + 1) t.2 = true) ∧
  (b.is_wall (t.1 - 1) (t.2 + 1) = true ∨
    b.is_wall (t.1 + 1) (t.2 + 1) = true) ∧
  ¬(b.is_goal t.1 t.2 = true ∧ b.is_goal t.1 (t.2 + 1) = true)

/-- A state holding a permanently stuck crate: a crate on a dead tile,
or a frozen pair.  Such a state never reaches a goal state. -/
def StuckState (b : Board) (I : List (Nat × Nat)) (s : BoardState) : Prop :=
  (∃ t ∈ I, b.is_crate s t.1 t.2 = true ∧ b.is_dead_tile t.1 t.2 = true) ∨
  (∃ t ∈ I, HPair b s t) ∨
  (∃ t ∈ I, VPair b s t)

/-- The data-model invariant a parsed level establishes and every push
preserves: crates decode to interior tiles, the agent is interior, the
crate bitset spans the board, and the crate count equals the goal
count. -/
def SInv (b : Board) (I : List (Nat × Nat)) (s : BoardState) : Prop :=
  (∀ i, i < s.crates.length → s.crates.getD i false = true →
    ∃ t ∈ I, tidx b t = i) ∧
  s.player ∈ I ∧
  s.crates.length = b.walls.length ∧
  (b.iter_crates s).length = b.goals.length

/-! ### Theorems -/

lemma getD_set_self {α : Type} (l : List α) (i : Nat) (h : i < l.length) (v d : α) :
    (l.set i v).getD i d = v := by
  simp [List.getD_eq_getElem?_getD, List.getElem?_set_self, h]

lemma getD_set_ne {α : Type} (l : List α) (i j : Nat) (h : i ≠ j) (v d : α) :
    (l.set i v).getD j d = l.getD j d := by
  simp [List.getD_eq_getElem?_getD, List.getElem?_set_ne, h]

lemma getD_set_ite {α : Type} (l : List α) (i : Nat) (v d : α) :
    (l.set i v).getD i d = if i < l.length then v else l.getD i d := by
  by_cases h : i < l.length
  · simp [getD_set_self, h]
  · rw [List.set_eq_of_length_le (Nat.le_of_not_lt h)]
    simp [h]

/-- C9: `is_goal_state` returns true iff every goal tile's crate bit is
set; clearing the crate bit of any goal tile of a solved state makes it
return false; setting the crate bit of the one unoccupied goal tile of an
otherwise-solved state makes it return true.  (`hwf`: the goal tiles lie
inside the crate bitset, as for every parsed level.) -/
theorem is_goal_state_spec (b : Board) (s : BoardState)
    (hwf : ∀ g ∈ b.goals, g.1.2 * b.width + g.1.1 < s.crates.length) :
    (b.is_goal_state s = true ↔
      ∀ g ∈ b.goals, b.is_crate s g.1.1 g.1.2 = true) ∧
    (b.is_goal_state s = true →
      ∀ g ∈ b.goals, b.is_goal_state (b.set_crate s g.1.1 g.1.2 false) = false) ∧
    (∀ g ∈ b.goals, b.is_crate s g.1.1 g.1.2 = false →
      (∀ g' ∈ b.goals,
        g'.1.2 * b.width + g'.1.1 ≠ g.1.2 * b.width + g.1.1 →
        b.is_crate s g'.1.1 g'.1.2 = true) →
      b.is_goal_state (b.set_crate s g.1.1 g.1.2 true) = true) := by
  refine ⟨?_, ?_, ?_⟩
  · simp [Board.is_goal_state, List.all_eq_true]
  · intro _h g hg
    have hbit : b.is_crate (b.set_crate s g.1.1 g.1.2 false) g.1.1 g.1.2 = false := by
      simp [Board.is_crate, Board.set_crate, List.getElem?_set_self, hwf g hg]
    simp only [Board.is_goal_state, List.all_eq_false]
    exact ⟨g, hg, by simp [hbit]⟩
  · intro g hg _hunset hrest
    simp only [Board.is_goal_state, List.all_eq_true]
    intro g' hg'
    by_cases hidx : g'.1.2 * b.width + g'.1.1 = g.1.2 * b.width + g.1.1
    · simp [Board.is_crate, Board.set_crate, hidx, List.getElem?_set_self, hwf g hg]
    · have hbit := hrest g' hg' hidx
      simpa [Board.is_crate, Board.set_crate,
        List.getElem?_set_ne (fun h => hidx h.symm)] using hbit

/-- Witness for C9 at the parsed trivial level. -/
theorem is_goal_state_spec_witness :
    (∀ g ∈ parsed_trivial.1.goals,
      g.1.2 * parsed_trivial.1.width + g.1.1 < parsed_trivial.2.crates.length) ∧
    ((parsed_trivial.1.is_goal_state parsed_trivial.2 = true ↔
      ∀ g ∈ parsed_trivial.1.goals,
        parsed_trivial.1.is_crate parsed_trivial.2 g.1.1 g.1.2 = true) ∧
    (parsed_trivial.1.is_goal_state parsed_trivial.2 = true →
      ∀ g ∈ parsed_trivial.1.goals,
        parsed_trivial.1.is_goal_state
          (parsed_trivial.1.set_crate parsed_trivial.2 g.1.1 g.1.2 false) = false) ∧
    (∀ g ∈ parsed_trivial.1.goals,
      parsed_trivial.1.is_crate parsed_trivial.2 g.1.1 g.1.2 = false →
      (∀ g' ∈ parsed_trivial.1.goals,
        g'.1.2 * parsed_trivial.1.width + g'.1.1 ≠
          g.1.2 * parsed_trivial.1.width + g.1.1 →
        parsed_trivial.1.is_crate parsed_trivial.2 g'.1.1 g'.1.2 = true) →
      parsed_trivial.1.is_goal_state
        (parsed_trivial.1.set_crate parsed_trivial.2 g.1.1 g.1.2 true) = true)) :=
  ⟨by decide, is_goal_state_spec parsed_trivial.1 parsed_trivial.2 (by decide)⟩

lemma expand_step_eq (b : Board) (node : Node) (acc : List BoardState × List Node)
    (ca : BoardState × List Action) :
    expand_step b node acc ca =
      if ca.1 ∈ acc.1 then acc
      else (acc.1 ++ [ca.1],
            acc.2 ++ [{ state := ca.1, path := ca.2 :: node.path,
                        h := b.heuristic ca.1, g := node.g + 1 }]) := by
  simp [expand_step, List.elem_eq_mem]

/-- The invariant maintained by the child loop of `find_path`: the seen
set only grows, and every pushed node's state was freshly inserted into
it, was not in the initial seen set, and carries `g = node.g + 1`. -/
lemma expand_invariant (b : Board) (node : Node) (seen0 : List BoardState) :
    ∀ (cs : List (BoardState × List Action)) (acc : List BoardState × List Node),
      seen0 ⊆ acc.1 →
      (∀ nd ∈ acc.2, nd.state ∈ acc.1 ∧ nd.state ∉ seen0 ∧ nd.g = node.g + 1) →
      seen0 ⊆ (cs.foldl (expand_step b node) acc).1 ∧
      (∀ nd ∈ (cs.foldl (expand_step b node) acc).2,
        nd.state ∈ (cs.foldl (expand_step b node) acc).1 ∧
        nd.state ∉ seen0 ∧ nd.g = node.g + 1) := by
  intro cs
  induction cs with
  | nil => intro acc h1 h2; exact ⟨h1, h2⟩
  | cons c cs ih =>
    intro acc h1 h2
    simp only [List.foldl_cons, expand_step_eq]
    by_cases hc : c.1 ∈ acc.1
    · simp only [hc, if_true]
      exact ih acc h1 h2
    · simp only [hc, if_false]
      refine ih _ ?_ ?_
      · intro st hst
        exact List.mem_append.mpr (Or.inl (h1 hst))
      · intro nd hnd
        rcases List.mem_append.mp hnd with hnd | hnd
        · obtain ⟨ha, hb, hg⟩ := h2 nd hnd
          exact ⟨List.mem_append.mpr (Or.inl ha), hb, hg⟩
        · obtain rfl := List.mem_singleton.mp hnd
          exact ⟨List.mem_append.mpr (Or.inr (by simp)),
            fun hmem => hc (h1 hmem), rfl⟩

/-- The seen set of the child loop only grows. -/
lemma expand_seen_mono (b : Board) (node : Node) :
    ∀ (cs : List (BoardState × List Action)) (acc : List BoardState × List Node)
      (st : BoardState), st ∈ acc.1 → st ∈ (cs.foldl (expand_step b node) acc).1 := by
  intro cs
  induction cs with
  | nil => exact fun _ _ h => h
  | cons c cs ih =>
    intro acc st h
    simp only [List.foldl_cons, expand_step_eq]
    refine ih _ st ?_
    by_cases hc : c.1 ∈ acc.1 <;> simp [hc, h]

/-- Every child processed by the loop ends up in the seen set. -/
lemma expand_child_in_seen (b : Board) (node : Node) :
    ∀ (cs : List (BoardState × List Action)) (acc : List BoardState × List Node),
      ∀ ca ∈ cs, ca.1 ∈ (cs.foldl (expand_step b node) acc).1 := by
  intro cs
  induction cs with
  | nil => intro acc ca h; cases h
  | cons c cs ih =>
    intro acc ca hca
    rcases List.mem_cons.mp hca with rfl | h
    · simp only [List.foldl_cons]
      refine expand_seen_mono b node cs _ ca.1 ?_
      rw [expand_step_eq]
      by_cases hc : ca.1 ∈ acc.1 <;> simp [hc]
    · exact ih _ ca h

/-- C1 (corrected): every node pushed by `find_path`'s expansion step
carries `g = parent.g + 1` — one cost unit per push, regardless of the
length of the action sequence of that push. -/
theorem expand_cost_per_push (b : Board) (seen : List BoardState) (node : Node) :
    ∀ nd ∈ (expand b seen node).2, nd.g = node.g + 1 :=
  fun nd hnd =>
    ((expand_invariant b node seen (b.create_children node.state) (seen, [])
      (fun _ h => h) (by simp)).2 nd hnd).2.2

/-- Witness for `expand_cost_per_push` at the trivial level. -/
theorem expand_cost_per_push_witness :
    ((expand parsed_trivial.1 [parsed_trivial.2] (start_node parsed_trivial.2)).2.headD
        (start_node parsed_trivial.2)) ∈
      (expand parsed_trivial.1 [parsed_trivial.2] (start_node parsed_trivial.2)).2 ∧
    ((expand parsed_trivial.1 [parsed_trivial.2] (start_node parsed_trivial.2)).2.headD
        (start_node parsed_trivial.2)).g = (start_node parsed_trivial.2).g + 1 :=
  ⟨by decide,
   expand_cost_per_push parsed_trivial.1 [parsed_trivial.2]
     (start_node parsed_trivial.2)
     ((expand parsed_trivial.1 [parsed_trivial.2]
        (start_node parsed_trivial.2)).2.headD (start_node parsed_trivial.2))
     (by decide)⟩

/-- C1 counterexample: on the walk level the sole child's action sequence
has length 2, yet the node is pushed with `g = 1 ≠ 0 + 2`: the cost is
not `g + (length of the action sequence)`. -/
theorem expand_cost_counterexample :
    ∃ nd ∈ (expand parsed_walk.1 [parsed_walk.2] (start_node parsed_walk.2)).2,
      (nd.path.headD []).length = 2 ∧ nd.g = 1 ∧
      nd.g ≠ (start_node parsed_walk.2).g + (nd.path.headD []).length := by
  decide

/-- C2 (corrected): a child state is added to the visited set at the
moment it is inserted into the frontier, and a state already in the
visited set is never pushed onto the frontier again. -/
theorem expand_marks_at_insertion (b : Board) (seen : List BoardState) (node : Node) :
    (∀ ca ∈ b.create_children node.state, ca.1 ∈ (expand b seen node).1) ∧
    (∀ nd ∈ (expand b seen node).2,
      nd.state ∈ (expand b seen node).1 ∧ nd.state ∉ seen) := by
  constructor
  · intro ca hca
    exact expand_child_in_seen b node _ (seen, []) ca hca
  · intro nd hnd
    have := (expand_invariant b node seen (b.create_children node.state)
      (seen, []) (fun _ h => h) (by simp)).2 nd hnd
    exact ⟨this.1, this.2.1⟩

/-- Witness for `expand_marks_at_insertion` at the trivial level. -/
theorem expand_marks_at_insertion_witness :
    ((parsed_trivial.1.create_children parsed_trivial.2).headD
        (parsed_trivial.2, []) ∈ parsed_trivial.1.create_children parsed_trivial.2) ∧
    ((parsed_trivial.1.create_children parsed_trivial.2).headD
        (parsed_trivial.2, [])).1 ∈
      (expand parsed_trivial.1 [parsed_trivial.2] (start_node parsed_trivial.2)).1 :=
  ⟨by decide,
   (expand_marks_at_insertion parsed_trivial.1 [parsed_trivial.2]
      (start_node parsed_trivial.2)).1 _ (by decide)⟩

/-- C2 counterexample: right after the first pop (of the start node), the
visited set already contains a state that has never been popped — states
are marked visited at insertion, not at pop. -/
theorem visited_at_insertion_counterexample :
    ∃ st ∈ (expand parsed_trivial.1 [parsed_trivial.2]
        (start_node parsed_trivial.2)).1,
      st ≠ parsed_trivial.2 := by
  decide

/-- Invariant of the goal-distance BFS loop: every queue entry whose tile
is allowed is goal-reachable, and every non-zero distance entry belongs
to a goal-reachable tile. -/
lemma goal_distance_loop_reachable (width : Nat) (walls dead_tiles : List Bool)
    (goal : Nat × Nat) :
    ∀ (fuel : Nat) (dists : List Nat) (seen : List Bool)
      (queue : List (Nat × Nat × Nat)),
      (∀ e ∈ queue, allowed_tile width walls dead_tiles (e.1, e.2.1) →
        GoalReachable width walls dead_tiles goal (e.1, e.2.1)) →
      (∀ i, dists.getD i 0 ≠ 0 →
        ∃ t, t.2 * width + t.1 = i ∧ GoalReachable width walls dead_tiles goal t) →
      ∀ i, (calculate_goal_distance_loop width walls dead_tiles
          fuel dists seen queue).getD i 0 ≠ 0 →
        ∃ t, t.2 * width + t.1 = i ∧ GoalReachable width walls dead_tiles goal t := by
  intro fuel
  induction fuel with
  | zero =>
    intro dists seen queue _h1 h2 i
    simpa [calculate_goal_distance_loop] using h2 i
  | succ fuel ih =>
    intro dists seen queue h1 h2 i
    match queue with
    | [] => simpa [calculate_goal_distance_loop] using h2 i
    | (x, y, d) :: queue =>
      simp only [calculate_goal_distance_loop]
      by_cases hg : !seen.getD (y * width + x) false
          && !walls.getD (y * width + x) false
          && !dead_tiles.getD (y * width + x) false
      · have hall : allowed_tile width walls dead_tiles (x, y) := by
          simp only [Bool.and_eq_true, Bool.not_eq_true'] at hg
          exact ⟨hg.1.2, hg.2⟩
        have hr : GoalReachable width walls dead_tiles goal (x, y) :=
          h1 (x, y, d) (List.mem_cons_self _ _) hall
        rw [if_pos hg]
        refine ih _ _ _ ?_ ?_ i
        · intro e he hae
          rcases List.mem_append.mp he with he | he
          · exact h1 e (List.mem_cons_of_mem _ he) hae
          · have hstep : (e.1, e.2.1) = (x + 1, y) ∨ (e.1, e.2.1) = (x - 1, y) ∨
                (e.1, e.2.1) = (x, y + 1) ∨ (e.1, e.2.1) = (x, y - 1) := by
              simp only [List.mem_cons, List.not_mem_nil, or_false] at he
              rcases he with rfl | rfl | rfl | rfl <;> simp
            exact GoalReachable.step hr hstep hae
        · intro j hj
          by_cases hji : j = y * width + x
          · subst hji
            exact ⟨(x, y), rfl, hr⟩
          · rw [getD_set_ne _ _ _ (fun h => hji h.symm)] at hj
            exact h2 j hj
      · rw [if_neg hg]
        exact ih _ _ _ (fun e he hae => h1 e (List.mem_cons_of_mem _ he) hae) h2 i

/-- C3 (corrected): a non-zero entry of a goal-distance field belongs to
a tile the goal's BFS can reach; contrapositively, every tile the BFS
does not reach keeps the initialisation value `0` — not a distinguished
"unavailable" value. -/
theorem goal_distance_unreached (goal : Nat × Nat) (width : Nat)
    (walls dead_tiles : List Bool) (i : Nat)
    (h : (calculate_goal_distance goal width walls dead_tiles).getD i 0 ≠ 0) :
    ∃ t, t.2 * width + t.1 = i ∧
      GoalReachable width walls dead_tiles goal t := by
  refine goal_distance_loop_reachable width walls dead_tiles goal _ _ _ _ ?_ ?_ i h
  · intro e he hall
    have he' : e = (goal.1, goal.2, 0) := by simpa using he
    subst he'
    exact GoalReachable.base hall
  · intro j hj
    simp [List.getD_eq_getElem?_getD, List.getElem?_replicate] at hj
    exact absurd (by split at hj <;> simp_all) hj

/-- Witness for `goal_distance_unreached` at the trivial level. -/
theorem goal_distance_unreached_witness :
    (calculate_goal_distance (3, 1) 5 parsed_trivial.1.walls
        parsed_trivial.1.dead_tiles).getD 7 0 ≠ 0 ∧
    ∃ t, t.2 * 5 + t.1 = 7 ∧
      GoalReachable 5 parsed_trivial.1.walls parsed_trivial.1.dead_tiles (3, 1) t :=
  ⟨by decide,
   goal_distance_unreached (3, 1) 5 parsed_trivial.1.walls
     parsed_trivial.1.dead_tiles 7 (by decide)⟩

/-- C3 counterexample: on the chamber level the crate's tile `(2, 1)`
(index 9) is never reached by the goal's BFS, yet its stored value is
`0`, and that `0` is selected as the crate's minimum: the heuristic
collapses to `0` on an unsolved state. -/
theorem goal_distance_zero_counterexample :
    ∃ g ∈ parsed_chambers.1.goals,
      g.1 ≠ (2, 1) ∧ g.2.getD (1 * parsed_chambers.1.width + 2) 0 = 0 ∧
      parsed_chambers.1.is_crate parsed_chambers.2 2 1 = true ∧
      parsed_chambers.1.heuristic parsed_chambers.2 = 0 ∧
      parsed_chambers.1.is_goal_state parsed_chambers.2 = false := by
  decide

/-- Anything `try_push` adds beyond the incoming accumulator is a
legal push child. -/
lemma try_push_mem (b : Board) (s : BoardState) (paths : List (Option Action))
    (index : Nat) (a : Action) (cx cy dx dy : Nat)
    (children : List (BoardState × List Action)) :
    ∀ ca ∈ b.try_push s paths index a cx cy dx dy children,
      ca ∈ children ∨ is_push_child b s ca.1 := by
  intro ca hca
  unfold Board.try_push at hca
  split at hca
  case isTrue h =>
    split at hca
    case isTrue h2 =>
      rcases List.mem_append.mp hca with h3 | h3
      · exact Or.inl h3
      · obtain rfl := List.mem_singleton.mp h3
        simp only [Bool.and_eq_true, Bool.not_eq_true'] at h h2
        exact Or.inr ⟨cx, cy, dx, dy, h.1.1, h.1.2, h.2, rfl, h2⟩
    case isFalse => exact Or.inl hca
  case isFalse => exact Or.inl hca

/-- Everything `create_children_loop` adds beyond the incoming
accumulator is a legal push child. -/
lemma create_children_loop_mem (b : Board) (s : BoardState) :
    ∀ (fuel : Nat) (paths : List (Option Action)) (seen : List Bool)
      (queue : List (Nat × Nat × Option Action))
      (children : List (BoardState × List Action)),
      ∀ ca ∈ create_children_loop b s fuel paths seen queue children,
        ca ∈ children ∨ is_push_child b s ca.1 := by
  intro fuel
  induction fuel with
  | zero =>
    intro paths seen queue children ca hca
    exact Or.inl (by simpa [create_children_loop] using hca)
  | succ fuel ih =>
    intro paths seen queue children ca hca
    match queue with
    | [] => exact Or.inl (by simpa [create_children_loop] using hca)
    | (x, y, action) :: queue =>
      simp only [create_children_loop] at hca
      split at hca
      · rcases ih _ _ _ _ ca hca with h | h
        · rcases try_push_mem b s _ _ _ _ _ _ _ _ ca h with h | h
          · rcases try_push_mem b s _ _ _ _ _ _ _ _ ca h with h | h
            · rcases try_push_mem b s _ _ _ _ _ _ _ _ ca h with h | h
              · exact try_push_mem b s _ _ _ _ _ _ _ _ ca h
              · exact Or.inr h
            · exact Or.inr h
          · exact Or.inr h
        · exact Or.inr h
      · exact ih _ _ _ _ ca hca

/-- Every child returned by `Board::create_children` is a legal push
child. -/
lemma create_children_mem (b : Board) (s : BoardState) :
    ∀ ca ∈ b.create_children s, is_push_child b s ca.1 := by
  intro ca hca
  rcases create_children_loop_mem b s _ _ _ _ _ ca hca with h | h
  · cases h
  · exact h

lemma push_result_crates (b : Board) (s : BoardState) (cx cy dx dy : Nat) :
    (push_result b s cx cy dx dy).crates =
      (s.crates.set (dy * b.width + dx) true).set (cy * b.width + cx) false := by
  simp [push_result, Board.set_crate]

/-- C6: a successor produced by `create_children` never has a crate on a
dead tile, provided the parent state has none (pushes onto dead tiles
are refused at generation time).  The crate-bit hypothesis is stated
over the bitset's indices. -/
theorem create_children_no_dead_crates (b : Board) (s : BoardState)
    (hs : ∀ i, i < s.crates.length → s.crates.getD i false = true →
      b.dead_tiles.getD i false = false) :
    ∀ ca ∈ b.create_children s, ∀ i,
      ca.1.crates.getD i false = true → b.dead_tiles.getD i false = false := by
  intro ca hca i hi
  obtain ⟨cx, cy, dx, dy, _hcr, _hemp, hdead, hchild, _⟩ := create_children_mem b s ca hca
  rw [hchild, push_result_crates] at hi
  have hs' : ∀ j, s.crates.getD j false = true → b.dead_tiles.getD j false = false := by
    intro j hj
    by_cases hlen : j < s.crates.length
    · exact hs j hlen hj
    · rw [List.getD_eq_default _ _ (Nat.le_of_not_lt hlen)] at hj
      cases hj
  by_cases h1 : i = cy * b.width + cx
  · subst h1
    rw [getD_set_ite] at hi
    split at hi
    · cases hi
    · rename_i hlen
      rw [List.length_set] at hlen
      by_cases h2 : cy * b.width + cx = dy * b.width + dx
      · rw [← h2] at hi
        rw [getD_set_ite] at hi
        split at hi
        · exfalso; omega
        · exact hs' _ hi
      · rw [getD_set_ne _ _ _ (fun h => h2 h.symm)] at hi
        exact hs' _ hi
  · rw [getD_set_ne _ _ _ (fun h => h1 h.symm)] at hi
    by_cases h2 : i = dy * b.width + dx
    · subst h2
      rw [getD_set_ite] at hi
      split at hi
      · exact hdead
      · exact hs' _ hi
    · rw [getD_set_ne _ _ _ (fun h => h2 h.symm)] at hi
      exact hs' _ hi

/-- Witness for `create_children_no_dead_crates` at the trivial level. -/
theorem create_children_no_dead_crates_witness :
    (∀ i, i < parsed_trivial.2.crates.length →
      parsed_trivial.2.crates.getD i false = true →
      parsed_trivial.1.dead_tiles.getD i false = false) ∧
    ((parsed_trivial.1.create_children parsed_trivial.2).headD
        (parsed_trivial.2, []) ∈
      parsed_trivial.1.create_children parsed_trivial.2) ∧
    parsed_trivial.1.dead_tiles.getD 8 false = false :=
  ⟨by decide, by decide,
   create_children_no_dead_crates parsed_trivial.1 parsed_trivial.2 (by decide)
     ((parsed_trivial.1.create_children parsed_trivial.2).headD
       (parsed_trivial.2, []))
     (by decide) 8 (by decide)⟩

/-- C8 counterexample: on the mixed-side level the push of the crate at
`(4, 3)` to `(3, 3)` is a legal push (reachable origin, empty non-dead
destination) whose result is *not* frozen under the spec's matching-side
rule, yet `create_children` discards it — the code checks the two walls
with independent disjunctions, not on a matching side. -/
theorem frozen_rule_counterexample :
    WalkReachable parsed_mixed.1 parsed_mixed.2 (5, 3) ∧
    parsed_mixed.1.is_crate parsed_mixed.2 4 3 = true ∧
    parsed_mixed.1.is_empty parsed_mixed.2 3 3 = true ∧
    parsed_mixed.1.is_dead_tile 3 3 = false ∧
    spec_frozen_state parsed_mixed.1
      (push_result parsed_mixed.1 parsed_mixed.2 4 3 3 3) = false ∧
    ∀ ca ∈ parsed_mixed.1.create_children parsed_mixed.2,
      ca.1 ≠ push_result parsed_mixed.1 parsed_mixed.2 4 3 3 3 := by
  refine ⟨?_, by decide, by decide, by decide, by decide, by decide⟩
  have hp : parsed_mixed.2.player = (1, 3) := by decide
  have h0 : WalkReachable parsed_mixed.1 parsed_mixed.2 (1, 3) := by
    rw [← hp]; exact .base (by decide)
  have h1 : WalkReachable parsed_mixed.1 parsed_mixed.2 (1, 4) :=
    .step h0 (by decide) (by decide)
  have h2 : WalkReachable parsed_mixed.1 parsed_mixed.2 (2, 4) :=
    .step h1 (by decide) (by decide)
  have h3 : WalkReachable parsed_mixed.1 parsed_mixed.2 (2, 5) :=
    .step h2 (by decide) (by decide)
  have h4 : WalkReachable parsed_mixed.1 parsed_mixed.2 (3, 5) :=
    .step h3 (by decide) (by decide)
  have h5 : WalkReachable parsed_mixed.1 parsed_mixed.2 (4, 5) :=
    .step h4 (by decide) (by decide)
  have h6 : WalkReachable parsed_mixed.1 parsed_mixed.2 (5, 5) :=
    .step h5 (by decide) (by decide)
  have h7 : WalkReachable parsed_mixed.1 parsed_mixed.2 (5, 4) :=
    .step h6 (by decide) (by decide)
  exact .step h7 (by decide) (by decide)

lemma getD_set_true_mono (sn : List Bool) (i j : Nat)
    (h : sn.getD i false = true) : (sn.set j true).getD i false = true := by
  by_cases hij : j = i
  · subst hij
    rw [getD_set_ite]
    split
    · rfl
    · exact h
  · rwa [getD_set_ne _ _ _ hij]

lemma tidx_inj (b : Board) (t t' : Nat × Nat) (ht : t.1 < b.width)
    (ht' : t'.1 < b.width) (h : tidx b t = tidx b t') : t = t' := by
  have h0 : 0 < b.width := Nat.lt_of_le_of_lt (Nat.zero_le _) ht
  unfold tidx at h
  have hx : t.1 = t'.1 := by
    have e1 : (t.2 * b.width + t.1) % b.width = t.1 := by
      rw [Nat.mul_comm, Nat.mul_add_mod]; exact Nat.mod_eq_of_lt ht
    have e2 : (t'.2 * b.width + t'.1) % b.width = t'.1 := by
      rw [Nat.mul_comm, Nat.mul_add_mod]; exact Nat.mod_eq_of_lt ht'
    rw [← e1, ← e2, h]
  have hy : t.2 = t'.2 := by
    have h2 : t.2 * b.width = t'.2 * b.width := by omega
    exact Nat.eq_of_mul_eq_mul_right h0 h2
  exact Prod.ext hx hy

/-- A walk-reachable tile lies in the enclosed interior. -/
lemma walk_reach_in_interior (b : Board) (s : BoardState) (I : List (Nat × Nat))
    (hI : InteriorOk b I) (hplayer : s.player ∈ I) :
    ∀ t, WalkReachable b s t → t ∈ I := by
  intro t ht
  induction ht with
  | base _ => exact hplayer
  | step hw hadj hemp ih =>
    rcases hI.closed _ ih _ hadj with hwall | hin
    · exfalso
      simp only [Board.is_empty, Bool.and_eq_true, Bool.not_eq_true'] at hemp
      rw [hemp.1] at hwall
      cases hwall
    · exact hin

lemma try_push_subset (b : Board) (s : BoardState) (paths : List (Option Action))
    (index : Nat) (a : Action) (cx cy dx dy : Nat)
    (children : List (BoardState × List Action)) :
    children ⊆ b.try_push s paths index a cx cy dx dy children := by
  unfold Board.try_push
  split
  · split
    · exact List.subset_append_left _ _
    · exact fun _ h => h
  · exact fun _ h => h

lemma try_push_records (b : Board) (s : BoardState) (paths : List (Option Action))
    (index : Nat) (a : Action) (cx cy dx dy : Nat)
    (children : List (BoardState × List Action))
    (h : push_ok b s cx cy dx dy) :
    ∃ acts, (push_result b s cx cy dx dy, acts) ∈
      b.try_push s paths index a cx cy dx dy children := by
  obtain ⟨h1, h2, h3, h4⟩ := h
  unfold Board.try_push
  rw [if_pos (by simp [h1, h2, h3]), if_pos (by simp [h4])]
  exact ⟨read_path b.width paths index a, List.mem_append.mpr (Or.inr (by simp))⟩

lemma try_push_mem' (b : Board) (s : BoardState) (paths : List (Option Action))
    (index : Nat) (a : Action) (cx cy dx dy : Nat)
    (children : List (BoardState × List Action)) :
    ∀ ca ∈ b.try_push s paths index a cx cy dx dy children,
      ca ∈ children ∨
        (push_ok b s cx cy dx dy ∧ ca.1 = push_result b s cx cy dx dy) := by
  intro ca hca
  unfold Board.try_push at hca
  split at hca
  case isTrue h =>
    split at hca
    case isTrue h2 =>
      rcases List.mem_append.mp hca with h3 | h3
      · exact Or.inl h3
      · obtain rfl := List.mem_singleton.mp h3
        simp only [Bool.and_eq_true, Bool.not_eq_true'] at h h2
        exact Or.inr ⟨⟨h.1.1, h.1.2, h.2, h2⟩, rfl⟩
    case isFalse => exact Or.inl hca
  case isFalse => exact Or.inl hca

lemma pushes_recorded_mono (b : Board) (s : BoardState) (t : Nat × Nat)
    (ch ch' : List (BoardState × List Action)) (hsub : ch ⊆ ch') :
    pushes_recorded b s t ch → pushes_recorded b s t ch' := by
  intro ⟨h1, h2, h3, h4⟩
  exact ⟨fun h => (h1 h).imp (fun _ hm => hsub hm),
         fun h => (h2 h).imp (fun _ hm => hsub hm),
         fun h => (h3 h).imp (fun _ hm => hsub hm),
         fun h => (h4 h).imp (fun _ hm => hsub hm)⟩

/-- Marking a previously unmarked interior tile strictly decreases the
unseen count. -/
lemma countUnseenI_mark (b : Board) (I : List (Nat × Nat)) (sn : List Bool)
    (t0 : Nat × Nat) (hnd : I.Nodup) (ht0 : t0 ∈ I)
    (hun : sn.getD (tidx b t0) false = false)
    (hb : ∀ t ∈ I, t.1 < b.width)
    (hlen : tidx b t0 < sn.length) :
    countUnseenI b I (sn.set (tidx b t0) true) + 1 ≤ countUnseenI b I sn := by
  unfold countUnseenI
  induction I with
  | nil => cases ht0
  | cons u us ih =>
    have hndu : u ∉ us := (List.nodup_cons.mp hnd).1
    have hnd' : us.Nodup := (List.nodup_cons.mp hnd).2
    by_cases he : t0 = u
    · subst he
      have hrest : us.filter
            (fun t => !(sn.set (tidx b t0) true).getD (tidx b t) false) =
          us.filter (fun t => !sn.getD (tidx b t) false) := by
        apply List.filter_congr
        intro x hx
        have hne : tidx b t0 ≠ tidx b x := by
          intro hee
          rw [← tidx_inj b t0 x (hb t0 (List.mem_cons_self _ _))
            (hb x (List.mem_cons_of_mem _ hx)) hee] at hx
          exact hndu hx
        rw [getD_set_ne _ _ _ hne]
      have hsetd : (sn.set (tidx b t0) true).getD (tidx b t0) false = true :=
        getD_set_self _ _ hlen _ _
      simp only [List.filter_cons, hsetd, hun, hrest]
      simp
    · have hmem : t0 ∈ us := by
        rcases List.mem_cons.mp ht0 with h | h
        · exact absurd h he
        · exact h
      have hne : tidx b t0 ≠ tidx b u := fun hee =>
        he (tidx_inj b t0 u (hb t0 (List.mem_cons_of_mem _ hmem))
          (hb u (List.mem_cons_self _ _)) hee)
      have ih' := ih hnd' hmem (fun t ht => hb t (List.mem_cons_of_mem _ ht))
      simp only [List.filter_cons, getD_set_ne _ _ _ hne]
      by_cases hc : sn.getD (tidx b u) false = true
      · simp only [hc]
        simpa using ih'
      · simp only [Bool.not_eq_true] at hc
        simp only [hc]
        simpa using Nat.succ_le_succ ih'

/-- Main invariant of the walk loop of `Board::create_children`: given an
enclosed interior, the loop (a) records, for every walk-reachable tile,
all four pushes whose guards hold, and (b) only ever emits children that
are legal pushes from walk-reachable tiles. -/
lemma walk_loop_main (b : Board) (s : BoardState) (I : List (Nat × Nat))
    (hI : InteriorOk b I) (hplayer : s.player ∈ I) :
    ∀ (fuel : Nat) (p : List (Option Action)) (sn : List Bool)
      (q : List (Nat × Nat × Option Action)) (ch : List (BoardState × List Action)),
      sn.length = b.walls.length →
      4 * countUnseenI b I sn + q.length + 1 ≤ fuel →
      (∀ e ∈ q, (e.1, e.2.1) ∈ I ∨ ∃ u ∈ I, adj u (e.1, e.2.1)) →
      (∀ e ∈ q, b.is_empty s e.1 e.2.1 = true → WalkReachable b s (e.1, e.2.1)) →
      (∀ t ∈ I, sn.getD (tidx b t) false = true →
        ∀ t', adj t t' → b.is_empty s t'.1 t'.2 = true →
          sn.getD (tidx b t') false = true ∨ ∃ e ∈ q, (e.1, e.2.1) = t') →
      (sn.getD (tidx b s.player) false = true ∨
        (∃ e ∈ q, (e.1, e.2.1) = s.player) ∨
        b.is_empty s s.player.1 s.player.2 = false) →
      (∀ t ∈ I, sn.getD (tidx b t) false = true → pushes_recorded b s t ch) →
      (∀ ca ∈ ch, legal_push_child b s ca.1) →
      (∀ t, WalkReachable b s t →
        pushes_recorded b s t (create_children_loop b s fuel p sn q ch)) ∧
      (∀ ca ∈ create_children_loop b s fuel p sn q ch,
        legal_push_child b s ca.1) := by
  intro fuel
  induction fuel with
  | zero =>
    intro p sn q ch _ hfuel
    exact absurd hfuel (by omega)
  | succ fuel ih =>
    intro p sn q ch hsnlen hfuel hq hqr hclosed hstart hrec hch
    match q with
    | [] =>
      have hmarked : ∀ t, WalkReachable b s t →
          sn.getD (tidx b t) false = true := by
        intro t ht
        induction ht with
        | base hemp =>
          rcases hstart with h | ⟨e, he, _⟩ | h
          · exact h
          · cases he
          · rw [hemp] at h; cases h
        | step hw hadj hemp ihm =>
          have htI := walk_reach_in_interior b s I hI hplayer _ hw
          rcases hclosed _ htI ihm _ hadj hemp with h | ⟨e, he, _⟩
          · exact h
          · cases he
      constructor
      · intro t ht
        have htI := walk_reach_in_interior b s I hI hplayer _ ht
        simpa [create_children_loop] using hrec t htI (hmarked t ht)
      · intro ca hca
        exact hch ca (by simpa [create_children_loop] using hca)
    | (x, y, action) :: qt =>
      have hxyI : b.is_empty s x y = true → (x, y) ∈ I := by
        intro hemp
        rcases hq (x, y, action) (List.mem_cons_self _ _) with h | ⟨u, hu, hadj⟩
        · exact h
        · rcases hI.closed u hu (x, y) hadj with hw | hin
          · exfalso
            simp only [Board.is_empty, Bool.and_eq_true, Bool.not_eq_true'] at hemp
            rw [hemp.1] at hw
            cases hw
          · exact hin
      simp only [create_children_loop]
      by_cases hg : (!sn.getD (y * b.width + x) false && b.is_empty s x y) = true
      · rw [if_pos hg]
        have hunseen : sn.getD (y * b.width + x) false = false := by
          simp only [Bool.and_eq_true, Bool.not_eq_true'] at hg
          exact hg.1
        have hempty : b.is_empty s x y = true := by
          simp only [Bool.and_eq_true] at hg
          exact hg.2
        have hxy : (x, y) ∈ I := hxyI hempty
        have hreach : WalkReachable b s (x, y) :=
          hqr (x, y, action) (List.mem_cons_self _ _) hempty
        have hidxeq : tidx b (x, y) = y * b.width + x := rfl
        have hxw : x < b.width := by
          have := hI.bounds (x, y) hxy
          omega
        have hidxlen : y * b.width + x < sn.length := by
          obtain ⟨hb1, hb2, hb3, hb4⟩ := hI.bounds (x, y) hxy
          have hb2' : x + 1 < b.width := hb2
          have hb4' : (y + 2) * b.width ≤ b.walls.length := hb4
          have hs1 : (y + 1) * b.width ≤ (y + 2) * b.width :=
            Nat.mul_le_mul_right _ (by omega)
          have hs2 : y * b.width + b.width = (y + 1) * b.width := by ring
          omega
        -- the four try_push accumulators
        set paths' := p.set (y * b.width + x) action with hp'
        set sn' := sn.set (y * b.width + x) true with hsn'
        have hsn'len : sn'.length = b.walls.length := by
          rw [hsn', List.length_set]; exact hsnlen
        have hmark : sn'.getD (y * b.width + x) false = true := by
          rw [hsn']; exact getD_set_self _ _ hidxlen _ _
        have hmono : ∀ i, sn.getD i false = true → sn'.getD i false = true := by
          intro i hi; rw [hsn']; exact getD_set_true_mono _ _ _ hi
        have hcount : countUnseenI b I sn' + 1 ≤ countUnseenI b I sn := by
          rw [hsn', ← hidxeq]
          exact countUnseenI_mark b I sn (x, y) hI.nodup hxy
            (hidxeq ▸ hunseen)
            (fun t ht => by have := hI.bounds t ht; omega)
            (hidxeq ▸ hidxlen)
        have hnewq : ∀ e ∈ [((x : Nat), y - 1, some Action.Up),
            ((x : Nat), y + 1, some Action.Down),
            (x - 1, y, some Action.Left), (x + 1, y, some Action.Right)],
            adj (x, y) (e.1, e.2.1) := by
          intro e he
          simp only [List.mem_cons, List.not_mem_nil, or_false] at he
          rcases he with rfl | rfl | rfl | rfl
          · exact Or.inr (Or.inr (Or.inr rfl))
          · exact Or.inr (Or.inr (Or.inl rfl))
          · exact Or.inr (Or.inl rfl)
          · exact Or.inl rfl
        refine ih paths' sn' _ _ hsn'len ?_ ?_ ?_ ?_ ?_ ?_ ?_
        · -- fuel
          have hlq : ((qt : List (Nat × Nat × Option Action)) ++
              [((x : Nat), y - 1, some Action.Up), ((x : Nat), y + 1, some Action.Down),
               (x - 1, y, some Action.Left), (x + 1, y, some Action.Right)]).length
              = qt.length + 4 := by
            simp
          rw [hlq]
          simp only [List.length_cons] at hfuel
          omega
        · -- coords in R
          intro e he
          rcases List.mem_append.mp he with he | he
          · exact hq e (List.mem_cons_of_mem _ he)
          · exact Or.inr ⟨(x, y), hxy, hnewq e he⟩
        · -- queue reachability
          intro e he hemp
          rcases List.mem_append.mp he with he | he
          · exact hqr e (List.mem_cons_of_mem _ he) hemp
          · exact WalkReachable.step hreach (hnewq e he) hemp
        · -- closure
          intro t htI' hmarked' t' hadj' hemp'
          by_cases hti : tidx b t = y * b.width + x
          · have : t = (x, y) := by
              refine tidx_inj b t (x, y) ?_ hxw (by rw [hti]; rfl)
              have := hI.bounds t htI'
              omega
            subst this
            rcases hadj' with h | h | h | h
            · exact Or.inr ⟨(x + 1, y, some Action.Right),
                List.mem_append.mpr (Or.inr (by simp)), h.symm⟩
            · exact Or.inr ⟨(x - 1, y, some Action.Left),
                List.mem_append.mpr (Or.inr (by simp)), h.symm⟩
            · exact Or.inr ⟨((x : Nat), y + 1, some Action.Down),
                List.mem_append.mpr (Or.inr (by simp)), h.symm⟩
            · exact Or.inr ⟨((x : Nat), y - 1, some Action.Up),
                List.mem_append.mpr (Or.inr (by simp)), h.symm⟩
          · have hmt : sn.getD (tidx b t) false = true := by
              rw [hsn', getD_set_ne _ _ _ (fun h => hti h.symm)] at hmarked'
              exact hmarked'
            rcases hclosed t htI' hmt t' hadj' hemp' with h | ⟨e, he, hec⟩
            · exact Or.inl (hmono _ h)
            · rcases List.mem_cons.mp he with rfl | he
              · left
                rw [← hec]
                exact hmark
              · exact Or.inr ⟨e, List.mem_append.mpr (Or.inl he), hec⟩
        · -- start
          rcases hstart with h | ⟨e, he, hec⟩ | h
          · exact Or.inl (hmono _ h)
          · rcases List.mem_cons.mp he with rfl | he
            · left
              rw [← hec]
              exact hmark
            · exact Or.inr (Or.inl ⟨e, List.mem_append.mpr (Or.inl he), hec⟩)
          · exact Or.inr (Or.inr h)
        · -- pushes recorded
          intro t htI' hmarked'
          by_cases hti : tidx b t = y * b.width + x
          · have : t = (x, y) := by
              refine tidx_inj b t (x, y) ?_ hxw (by rw [hti]; rfl)
              have := hI.bounds t htI'
              omega
            subst this
            refine ⟨?_, ?_, ?_, ?_⟩
            · intro hok
              obtain ⟨acts, hacts⟩ := try_push_records b s paths'
                (y * b.width + x) Action.Up x (y - 1) x (y - 2) ch hok
              exact ⟨acts, try_push_subset b s _ _ _ _ _ _ _ _
                (try_push_subset b s _ _ _ _ _ _ _ _
                  (try_push_subset b s _ _ _ _ _ _ _ _ hacts))⟩
            · intro hok
              obtain ⟨acts, hacts⟩ := try_push_records b s paths'
                (y * b.width + x) Action.Down x (y + 1) x (y + 2) _ hok
              exact ⟨acts, try_push_subset b s _ _ _ _ _ _ _ _
                (try_push_subset b s _ _ _ _ _ _ _ _ hacts)⟩
            · intro hok
              obtain ⟨acts, hacts⟩ := try_push_records b s paths'
                (y * b.width + x) Action.Left (x - 1) y (x - 2) y _ hok
              exact ⟨acts, try_push_subset b s _ _ _ _ _ _ _ _ hacts⟩
            · intro hok
              exact try_push_records b s paths'
                (y * b.width + x) Action.Right (x + 1) y (x + 2) y _ hok
          · have hmt : sn.getD (tidx b t) false = true := by
              rw [hsn', getD_set_ne _ _ _ (fun h => hti h.symm)] at hmarked'
              exact hmarked'
            refine pushes_recorded_mono b s t ch _ ?_ (hrec t htI' hmt)
            intro z hz
            exact try_push_subset b s _ _ _ _ _ _ _ _
              (try_push_subset b s _ _ _ _ _ _ _ _
                (try_push_subset b s _ _ _ _ _ _ _ _
                  (try_push_subset b s _ _ _ _ _ _ _ _ hz)))
        · -- legality of accumulated children
          intro ca hca
          rcases try_push_mem' b s paths' (y * b.width + x) Action.Right
              (x + 1) y (x + 2) y _ ca hca with h | ⟨hok, heq⟩
          · rcases try_push_mem' b s paths' (y * b.width + x) Action.Left
                (x - 1) y (x - 2) y _ ca h with h | ⟨hok, heq⟩
            · rcases try_push_mem' b s paths' (y * b.width + x) Action.Down
                  x (y + 1) x (y + 2) _ ca h with h | ⟨hok, heq⟩
              · rcases try_push_mem' b s paths' (y * b.width + x) Action.Up
                    x (y - 1) x (y - 2) ch ca h with h | ⟨hok, heq⟩
                · exact hch ca h
                · exact ⟨(x, y), x, y - 1, x, y - 2, hreach,
                    Or.inl ⟨rfl, rfl⟩, hok, heq⟩
              · exact ⟨(x, y), x, y + 1, x, y + 2, hreach,
                  Or.inr (Or.inl ⟨rfl, rfl⟩), hok, heq⟩
            · exact ⟨(x, y), x - 1, y, x - 2, y, hreach,
                Or.inr (Or.inr (Or.inl ⟨rfl, rfl⟩)), hok, heq⟩
          · exact ⟨(x, y), x + 1, y, x + 2, y, hreach,
              Or.inr (Or.inr (Or.inr ⟨rfl, rfl⟩)), hok, heq⟩
      · rw [if_neg hg]
        refine ih p sn qt ch hsnlen ?_ ?_ ?_ ?_ ?_ hrec hch
        · simp only [List.length_cons] at hfuel
          omega
        · exact fun e he => hq e (List.mem_cons_of_mem _ he)
        · exact fun e he => hqr e (List.mem_cons_of_mem _ he)
        · intro t htI' hmarked' t' hadj' hemp'
          rcases hclosed t htI' hmarked' t' hadj' hemp' with h | ⟨e, he, hec⟩
          · exact Or.inl h
          · rcases List.mem_cons.mp he with rfl | he
            · -- the dropped head: guard failed, so it is marked or non-empty
              by_cases hsm : sn.getD (y * b.width + x) false = true
              · left
                rw [← hec]
                exact hsm
              · exfalso
                have hemp2 : b.is_empty s x y = true := by
                  rw [← hec] at hemp'
                  exact hemp'
                have hsm' : sn.getD (y * b.width + x) false = false :=
                  Bool.not_eq_true _ ▸ hsm
                rw [Bool.and_eq_true, Bool.not_eq_true'] at hg
                exact hg ⟨hsm', hemp2⟩
            · exact Or.inr ⟨e, he, hec⟩
        · rcases hstart with h | ⟨e, he, hec⟩ | h
          · exact Or.inl h
          · rcases List.mem_cons.mp he with rfl | he
            · by_cases hsm : sn.getD (y * b.width + x) false = true
              · left
                rw [← hec]
                exact hsm
              · right; right
                rw [← hec]
                have hsm' : sn.getD (y * b.width + x) false = false :=
                  Bool.not_eq_true _ ▸ hsm
                by_cases hie : b.is_empty s x y = true
                · exfalso
                  rw [Bool.and_eq_true, Bool.not_eq_true'] at hg
                  exact hg ⟨hsm', hie⟩
                · exact Bool.not_eq_true _ ▸ hie
            · exact Or.inr (Or.inl ⟨e, he, hec⟩)
          · exact Or.inr (Or.inr h)

lemma getD_replicate_false (n i : Nat) :
    (List.replicate n false).getD i false = false := by
  simp only [List.getD_eq_getElem?_getD, List.getElem?_replicate]
  split <;> rfl

lemma nodup_lt_length (l : List Nat) (hnd : l.Nodup) (n : Nat)
    (hlt : ∀ x ∈ l, x < n) : l.length ≤ n := by
  classical
  have h1 : l.toFinset.card = l.length := List.toFinset_card_of_nodup hnd
  have h2 : l.toFinset ⊆ Finset.range n := by
    intro x hx
    rw [List.mem_toFinset] at hx
    exact Finset.mem_range.mpr (hlt x hx)
  have h3 := Finset.card_le_card h2
  rw [h1, Finset.card_range] at h3
  exact h3

lemma tidx_lt_walls_length (b : Board) (I : List (Nat × Nat))
    (hI : InteriorOk b I) : ∀ t ∈ I, tidx b t < b.walls.length := by
  intro t ht
  obtain ⟨hb1, hb2, hb3, hb4⟩ := hI.bounds t ht
  have hs1 : (t.2 + 1) * b.width ≤ (t.2 + 2) * b.width :=
    Nat.mul_le_mul_right _ (by omega)
  have hs2 : t.2 * b.width + b.width = (t.2 + 1) * b.width := by ring
  unfold tidx
  omega

lemma interior_length_le (b : Board) (I : List (Nat × Nat))
    (hI : InteriorOk b I) : I.length ≤ b.walls.length := by
  have hnd : (I.map (tidx b)).Nodup := by
    refine List.Nodup.map_on ?_ hI.nodup
    intro t ht t' ht' h
    refine tidx_inj b t t' ?_ ?_ h
    · have := hI.bounds t ht; omega
    · have := hI.bounds t' ht'; omega
  have := nodup_lt_length (I.map (tidx b)) hnd b.walls.length
    (by intro x hx
        rw [List.mem_map] at hx
        obtain ⟨t, ht, rfl⟩ := hx
        exact tidx_lt_walls_length b I hI t ht)
  simpa using this

lemma countUnseenI_replicate (b : Board) (I : List (Nat × Nat)) (n : Nat) :
    countUnseenI b I (List.replicate n false) = I.length := by
  unfold countUnseenI
  rw [List.filter_eq_self.mpr]
  intro a _
  simp [getD_replicate_false]

/-- Convenience constructor for `InteriorOk` whose closure condition is
decidable (the four neighbours listed explicitly). -/
lemma interiorOk_of_closed4 (b : Board) (I : List (Nat × Nat))
    (hnd : I.Nodup)
    (hb : ∀ t ∈ I, 0 < t.1 ∧ t.1 + 1 < b.width ∧ 0 < t.2 ∧
      (t.2 + 2) * b.width ≤ b.walls.length)
    (hw : ∀ t ∈ I, b.is_wall t.1 t.2 = false)
    (h4 : ∀ t ∈ I,
      (b.is_wall (t.1 + 1) t.2 = true ∨ (t.1 + 1, t.2) ∈ I) ∧
      (b.is_wall (t.1 - 1) t.2 = true ∨ (t.1 - 1, t.2) ∈ I) ∧
      (b.is_wall t.1 (t.2 + 1) = true ∨ (t.1, t.2 + 1) ∈ I) ∧
      (b.is_wall t.1 (t.2 - 1) = true ∨ (t.1, t.2 - 1) ∈ I)) :
    InteriorOk b I := by
  refine ⟨hnd, hb, hw, ?_⟩
  intro t ht t' hadj
  rcases hadj with rfl | rfl | rfl | rfl
  · exact (h4 t ht).1
  · exact (h4 t ht).2.1
  · exact (h4 t ht).2.2.1
  · exact (h4 t ht).2.2.2

/-- `create_children` admits exactly the successors reachable by a walk
plus one legal push onto an empty, non-dead tile whose result passes the
code's frozen-pair rule (the independent-disjunction rule). -/
lemma create_children_iff (b : Board) (s : BoardState)
    (I : List (Nat × Nat)) (hI : InteriorOk b I) (hplayer : s.player ∈ I)
    (child : BoardState) :
    (∃ acts, (child, acts) ∈ b.create_children s) ↔
      legal_push_child b s child := by
  have hmain := walk_loop_main b s I hI hplayer (4 * b.walls.length + 8)
    (List.replicate b.walls.length none) (List.replicate b.walls.length false)
    [(s.player.1, s.player.2, none)] []
    (by simp)
    (by rw [countUnseenI_replicate]
        have := interior_length_le b I hI
        simp only [List.length_cons, List.length_nil]
        omega)
    (by intro e he
        obtain rfl : e = (s.player.1, s.player.2, none) := by simpa using he
        exact Or.inl hplayer)
    (by intro e he hemp
        obtain rfl : e = (s.player.1, s.player.2, none) := by simpa using he
        exact WalkReachable.base hemp)
    (by intro t _ hmt
        rw [getD_replicate_false] at hmt
        cases hmt)
    (Or.inr (Or.inl ⟨(s.player.1, s.player.2, none), by simp, rfl⟩))
    (by intro t _ hmt
        rw [getD_replicate_false] at hmt
        cases hmt)
    (by intro ca hca; cases hca)
  constructor
  · rintro ⟨acts, hmem⟩
    exact hmain.2 (child, acts) hmem
  · rintro ⟨p', cx, cy, dx, dy, hreach, hfrom, hok, rfl⟩
    have hrec := hmain.1 p' hreach
    rcases hfrom with ⟨h1, h2⟩ | ⟨h1, h2⟩ | ⟨h1, h2⟩ | ⟨h1, h2⟩ <;>
      rw [Prod.mk.injEq] at h1 h2 <;>
      obtain ⟨rfl, rfl⟩ := h1 <;> obtain ⟨rfl, rfl⟩ := h2
    · exact hrec.1 hok
    · exact hrec.2.1 hok
    · exact hrec.2.2.1 hok
    · exact hrec.2.2.2 hok

/-- C8 (corrected): a successor appears in `create_children`'s result
exactly when it is a legal push with the code's frozen-pair rule — the
two wall tests as independent disjunctions, not the spec's matching-side
rule. -/
theorem create_children_characterisation (b : Board) (s : BoardState)
    (I : List (Nat × Nat)) (hI : InteriorOk b I) (hplayer : s.player ∈ I)
    (child : BoardState) :
    (∃ acts, (child, acts) ∈ b.create_children s) ↔
      legal_push_child b s child :=
  create_children_iff b s I hI hplayer child

/-- Witness for `create_children_characterisation` at the trivial
level: interior `[(1,1), (2,1), (3,1)]`, and the one push of the level
is produced. -/
theorem create_children_characterisation_witness :
    InteriorOk parsed_trivial.1 [(1, 1), (2, 1), (3, 1)] ∧
    parsed_trivial.2.player ∈ [((1 : Nat), (1 : Nat)), (2, 1), (3, 1)] ∧
    legal_push_child parsed_trivial.1 parsed_trivial.2
      (push_result parsed_trivial.1 parsed_trivial.2 2 1 3 1) := by
  have hI : InteriorOk parsed_trivial.1 [(1, 1), (2, 1), (3, 1)] :=
    interiorOk_of_closed4 _ _ (by decide) (by decide) (by decide) (by decide)
  have hp : parsed_trivial.2.player ∈ [((1 : Nat), (1 : Nat)), (2, 1), (3, 1)] := by
    decide
  exact ⟨hI, hp,
    (create_children_characterisation parsed_trivial.1 parsed_trivial.2
      [(1, 1), (2, 1), (3, 1)] hI hp
      (push_result parsed_trivial.1 parsed_trivial.2 2 1 3 1)).mp
      ⟨[Action.Right], by decide⟩⟩

lemma getD_true_lt_length (l : List Bool) (i : Nat)
    (h : l.getD i false = true) : i < l.length := by
  by_contra hc
  rw [List.getD_eq_default _ _ (Nat.le_of_not_lt hc)] at h
  cases h

lemma tidx_decode (b : Board) (t : Nat × Nat) (ht : t.1 < b.width) :
    tidx b t % b.width = t.1 ∧ tidx b t / b.width = t.2 := by
  have h0 : 0 < b.width := by omega
  constructor
  · unfold tidx
    rw [Nat.mul_comm, Nat.mul_add_mod]
    exact Nat.mod_eq_of_lt ht
  · unfold tidx
    rw [Nat.mul_comm, Nat.mul_add_div h0, Nat.div_eq_of_lt ht]
    omega

lemma mem_iter_crates (b : Board) (s : BoardState) (c : Nat × Nat)
    (h : c ∈ b.iter_crates s) :
    ∃ i, s.crates.getD i false = true ∧ c = (i % b.width, i / b.width) := by
  unfold Board.iter_crates at h
  rw [List.mem_map] at h
  obtain ⟨p, hp, rfl⟩ := h
  rw [List.mem_filter] at hp
  obtain ⟨hp1, hp2⟩ := hp
  refine ⟨p.1, ?_, rfl⟩
  have hg : s.crates[p.1]? = some p.2 :=
    List.mem_enum_iff_getElem?.mp (by simpa using hp1)
  simp only [List.getD_eq_getElem?_getD, hg, Option.getD_some]
  simpa using hp2

/-- Crates listed by `iter_crates` lie in the interior when the crate
bitset does. -/
lemma crates_in_interior (b : Board) (s : BoardState) (I : List (Nat × Nat))
    (hI : InteriorOk b I)
    (hcr : ∀ i, i < s.crates.length → s.crates.getD i false = true →
      ∃ t ∈ I, tidx b t = i) :
    ∀ c ∈ b.iter_crates s, c ∈ I ∧ s.crates.getD (tidx b c) false = true := by
  intro c hc
  obtain ⟨i, hbit, rfl⟩ := mem_iter_crates b s c hc
  obtain ⟨t, htI, rfl⟩ := hcr i (getD_true_lt_length _ _ hbit) hbit
  have htw : t.1 < b.width := by have := hI.bounds t htI; omega
  obtain ⟨hm, hd⟩ := tidx_decode b t htw
  rw [hm, hd]
  exact ⟨htI, hbit⟩

lemma mul_step (a w : Nat) : a * w + w = (a + 1) * w := by ring

/-- C10: under the data-model preconditions (crates and agent strictly
inside a wall-enclosed interior, crate count equal to goal count), the
panic sites of `is_unsolvable`, `heuristic` and `create_children` cannot
fire: every crate the frozen test inspects has coordinates ≥ 1 and its
largest read index in bounds; a crate off every goal guarantees an
unsatisfied goal, so the heuristic's `.min().unwrap()` is over a
non-empty set; the heuristic's distance-field read is in bounds; and at
every walk-reachable tile the `y - 2`/`x - 2` destination arithmetic of
the push probes cannot underflow and all probe indices are in bounds. -/
theorem no_panic_safety (b : Board) (s : BoardState) (I : List (Nat × Nat))
    (hI : InteriorOk b I) (hplayer : s.player ∈ I)
    (hcr : ∀ i, i < s.crates.length → s.crates.getD i false = true →
      ∃ t ∈ I, tidx b t = i)
    (hcount : ((List.range s.crates.length).filter
        (fun i => s.crates.getD i false)).length = b.goals.length)
    (hgt : ∀ g ∈ b.goals, b.goal_tiles.getD (tidx b g.1) false = true)
    (hgnd : (b.goals.map (fun g => tidx b g.1)).Nodup) :
    (∀ c ∈ b.iter_crates s, 1 ≤ c.1 ∧ 1 ≤ c.2 ∧
      (c.2 + 1) * b.width + (c.1 + 1) < b.walls.length) ∧
    (∀ c ∈ b.iter_crates s, b.is_goal c.1 c.2 = false →
      ∃ g ∈ b.goals, b.is_crate s g.1.1 g.1.2 = false) ∧
    (∀ c ∈ b.iter_crates s, c.2 * b.width + c.1 < b.walls.length) ∧
    (∀ t, WalkReachable b s t →
      (1 ≤ t.1 ∧ 1 ≤ t.2 ∧ tidx b t < b.walls.length) ∧
      (b.is_crate s t.1 (t.2 - 1) = true → 2 ≤ t.2 ∧
        (t.2 - 2) * b.width + t.1 < b.walls.length) ∧
      (b.is_crate s t.1 (t.2 + 1) = true →
        (t.2 + 2) * b.width + t.1 < b.walls.length) ∧
      (b.is_crate s (t.1 - 1) t.2 = true → 2 ≤ t.1 ∧
        t.2 * b.width + (t.1 - 2) < b.walls.length) ∧
      (b.is_crate s (t.1 + 1) t.2 = true →
        t.2 * b.width + (t.1 + 2) < b.walls.length)) := by
  have crate_decode : ∀ u : Nat × Nat, u.1 < b.width →
      b.is_crate s u.1 u.2 = true → u ∈ I := by
    intro u hu hbit
    unfold Board.is_crate at hbit
    obtain ⟨v, hvI, hv⟩ := hcr _ (getD_true_lt_length _ _ hbit) hbit
    have hvw : v.1 < b.width := by have := hI.bounds v hvI; omega
    have hvu : v = u := tidx_inj b v u hvw hu hv
    rw [← hvu]
    exact hvI
  refine ⟨?_, ?_, ?_, ?_⟩
  · intro c hc
    obtain ⟨hcI, _⟩ := crates_in_interior b s I hI hcr c hc
    obtain ⟨h1, h2, h3, h4⟩ := hI.bounds c hcI
    have h2' : c.1 + 1 < b.width := h2
    have h4' : (c.2 + 2) * b.width ≤ b.walls.length := h4
    have hs1 : (c.2 + 1) * b.width + b.width = (c.2 + 2) * b.width :=
      mul_step _ _
    refine ⟨by omega, by omega, by omega⟩
  · intro c hc hng
    by_contra hall
    push_neg at hall
    have hall' : ∀ g ∈ b.goals, b.is_crate s g.1.1 g.1.2 = true := by
      intro g hg
      have h := hall g hg
      cases hbit : b.is_crate s g.1.1 g.1.2
      · exact absurd hbit h
      · rfl
    obtain ⟨hcI, hcbit⟩ := crates_in_interior b s I hI hcr c hc
    have hcng : ∀ g ∈ b.goals, tidx b g.1 ≠ tidx b c := by
      intro g hg he
      have hbit := hgt g hg
      rw [he] at hbit
      unfold Board.is_goal at hng
      have hng' : b.goal_tiles.getD (tidx b c) false = false := hng
      rw [hng'] at hbit
      cases hbit
    have hLnd : (tidx b c :: b.goals.map (fun g => tidx b g.1)).Nodup := by
      rw [List.nodup_cons]
      constructor
      · intro hmem
        rw [List.mem_map] at hmem
        obtain ⟨g, hg, he⟩ := hmem
        exact hcng g hg he
      · exact hgnd
    have hLbit : ∀ i ∈ (tidx b c :: b.goals.map (fun g => tidx b g.1)),
        s.crates.getD i false = true := by
      intro i hi
      rcases List.mem_cons.mp hi with rfl | hi
      · exact hcbit
      · rw [List.mem_map] at hi
        obtain ⟨g, hg, rfl⟩ := hi
        exact hall' g hg
    have hsub : (tidx b c :: b.goals.map (fun g => tidx b g.1)).toFinset ⊆
        ((List.range s.crates.length).filter
          (fun i => s.crates.getD i false)).toFinset := by
      intro i hi
      rw [List.mem_toFinset] at hi ⊢
      rw [List.mem_filter, List.mem_range]
      exact ⟨getD_true_lt_length _ _ (hLbit i hi), hLbit i hi⟩
    have h1 : (tidx b c :: b.goals.map (fun g => tidx b g.1)).toFinset.card =
        (tidx b c :: b.goals.map (fun g => tidx b g.1)).length :=
      List.toFinset_card_of_nodup hLnd
    have h2 := Finset.card_le_card hsub
    have h3 := List.toFinset_card_le ((List.range s.crates.length).filter
      (fun i => s.crates.getD i false))
    have h4 : (tidx b c :: b.goals.map (fun g => tidx b g.1)).length =
        b.goals.length + 1 := by simp
    omega
  · intro c hc
    obtain ⟨hcI, _⟩ := crates_in_interior b s I hI hcr c hc
    obtain ⟨h1, h2, h3, h4⟩ := hI.bounds c hcI
    have h2' : c.1 + 1 < b.width := h2
    have h4' : (c.2 + 2) * b.width ≤ b.walls.length := h4
    have hs1 : c.2 * b.width + b.width = (c.2 + 1) * b.width := mul_step _ _
    have hs2 : (c.2 + 1) * b.width + b.width = (c.2 + 2) * b.width := mul_step _ _
    omega
  · intro t ht
    have htI := walk_reach_in_interior b s I hI hplayer t ht
    obtain ⟨hb1, hb2, hb3, hb4⟩ := hI.bounds t htI
    have hb2' : t.1 + 1 < b.width := hb2
    have hb4' : (t.2 + 2) * b.width ≤ b.walls.length := hb4
    have hs1 : t.2 * b.width + b.width = (t.2 + 1) * b.width := mul_step _ _
    have hs2 : (t.2 + 1) * b.width + b.width = (t.2 + 2) * b.width := mul_step _ _
    refine ⟨⟨by omega, by omega, by unfold tidx; omega⟩, ?_, ?_, ?_, ?_⟩
    · intro hcrate
      have hcm : (t.1, t.2 - 1) ∈ I := crate_decode (t.1, t.2 - 1) (by omega) hcrate
      obtain ⟨hc1, hc2, hc3, hc4⟩ := hI.bounds _ hcm
      have hc3' : 0 < t.2 - 1 := hc3
      have hmono : (t.2 - 2) * b.width ≤ t.2 * b.width :=
        Nat.mul_le_mul_right _ (by omega)
      exact ⟨by omega, by omega⟩
    · intro hcrate
      have hcm : (t.1, t.2 + 1) ∈ I := crate_decode (t.1, t.2 + 1) (by omega) hcrate
      obtain ⟨hc1, hc2, hc3, hc4⟩ := hI.bounds _ hcm
      have hc4' : (t.2 + 3) * b.width ≤ b.walls.length := hc4
      have hs3 : (t.2 + 2) * b.width + b.width = (t.2 + 3) * b.width := mul_step _ _
      omega
    · intro hcrate
      have hcm : (t.1 - 1, t.2) ∈ I := crate_decode (t.1 - 1, t.2) (by omega) hcrate
      obtain ⟨hc1, hc2, hc3, hc4⟩ := hI.bounds _ hcm
      have hc1' : 0 < t.1 - 1 := hc1
      exact ⟨by omega, by omega⟩
    · intro hcrate
      have hcm : (t.1 + 1, t.2) ∈ I := crate_decode (t.1 + 1, t.2) (by omega) hcrate
      obtain ⟨hc1, hc2, hc3, hc4⟩ := hI.bounds _ hcm
      have hc2' : t.1 + 2 < b.width := hc2
      omega

/-- Witness for `no_panic_safety` at the trivial level. -/
theorem no_panic_safety_witness :
    (InteriorOk parsed_trivial.1 [(1, 1), (2, 1), (3, 1)] ∧
      parsed_trivial.2.player ∈ [((1 : Nat), (1 : Nat)), (2, 1), (3, 1)]) ∧
    (∀ c ∈ parsed_trivial.1.iter_crates parsed_trivial.2,
      1 ≤ c.1 ∧ 1 ≤ c.2 ∧
      (c.2 + 1) * parsed_trivial.1.width + (c.1 + 1) <
        parsed_trivial.1.walls.length) := by
  have hI : InteriorOk parsed_trivial.1 [(1, 1), (2, 1), (3, 1)] :=
    interiorOk_of_closed4 _ _ (by decide) (by decide) (by decide) (by decide)
  have hp : parsed_trivial.2.player ∈ [((1 : Nat), (1 : Nat)), (2, 1), (3, 1)] := by
    decide
  refine ⟨⟨hI, hp⟩, ?_⟩
  exact (no_panic_safety parsed_trivial.1 parsed_trivial.2
    [(1, 1), (2, 1), (3, 1)] hI hp
    (by decide) (by decide) (by decide) (by decide)).1

lemma adj_symm {t t' : Nat × Nat} (h : adj t t') : adj t' t := by
  rcases h with rfl | rfl | rfl | rfl
  · exact Or.inr (Or.inl rfl)
  · by_cases h0 : 0 < t.1
    · left
      simp only
      rw [Nat.sub_add_cancel h0]
    · right; left
      have h1 : t.1 - 1 - 1 = t.1 := by omega
      rw [h1]
  · exact Or.inr (Or.inr (Or.inr rfl))
  · by_cases h0 : 0 < t.2
    · right; right; left
      simp only
      rw [Nat.sub_add_cancel h0]
    · right; right; right
      have h1 : t.2 - 1 - 1 = t.2 := by omega
      rw [h1]

lemma cratePath_trans (b : Board) (I : List (Nat × Nat)) :
    ∀ {t u g : Nat × Nat} {n m : Nat},
      CratePath b I t u n → CratePath b I u g m → CratePath b I t g (n + m) := by
  intro t u g n m h1 h2
  induction h1 with
  | refl t => simpa using h2
  | step hadj hmem hw hd _h ih =>
    have := CratePath.step hadj hmem hw hd (ih h2)
    simpa [Nat.add_right_comm] using this

/-- Terminal-state argument of the goal-distance BFS: once the queue is
empty, the closure and seed facts bound every interior tile's entry by
any crate path length to the goal. -/
lemma goal_bfs_final (b : Board) (I : List (Nat × Nat)) (hI : InteriorOk b I)
    (goal : Nat × Nat) (dists : List Nat) (seen : List Bool)
    (hmark : ∀ i, seen.getD i false = true → ∃ t ∈ I, tidx b t = i ∧
      b.is_wall t.1 t.2 = false ∧ b.is_dead_tile t.1 t.2 = false)
    (hzero : ∀ i, seen.getD i false = false → dists.getD i 0 = 0)
    (hclos : ∀ t ∈ I, seen.getD (tidx b t) false = true →
      ∀ t', adj t t' → t' ∈ I →
        b.is_wall t'.1 t'.2 = false → b.is_dead_tile t'.1 t'.2 = false →
        seen.getD (tidx b t') false = true ∧
          dists.getD (tidx b t') 0 ≤ dists.getD (tidx b t) 0 + 1)
    (hseed : (b.is_wall goal.1 goal.2 = false ∧
        b.is_dead_tile goal.1 goal.2 = false) →
      seen.getD (tidx b goal) false = true ∧ dists.getD (tidx b goal) 0 = 0) :
    ∀ t n, CratePath b I t goal n → t ∈ I → dists.getD (tidx b t) 0 ≤ n := by
  have seen_allowed : ∀ u : Nat × Nat, u ∈ I →
      seen.getD (tidx b u) false = true →
      b.is_wall u.1 u.2 = false ∧ b.is_dead_tile u.1 u.2 = false := by
    intro u huI hsn
    obtain ⟨v, hvI, hv, hvw, hvd⟩ := hmark _ hsn
    have hvw' : v.1 < b.width := by have := hI.bounds v hvI; omega
    have huw' : u.1 < b.width := by have := hI.bounds u huI; omega
    have : v = u := tidx_inj b v u hvw' huw' hv
    subst this
    exact ⟨hvw, hvd⟩
  have seen_or_zero : ∀ u : Nat × Nat,
      seen.getD (tidx b u) false = true ∨ dists.getD (tidx b u) 0 = 0 := by
    intro u
    cases h : seen.getD (tidx b u) false
    · exact Or.inr (hzero _ h)
    · exact Or.inl rfl
  intro t n hpath htI
  suffices h : ∀ t' g' n', CratePath b I t' g' n' → g' = goal → t' ∈ I →
      dists.getD (tidx b t') 0 ≤ n' from h t goal n hpath rfl htI
  intro t' g' n' hpath'
  induction hpath' with
  | refl t0 =>
    intro hg ht0I
    subst hg
    by_cases hall : b.is_wall t0.1 t0.2 = false ∧
        b.is_dead_tile t0.1 t0.2 = false
    · exact Nat.le_of_eq (hseed hall).2
    · rcases seen_or_zero t0 with hsn | hz
      · exact absurd (seen_allowed t0 ht0I hsn) hall
      · omega
  | @step t0 t1 g0 n0 hadj hmem hw hd hp ihp =>
    intro hg htI0
    subst hg
    rcases seen_or_zero t0 with hsn | hz
    · obtain ⟨htw, htd⟩ := seen_allowed _ htI0 hsn
      have hdt1 := ihp rfl hmem
      have hsn1 : seen.getD (tidx b t1) false = true :=
        (hclos _ htI0 hsn _ hadj hmem hw hd).1
      have := (hclos _ hmem hsn1 _ (adj_symm hadj) htI0 htw htd).2
      omega
    · omega

/-- Main invariant of the goal-distance BFS loop: on an enclosed
interior, the final distance entry of any interior tile is at most the
length of any crate path from it to the goal. -/
lemma goal_bfs_bound (b : Board) (I : List (Nat × Nat)) (hI : InteriorOk b I)
    (goal : Nat × Nat) (hgoalI : goal ∈ I) :
    ∀ (fuel : Nat) (dists : List Nat) (seen : List Bool)
      (queue : List (Nat × Nat × Nat)),
      seen.length = b.walls.length →
      dists.length = b.walls.length →
      4 * countUnseenI b I seen + queue.length + 1 ≤ fuel →
      (∀ e ∈ queue, (e.1, e.2.1) ∈ I ∨ ∃ u ∈ I, adj u (e.1, e.2.1)) →
      List.Pairwise (fun e1 e2 : Nat × Nat × Nat => e1.2.2 ≤ e2.2.2) queue →
      (∀ e1 ∈ queue, ∀ e2 ∈ queue, e1.2.2 ≤ e2.2.2 + 1) →
      (∀ i, seen.getD i false = true → ∀ e ∈ queue, dists.getD i 0 ≤ e.2.2) →
      (∀ i, seen.getD i false = true → ∃ t ∈ I, tidx b t = i ∧
        b.is_wall t.1 t.2 = false ∧ b.is_dead_tile t.1 t.2 = false) →
      (∀ i, seen.getD i false = false → dists.getD i 0 = 0) →
      (∀ t ∈ I, seen.getD (tidx b t) false = true →
        ∀ t', adj t t' → t' ∈ I →
          b.is_wall t'.1 t'.2 = false → b.is_dead_tile t'.1 t'.2 = false →
          (seen.getD (tidx b t') false = true ∧
            dists.getD (tidx b t') 0 ≤ dists.getD (tidx b t) 0 + 1) ∨
          (∃ e ∈ queue, (e.1, e.2.1) = t' ∧
            e.2.2 ≤ dists.getD (tidx b t) 0 + 1)) →
      ((b.is_wall goal.1 goal.2 = false ∧ b.is_dead_tile goal.1 goal.2 = false) →
        (seen.getD (tidx b goal) false = true ∧ dists.getD (tidx b goal) 0 = 0) ∨
        (goal.1, goal.2, 0) ∈ queue) →
      ∀ t n, t ∈ I → CratePath b I t goal n →
        (calculate_goal_distance_loop b.width b.walls b.dead_tiles
          fuel dists seen queue).getD (tidx b t) 0 ≤ n := by
  intro fuel
  induction fuel with
  | zero =>
    intro dists seen queue _ _ hfuel
    exact absurd hfuel (by omega)
  | succ fuel ih =>
    intro dists seen queue hsnlen hdlen hfuel hqc hsort hband hwq hmark hzero
      hclos hseed t n htI hpath
    have seen_allowed : ∀ u : Nat × Nat, u ∈ I →
        seen.getD (tidx b u) false = true →
        b.is_wall u.1 u.2 = false ∧ b.is_dead_tile u.1 u.2 = false := by
      intro u huI hsn
      obtain ⟨v, hvI, hv, hvw, hvd⟩ := hmark _ hsn
      have hvw' : v.1 < b.width := by have := hI.bounds v hvI; omega
      have huw' : u.1 < b.width := by have := hI.bounds u huI; omega
      have : v = u := tidx_inj b v u hvw' huw' hv
      subst this
      exact ⟨hvw, hvd⟩
    have seen_or_zero : ∀ u : Nat × Nat,
        seen.getD (tidx b u) false = true ∨ dists.getD (tidx b u) 0 = 0 := by
      intro u
      cases h : seen.getD (tidx b u) false
      · exact Or.inr (hzero _ h)
      · exact Or.inl rfl
    match queue with
    | [] =>
      have hres : calculate_goal_distance_loop b.width b.walls b.dead_tiles
          (fuel + 1) dists seen [] = dists := by
        simp [calculate_goal_distance_loop]
      rw [hres]
      have hclose : ∀ t0 ∈ I, seen.getD (tidx b t0) false = true →
          ∀ t', adj t0 t' → t' ∈ I →
            b.is_wall t'.1 t'.2 = false → b.is_dead_tile t'.1 t'.2 = false →
            seen.getD (tidx b t') false = true ∧
              dists.getD (tidx b t') 0 ≤ dists.getD (tidx b t0) 0 + 1 := by
        intro t0 ht0 hsn t' hadj hmem hw hd
        rcases hclos t0 ht0 hsn t' hadj hmem hw hd with h | ⟨e, he, _⟩
        · exact h
        · cases he
      have hseed' : (b.is_wall goal.1 goal.2 = false ∧
          b.is_dead_tile goal.1 goal.2 = false) →
          seen.getD (tidx b goal) false = true ∧
            dists.getD (tidx b goal) 0 = 0 := by
        intro hall
        rcases hseed hall with h | hq
        · exact h
        · cases hq
      exact goal_bfs_final b I hI goal dists seen hmark hzero hclose hseed'
        t n hpath htI
    | (x, y, d) :: qt =>
      have hgd : ∀ u v : Nat × Nat, u ∈ I → v ∈ I → tidx b u = tidx b v → u = v := by
        intro u v huI hvI h
        refine tidx_inj b u v ?_ ?_ h
        · have := hI.bounds u huI; omega
        · have := hI.bounds v hvI; omega
      simp only [calculate_goal_distance_loop]
      by_cases hg : (!seen.getD (y * b.width + x) false
          && !b.walls.getD (y * b.width + x) false
          && !b.dead_tiles.getD (y * b.width + x) false) = true
      · rw [if_pos hg]
        simp only [Bool.and_eq_true, Bool.not_eq_true'] at hg
        obtain ⟨⟨hunseen, hwx⟩, hdx⟩ := hg
        have hxy : (x, y) ∈ I := by
          rcases hqc (x, y, d) (List.mem_cons_self _ _) with h | ⟨u, hu, hadj⟩
          · exact h
          · rcases hI.closed u hu (x, y) hadj with hwall | hin
            · rw [show b.is_wall x y = b.walls.getD (y * b.width + x) false
                from rfl, hwx] at hwall
              cases hwall
            · exact hin
        have hxw : x < b.width := by have := hI.bounds (x, y) hxy; omega
        have hidxlen : y * b.width + x < b.walls.length := by
          have := tidx_lt_walls_length b I hI (x, y) hxy
          exact this
        have hmarknew : (seen.set (y * b.width + x) true).getD
            (y * b.width + x) false = true :=
          getD_set_self _ _ (by omega) _ _
        have hdistnew : (dists.set (y * b.width + x) d).getD
            (y * b.width + x) 0 = d :=
          getD_set_self _ _ (by omega) _ _
        have hcount : countUnseenI b I (seen.set (y * b.width + x) true) + 1 ≤
            countUnseenI b I seen := by
          have := countUnseenI_mark b I seen (x, y) hI.nodup hxy hunseen
            (fun u hu => by have := hI.bounds u hu; omega)
            (show y * b.width + x < seen.length by omega)
          exact this
        have hdhead : ∀ e ∈ qt, d ≤ e.2.2 := by
          intro e he
          exact (List.pairwise_cons.mp hsort).1 e he
        have hdband : ∀ e ∈ qt, e.2.2 ≤ d + 1 := by
          intro e he
          exact hband e (List.mem_cons_of_mem _ he) (x, y, d)
            (List.mem_cons_self _ _)
        have hnewq : ∀ e ∈ [((x : Nat) + 1, y, d + 1), (x - 1, y, d + 1),
            ((x : Nat), y + 1, d + 1), ((x : Nat), y - 1, d + 1)],
            adj (x, y) (e.1, e.2.1) ∧ e.2.2 = d + 1 := by
          intro e he
          simp only [List.mem_cons, List.not_mem_nil, or_false] at he
          rcases he with rfl | rfl | rfl | rfl
          · exact ⟨Or.inl rfl, rfl⟩
          · exact ⟨Or.inr (Or.inl rfl), rfl⟩
          · exact ⟨Or.inr (Or.inr (Or.inl rfl)), rfl⟩
          · exact ⟨Or.inr (Or.inr (Or.inr rfl)), rfl⟩
        refine ih (dists.set (y * b.width + x) d)
          (seen.set (y * b.width + x) true) _
          (by rw [List.length_set]; exact hsnlen)
          (by rw [List.length_set]; exact hdlen)
          ?_ ?_ ?_ ?_ ?_ ?_ ?_ ?_ ?_ t n htI hpath
        · -- fuel
          have : (qt ++ [((x : Nat) + 1, y, d + 1), (x - 1, y, d + 1),
              ((x : Nat), y + 1, d + 1), ((x : Nat), y - 1, d + 1)]).length =
            qt.length + 4 := by simp
          rw [this]
          simp only [List.length_cons] at hfuel
          omega
        · -- coords
          intro e he
          rcases List.mem_append.mp he with he | he
          · exact hqc e (List.mem_cons_of_mem _ he)
          · exact Or.inr ⟨(x, y), hxy, (hnewq e he).1⟩
        · -- sorted
          rw [List.pairwise_append]
          refine ⟨(List.pairwise_cons.mp hsort).2, ?_, ?_⟩
          · -- the four new entries share one distance value
            simp [List.pairwise_cons]
          · intro e1 he1 e2 he2
            rw [(hnewq e2 he2).2]
            have := hdband e1 he1
            omega
        · -- band
          intro e1 he1 e2 he2
          rcases List.mem_append.mp he1 with he1 | he1 <;>
            rcases List.mem_append.mp he2 with he2 | he2
          · exact hband e1 (List.mem_cons_of_mem _ he1) e2
              (List.mem_cons_of_mem _ he2)
          · rw [(hnewq e2 he2).2]
            have := hdband e1 he1
            omega
          · rw [(hnewq e1 he1).2]
            have := hdhead e2 he2
            omega
          · rw [(hnewq e1 he1).2, (hnewq e2 he2).2]
            omega
        · -- writes below queue
          intro i hsn e he
          by_cases hi : i = y * b.width + x
          · subst hi
            rw [hdistnew]
            rcases List.mem_append.mp he with he | he
            · exact hdhead e he
            · rw [(hnewq e he).2]; omega
          · rw [getD_set_ne _ _ _ (fun h => hi h.symm)] at hsn ⊢
            rcases List.mem_append.mp he with he | he
            · exact hwq i hsn e (List.mem_cons_of_mem _ he)
            · rw [(hnewq e he).2]
              have h3 : dists.getD i 0 ≤ d :=
                hwq i hsn (x, y, d) (List.mem_cons_self _ _)
              omega
        · -- marked meaning
          intro i hsn
          by_cases hi : i = y * b.width + x
          · subst hi
            exact ⟨(x, y), hxy, rfl, hwx, hdx⟩
          · rw [getD_set_ne _ _ _ (fun h => hi h.symm)] at hsn
            exact hmark i hsn
        · -- zero default
          intro i hsn
          by_cases hi : i = y * b.width + x
          · subst hi
            rw [hmarknew] at hsn
            cases hsn
          · rw [getD_set_ne _ _ _ (fun h => hi h.symm)] at hsn ⊢
            exact hzero i hsn
        · -- closure
          intro u huI hsnu t' hadj' ht'I ht'w ht'd
          by_cases hu : u = (x, y)
          · subst hu
            -- all four neighbours are freshly queued with d + 1
            have hdistnew' : (dists.set (y * b.width + x) d).getD
                (tidx b (x, y)) 0 = d := hdistnew
            rw [hdistnew']
            right
            rcases hadj' with h | h | h | h
            · exact ⟨(x + 1, y, d + 1),
                List.mem_append.mpr (Or.inr (by simp)), h.symm, Nat.le_refl _⟩
            · exact ⟨(x - 1, y, d + 1),
                List.mem_append.mpr (Or.inr (by simp)), h.symm, Nat.le_refl _⟩
            · exact ⟨(x, y + 1, d + 1),
                List.mem_append.mpr (Or.inr (by simp)), h.symm, Nat.le_refl _⟩
            · exact ⟨(x, y - 1, d + 1),
                List.mem_append.mpr (Or.inr (by simp)), h.symm, Nat.le_refl _⟩
          · have hune : tidx b u ≠ y * b.width + x := fun h =>
              hu (hgd u (x, y) huI hxy h)
            rw [getD_set_ne _ _ _ (fun h => hune h.symm)] at hsnu ⊢
            rcases hclos u huI hsnu t' hadj' ht'I ht'w ht'd with
              ⟨h1, h2⟩ | ⟨e, he, hec, hed⟩
            · have ht'ne : tidx b t' ≠ y * b.width + x := by
                intro h
                have heq : t' = (x, y) := hgd t' (x, y) ht'I hxy h
                rw [heq] at h1
                have h1' : seen.getD (y * b.width + x) false = true := h1
                rw [hunseen] at h1'
                cases h1'
              left
              rw [getD_set_ne _ _ _ (fun h => ht'ne h.symm),
                getD_set_ne _ _ _ (fun h => ht'ne h.symm)]
              exact ⟨h1, h2⟩
            · rcases List.mem_cons.mp he with rfl | he
              · -- t' is the tile just marked
                left
                have ht'eq : t' = (x, y) := hec.symm
                subst ht'eq
                constructor
                · exact hmarknew
                · have hdistnew' : (dists.set (y * b.width + x) d).getD
                      (tidx b (x, y)) 0 = d := hdistnew
                  rw [hdistnew']
                  exact hed
              · exact Or.inr ⟨e, List.mem_append.mpr (Or.inl he), hec, hed⟩
        · -- seed
          intro hall
          rcases hseed hall with ⟨h1, h2⟩ | hq
          · left
            have hne : tidx b goal ≠ y * b.width + x := by
              intro h
              have heq : goal = (x, y) := hgd goal (x, y) hgoalI hxy h
              rw [heq] at h1
              have h1' : seen.getD (y * b.width + x) false = true := h1
              rw [hunseen] at h1'
              cases h1'
            rw [getD_set_ne _ _ _ (fun h => hne h.symm),
              getD_set_ne _ _ _ (fun h => hne h.symm)]
            exact ⟨h1, h2⟩
          · rcases List.mem_cons.mp hq with hq | hq
            · -- the seed is being popped and marked now
              left
              have h1 : x = goal.1 ∧ y = goal.2 ∧ d = 0 := by
                have := hq
                rw [Prod.mk.injEq, Prod.mk.injEq] at this
                exact ⟨this.1.symm, (this.2).1.symm, (this.2).2.symm⟩
              obtain ⟨rfl, rfl, rfl⟩ := h1
              constructor
              · exact hmarknew
              · exact hdistnew
            · exact Or.inr (List.mem_append.mpr (Or.inl hq))
      · rw [if_neg hg]
        refine ih dists seen qt hsnlen hdlen ?_ ?_ ?_ ?_ ?_ hmark hzero ?_ ?_
          t n htI hpath
        · simp only [List.length_cons] at hfuel
          omega
        · exact fun e he => hqc e (List.mem_cons_of_mem _ he)
        · exact (List.pairwise_cons.mp hsort).2
        · exact fun e1 he1 e2 he2 => hband e1 (List.mem_cons_of_mem _ he1) e2
            (List.mem_cons_of_mem _ he2)
        · exact fun i hsn e he => hwq i hsn e (List.mem_cons_of_mem _ he)
        · -- closure without the dropped head
          intro u huI hsnu t' hadj' ht'I ht'w ht'd
          rcases hclos u huI hsnu t' hadj' ht'I ht'w ht'd with
            ⟨h1, h2⟩ | ⟨e, he, hec, hed⟩
          · exact Or.inl ⟨h1, h2⟩
          · rcases List.mem_cons.mp he with rfl | he
            · -- dropped head: the guard failed, but t' is allowed, so it
              -- must be the seen case
              left
              have ht'eq : t' = (x, y) := hec.symm
              subst ht'eq
              have hseen : seen.getD (y * b.width + x) false = true := by
                simp only [Bool.and_eq_true, Bool.not_eq_true'] at hg
                by_cases h1 : seen.getD (y * b.width + x) false = true
                · exact h1
                · exfalso
                  refine hg ⟨⟨?_, ht'w⟩, ht'd⟩
                  cases h : seen.getD (y * b.width + x) false
                  · rfl
                  · exact absurd h h1
              refine ⟨hseen, ?_⟩
              have h3 : dists.getD (tidx b (x, y)) 0 ≤ d :=
                hwq (y * b.width + x) hseen (x, y, d) (List.mem_cons_self _ _)
              have hed' : d ≤ dists.getD (tidx b u) 0 + 1 := hed
              omega
            · exact Or.inr ⟨e, he, hec, hed⟩
        · -- seed without the dropped head
          intro hall
          rcases hseed hall with h | hq
          · exact Or.inl h
          · rcases List.mem_cons.mp hq with hq | hq
            · -- the seed entry is dropped: goal allowed, so guard failed on seen
              left
              have h1 : x = goal.1 ∧ y = goal.2 ∧ d = 0 := by
                rw [Prod.mk.injEq, Prod.mk.injEq] at hq
                exact ⟨hq.1.symm, hq.2.1.symm, hq.2.2.symm⟩
              obtain ⟨rfl, rfl, rfl⟩ := h1
              have hseen : seen.getD (goal.2 * b.width + goal.1) false = true := by
                simp only [Bool.and_eq_true, Bool.not_eq_true'] at hg
                by_cases h1 : seen.getD (goal.2 * b.width + goal.1) false = true
                · exact h1
                · exfalso
                  refine hg ⟨⟨?_, hall.1⟩, hall.2⟩
                  cases h : seen.getD (goal.2 * b.width + goal.1) false
                  · rfl
                  · exact absurd h h1
              refine ⟨hseen, ?_⟩
              have h3 : dists.getD (tidx b goal) 0 ≤ 0 :=
                hwq (goal.2 * b.width + goal.1) hseen
                  (goal.1, goal.2, 0) (List.mem_cons_self _ _)
              omega
            · exact Or.inr hq

lemma getD_replicate_zero (n i : Nat) :
    (List.replicate n (0 : Nat)).getD i 0 = 0 := by
  simp only [List.getD_eq_getElem?_getD, List.getElem?_replicate]
  split <;> rfl

/-- The goal-distance table of `goal` lower-bounds every crate path from
`t` to `goal` through the interior. -/
lemma goal_distance_bound (b : Board) (I : List (Nat × Nat))
    (hI : InteriorOk b I) (goal : Nat × Nat) (hgoalI : goal ∈ I) :
    ∀ t n, t ∈ I → CratePath b I t goal n →
      (calculate_goal_distance goal b.width b.walls b.dead_tiles).getD
        (tidx b t) 0 ≤ n := by
  intro t n htI hpath
  unfold calculate_goal_distance
  refine goal_bfs_bound b I hI goal hgoalI (4 * b.walls.length + 8)
    (List.replicate b.walls.length 0) (List.replicate b.walls.length false)
    [(goal.1, goal.2, 0)] (by simp) (by simp) ?_ ?_ ?_ ?_ ?_ ?_ ?_ ?_ ?_
    t n htI hpath
  · rw [countUnseenI_replicate]
    have := interior_length_le b I hI
    simp only [List.length_cons, List.length_nil]
    omega
  · intro e he
    obtain rfl := List.mem_singleton.mp he
    exact Or.inl hgoalI
  · simp
  · intro e1 he1 e2 he2
    obtain rfl := List.mem_singleton.mp he1
    obtain rfl := List.mem_singleton.mp he2
    exact Nat.le_succ _
  · intro i hsn
    rw [getD_replicate_false] at hsn
    cases hsn
  · intro i hsn
    rw [getD_replicate_false] at hsn
    cases hsn
  · intro i _
    exact getD_replicate_zero _ _
  · intro u _ hsnu
    rw [getD_replicate_false] at hsnu
    cases hsnu
  · intro _
    exact Or.inr (List.mem_singleton.mpr rfl)

lemma decode_tidx (b : Board) (i : Nat) :
    tidx b (i % b.width, i / b.width) = i := by
  unfold tidx
  simp only
  rw [Nat.mul_comm]
  exact Nat.div_add_mod i b.width

lemma decode_inj (w i j : Nat)
    (h : ((i % w : Nat), (i / w : Nat)) = ((j % w : Nat), (j / w : Nat))) :
    i = j := by
  have h1 : i % w = j % w := congrArg Prod.fst h
  have h2 : i / w = j / w := congrArg Prod.snd h
  have e1 := Nat.mod_add_div i w
  have e2 := Nat.mod_add_div j w
  rw [h1, h2] at e1
  rw [e2] at e1
  exact e1.symm

lemma iter_crates_nodup (b : Board) (s : BoardState) :
    (b.iter_crates s).Nodup := by
  unfold Board.iter_crates
  have hfst : ((s.crates.enum.filter (fun p => p.2)).map Prod.fst).Nodup := by
    have hsub : List.Sublist
        ((s.crates.enum.filter (fun p => p.2)).map Prod.fst)
        (s.crates.enum.map Prod.fst) :=
      (List.filter_sublist _).map Prod.fst
    refine List.Nodup.sublist hsub ?_
    rw [List.enum_map_fst]
    exact List.nodup_range _
  refine List.Nodup.map_on ?_ (List.Nodup.of_map _ hfst)
  intro p hp q hq h
  exact List.inj_on_of_nodup_map hfst hp hq (decode_inj b.width p.1 q.1 h)

lemma iter_crates_bit (b : Board) (s : BoardState) (c : Nat × Nat)
    (h : c ∈ b.iter_crates s) : s.crates.getD (tidx b c) false = true := by
  obtain ⟨i, hbit, rfl⟩ := mem_iter_crates b s c h
  rw [decode_tidx]
  exact hbit

lemma iter_crates_mem_of_bit (b : Board) (s : BoardState) (c : Nat × Nat)
    (hw : c.1 < b.width) (hbit : s.crates.getD (tidx b c) false = true) :
    c ∈ b.iter_crates s := by
  have hlen : tidx b c < s.crates.length := getD_true_lt_length _ _ hbit
  have hv : s.crates[tidx b c]? = some true := by
    rw [List.getD_eq_getElem?_getD, List.getElem?_eq_getElem hlen] at hbit
    rw [List.getElem?_eq_getElem hlen]
    simp only [Option.getD_some] at hbit
    rw [hbit]
  unfold Board.iter_crates
  rw [List.mem_map]
  refine ⟨(tidx b c, true), ?_, ?_⟩
  · rw [List.mem_filter]
    exact ⟨List.mem_enum_iff_getElem?.mpr hv, rfl⟩
  · obtain ⟨hm, hd⟩ := tidx_decode b c hw
    simp only
    rw [hm, hd]

lemma iter_crates_canonical (b : Board) (s : BoardState) (c : Nat × Nat)
    (hw : 0 < b.width) (h : c ∈ b.iter_crates s) : c.1 < b.width := by
  obtain ⟨i, _, rfl⟩ := mem_iter_crates b s c h
  exact Nat.mod_lt _ hw

lemma nodup_middle_mem {α : Type} (u v : List α) (c a : α)
    (hnd : (u ++ c :: v).Nodup) : a ∈ u ++ v ↔ a ∈ u ++ c :: v ∧ a ≠ c := by
  rw [List.nodup_append] at hnd
  obtain ⟨hu, hcv, hdisj⟩ := hnd
  rw [List.nodup_cons] at hcv
  simp only [List.mem_append, List.mem_cons]
  constructor
  · rintro (h | h)
    · exact ⟨Or.inl h,
        fun hac => (hdisj h) (by rw [hac]; exact List.mem_cons_self _ _)⟩
    · exact ⟨Or.inr (Or.inr h), fun hac => hcv.1 (hac ▸ h)⟩
  · rintro ⟨h | h | h, hne⟩
    · exact Or.inl h
    · exact absurd h hne
    · exact Or.inr h

/-- Effect of one push on the crate coordinate list: the source crate is
replaced by the destination, every other crate kept (as multisets). -/
lemma iter_crates_push_split (b : Board) (s : BoardState) (cx cy dx dy : Nat)
    (hw0 : 0 < b.width) (hcxw : cx < b.width) (hdxw : dx < b.width)
    (hsrc : s.crates.getD (cy * b.width + cx) false = true)
    (hdst : s.crates.getD (dy * b.width + dx) false = false)
    (hdlen : dy * b.width + dx < s.crates.length) :
    ∃ rest : List (Nat × Nat),
      (b.iter_crates s).Perm ((cx, cy) :: rest) ∧
      (b.iter_crates (push_result b s cx cy dx dy)).Perm ((dx, dy) :: rest) := by
  have hslen : cy * b.width + cx < s.crates.length := getD_true_lt_length _ _ hsrc
  have hne : cy * b.width + cx ≠ dy * b.width + dx := by
    intro h
    rw [h, hdst] at hsrc
    cases hsrc
  have hchild : (push_result b s cx cy dx dy).crates =
      (s.crates.set (dy * b.width + dx) true).set (cy * b.width + cx) false := rfl
  have hchar : ∀ k, ((s.crates.set (dy * b.width + dx) true).set
      (cy * b.width + cx) false).getD k false = true ↔
      (k ≠ cy * b.width + cx ∧
        (k = dy * b.width + dx ∨ s.crates.getD k false = true)) := by
    intro k
    by_cases hic : k = cy * b.width + cx
    · subst hic
      rw [getD_set_self _ _ (by rw [List.length_set]; exact hslen) _ _]
      simp
    · rw [getD_set_ne _ _ _ (fun h => hic h.symm) _ _]
      by_cases hid : k = dy * b.width + dx
      · subst hid
        rw [getD_set_self _ _ hdlen _ _]
        simp [hic]
      · rw [getD_set_ne _ _ _ (fun h => hid h.symm) _ _]
        constructor
        · intro h; exact ⟨hic, Or.inr h⟩
        · rintro ⟨_, h | h⟩
          · exact absurd h hid
          · exact h
  have hcmem : (cx, cy) ∈ b.iter_crates s :=
    iter_crates_mem_of_bit b s (cx, cy) hcxw hsrc
  obtain ⟨u, v, huv⟩ := List.mem_iff_append.mp hcmem
  have hnduv : (u ++ (cx, cy) :: v).Nodup := by
    rw [← huv]; exact iter_crates_nodup b s
  refine ⟨u ++ v, ?_, ?_⟩
  · rw [huv]
    exact List.perm_middle
  · have hl2nd : ((dx, dy) :: (u ++ v)).Nodup := by
      rw [List.nodup_cons]
      constructor
      · intro hmem
        have h1 : (dx, dy) ∈ u ++ (cx, cy) :: v :=
          ((nodup_middle_mem u v (cx, cy) (dx, dy) hnduv).mp hmem).1
        rw [← huv] at h1
        have h2 : s.crates.getD (dy * b.width + dx) false = true :=
          iter_crates_bit b s (dx, dy) h1
        rw [hdst] at h2
        cases h2
      · have hsubl : List.Sublist (u ++ v) (u ++ (cx, cy) :: v) :=
          (List.sublist_cons_self _ _).append_left u
        exact hnduv.sublist hsubl
    refine List.perm_of_nodup_nodup_toFinset_eq
      (iter_crates_nodup b _) hl2nd ?_
    ext a
    simp only [List.mem_toFinset, List.mem_cons]
    constructor
    · intro ha
      have hbit := iter_crates_bit b _ a ha
      have hcan := iter_crates_canonical b _ a hw0 ha
      rw [hchild, hchar (tidx b a)] at hbit
      obtain ⟨hnc, hdo⟩ := hbit
      rcases hdo with hdi | hsb
      · left
        exact tidx_inj b a (dx, dy) hcan hdxw hdi
      · right
        have haS : a ∈ b.iter_crates s := iter_crates_mem_of_bit b s a hcan hsb
        rw [huv] at haS
        refine (nodup_middle_mem u v (cx, cy) a hnduv).mpr ⟨haS, ?_⟩
        intro hac
        apply hnc
        rw [hac]
        rfl
    · rintro (rfl | ha)
      · refine iter_crates_mem_of_bit b _ (dx, dy) hdxw ?_
        rw [hchild]
        exact (hchar (tidx b (dx, dy))).mpr ⟨fun h => hne h.symm, Or.inl rfl⟩
      · obtain ⟨haM, hanec⟩ := (nodup_middle_mem u v (cx, cy) a hnduv).mp ha
        rw [← huv] at haM
        have hbit := iter_crates_bit b s a haM
        have hcan := iter_crates_canonical b s a hw0 haM
        have hnci : tidx b a ≠ cy * b.width + cx := by
          intro h
          exact hanec (tidx_inj b a (cx, cy) hcan hcxw h)
        refine iter_crates_mem_of_bit b _ a hcan ?_
        rw [hchild]
        exact (hchar (tidx b a)).mpr ⟨hnci, Or.inr hbit⟩

/-- Geometry of a legal push probed from an interior agent tile: crate
and destination are interior and the destination is adjacent to the
crate. -/
lemma legal_push_facts (b : Board) (s : BoardState) (I : List (Nat × Nat))
    (hI : InteriorOk b I)
    (hcr : ∀ i, i < s.crates.length → s.crates.getD i false = true →
      ∃ t ∈ I, tidx b t = i)
    (p : Nat × Nat) (cx cy dx dy : Nat) (hp : p ∈ I)
    (hfrom : push_from p cx cy dx dy)
    (hcrate : b.is_crate s cx cy = true)
    (hemp : b.is_empty s dx dy = true) :
    (cx, cy) ∈ I ∧ (dx, dy) ∈ I ∧ adj (cx, cy) (dx, dy) := by
  obtain ⟨hp1, hp2, hp3, hp4⟩ := hI.bounds p hp
  simp only [Board.is_empty, Bool.and_eq_true, Bool.not_eq_true'] at hemp
  obtain ⟨hdw, hdc⟩ := hemp
  have hcxw : cx < b.width := by
    rcases hfrom with ⟨h1, _⟩ | ⟨h1, _⟩ | ⟨h1, _⟩ | ⟨h1, _⟩ <;>
      (have hx : cx = (cx, cy).1 := rfl
       rw [h1] at hx
       simp only at hx
       omega)
  have hcm : (cx, cy) ∈ I := by
    have hbit : s.crates.getD (cy * b.width + cx) false = true := hcrate
    obtain ⟨t, htI, ht⟩ := hcr _ (getD_true_lt_length _ _ hbit) hbit
    have htw : t.1 < b.width := by have := hI.bounds t htI; omega
    have : t = (cx, cy) := tidx_inj b t (cx, cy) htw hcxw ht
    rw [← this]
    exact htI
  have hadj : adj (cx, cy) (dx, dy) := by
    rcases hfrom with ⟨h1, h2⟩ | ⟨h1, h2⟩ | ⟨h1, h2⟩ | ⟨h1, h2⟩ <;>
      (rw [Prod.mk.injEq] at h1 h2
       obtain ⟨hc1, hc2⟩ := h1
       obtain ⟨hd1, hd2⟩ := h2)
    · exact Or.inr (Or.inr (Or.inr (Prod.ext (by omega) (by simp only; omega))))
    · exact Or.inr (Or.inr (Or.inl (Prod.ext (by omega) (by simp only; omega))))
    · exact Or.inr (Or.inl (Prod.ext (by simp only; omega) (by omega)))
    · exact Or.inl (Prod.ext (by simp only; omega) (by omega))
  have hdm : (dx, dy) ∈ I := by
    rcases hI.closed (cx, cy) hcm (dx, dy) hadj with hwall | hin
    · have : b.is_wall dx dy = true := hwall
      rw [hdw] at this
      cases this
    · exact hin
  exact ⟨hcm, hdm, hadj⟩

/-- Every `n`-step solution yields a crate-goal pairing certificate of
total crate-path length at most `n`. -/
lemma reaches_matchbound (b : Board) (I : List (Nat × Nat)) (hI : InteriorOk b I)
    (hgI : ∀ g ∈ b.goals, g.1 ∈ I)
    (hgnd : (b.goals.map (fun g => g.1)).Nodup) :
    ∀ n s, ReachesGoal b s n →
      (∀ i, i < s.crates.length → s.crates.getD i false = true →
        ∃ t ∈ I, tidx b t = i) →
      s.player ∈ I →
      s.crates.length = b.walls.length →
      (b.iter_crates s).length = b.goals.length →
      MatchBound b I s n := by
  intro n s hreach
  induction hreach with
  | @done s0 hgs =>
    intro hcr _hplayer _hclen hnum
    rw [Board.is_goal_state, List.all_eq_true] at hgs
    have hsub : ∀ g ∈ b.goals.map (fun g => g.1), g ∈ b.iter_crates s0 := by
      intro g hg
      obtain ⟨gg, hggm, rfl⟩ := List.mem_map.mp hg
      have hbit : b.is_crate s0 gg.1.1 gg.1.2 = true := by
        have := hgs gg hggm
        simpa using this
      have hgw : gg.1.1 < b.width := by
        have := hI.bounds gg.1 (hgI gg hggm)
        omega
      exact iter_crates_mem_of_bit b s0 gg.1 hgw hbit
    have hperm : (b.goals.map (fun g => g.1)).Perm (b.iter_crates s0) := by
      refine (hgnd.subperm hsub).perm_of_length_le ?_
      rw [hnum, List.length_map]
    refine ⟨b.goals.map (fun g => (g.1, g.1, 0)), ?_, ?_, ?_, ?_⟩
    · have hmeq : (b.goals.map (fun g => (g.1, g.1, 0))).map (fun e => e.1) =
          b.goals.map (fun g => g.1) := by
        simp [List.map_map]
      rw [hmeq]
      exact hperm
    · have hmeq : (b.goals.map (fun g => (g.1, g.1, 0))).map (fun e => e.2.1) =
          b.goals.map (fun g => g.1) := by
        simp [List.map_map]
      rw [hmeq]
    · intro e he
      obtain ⟨g, _, rfl⟩ := List.mem_map.mp he
      exact CratePath.refl g.1
    · refine Nat.le_of_eq (List.sum_eq_zero ?_)
      intro x hx
      rw [List.map_map] at hx
      obtain ⟨g, _, rfl⟩ := List.mem_map.mp hx
      rfl
  | @step s0 c0 acts0 n0 hmem hr ih =>
    intro hcr hplayer hclen hnum
    obtain ⟨p, cx, cy, dx, dy, hwalk, hfrom, hok, hcEq⟩ :=
      (create_children_iff b s0 I hI hplayer c0).mp ⟨acts0, hmem⟩
    obtain ⟨hcrate, hemp, hdead, _hfroz⟩ := hok
    have hpI : p ∈ I := walk_reach_in_interior b s0 I hI hplayer p hwalk
    obtain ⟨hcm, hdm, hadj⟩ :=
      legal_push_facts b s0 I hI hcr p cx cy dx dy hpI hfrom hcrate hemp
    obtain ⟨hd1, hd2, hd3, hd4⟩ := hI.bounds _ hdm
    obtain ⟨hc1, hc2, hc3, hc4⟩ := hI.bounds _ hcm
    have hc2' : cx + 1 < b.width := hc2
    have hd2' : dx + 1 < b.width := hd2
    have hw0 : 0 < b.width := by omega
    simp only [Board.is_empty, Bool.and_eq_true, Bool.not_eq_true'] at hemp
    obtain ⟨hdw, hdc⟩ := hemp
    have hsrc : s0.crates.getD (cy * b.width + cx) false = true := hcrate
    have hdst : s0.crates.getD (dy * b.width + dx) false = false := hdc
    have hdlen : dy * b.width + dx < s0.crates.length := by
      have h1 := tidx_lt_walls_length b I hI (dx, dy) hdm
      have h2 : dy * b.width + dx < b.walls.length := h1
      omega
    obtain ⟨rest, hperm1, hperm2⟩ :=
      iter_crates_push_split b s0 cx cy dx dy hw0 (by omega) (by omega)
        hsrc hdst hdlen
    have hchild : c0.crates =
        (s0.crates.set (dy * b.width + dx) true).set (cy * b.width + cx) false := by
      rw [hcEq]
      rfl
    have hclen' : c0.crates.length = b.walls.length := by
      rw [hchild, List.length_set, List.length_set]; exact hclen
    have hcr' : ∀ i, i < c0.crates.length → c0.crates.getD i false = true →
        ∃ t ∈ I, tidx b t = i := by
      intro i hilen hbit
      rw [hchild] at hbit
      by_cases hic : i = cy * b.width + cx
      · subst hic
        rw [getD_set_self _ _
          (by rw [List.length_set]; exact getD_true_lt_length _ _ hsrc) _ _] at hbit
        cases hbit
      · rw [getD_set_ne _ _ _ (fun h => hic h.symm) _ _] at hbit
        by_cases hid : i = dy * b.width + dx
        · subst hid
          exact ⟨(dx, dy), hdm, rfl⟩
        · rw [getD_set_ne _ _ _ (fun h => hid h.symm) _ _] at hbit
          refine hcr i ?_ hbit
          rw [hchild, List.length_set, List.length_set] at hilen
          exact hilen
    have hplayer' : c0.player ∈ I := by
      rw [hcEq]
      exact hcm
    have hnum' : (b.iter_crates c0).length = b.goals.length := by
      have e1 := hperm1.length_eq
      have e2 : (b.iter_crates c0).length = ((dx, dy) :: rest).length := by
        rw [hcEq]; exact hperm2.length_eq
      simp only [List.length_cons] at e1 e2
      omega
    obtain ⟨P', hP1, hP2, hP3, hP4⟩ := ih hcr' hplayer' hclen' hnum'
    have hdinP : (dx, dy) ∈ P'.map (fun e => e.1) := by
      refine hP1.mem_iff.mpr ?_
      rw [hcEq]
      exact hperm2.mem_iff.mpr (List.mem_cons_self _ _)
    obtain ⟨e0, he0P, he0⟩ := List.mem_map.mp hdinP
    obtain ⟨U, V, hUV⟩ := List.mem_iff_append.mp he0P
    have hPsplit : P'.Perm (e0 :: (U ++ V)) := by
      rw [hUV]; exact List.perm_middle
    have hsubUV : ∀ e, e ∈ U ++ V → e ∈ P' := by
      intro e he'
      rw [hUV]
      rcases List.mem_append.mp he' with h | h
      · exact List.mem_append.mpr (Or.inl h)
      · exact List.mem_append.mpr (Or.inr (List.mem_cons_of_mem _ h))
    refine ⟨((cx, cy), e0.2.1, e0.2.2 + 1) :: (U ++ V), ?_, ?_, ?_, ?_⟩
    · simp only [List.map_cons]
      have h1 : (P'.map (fun e => e.1)).Perm
          ((dx, dy) :: (U ++ V).map (fun e => e.1)) := by
        have h0 := hPsplit.map (fun e => e.1)
        simp only [List.map_cons] at h0
        rw [he0] at h0
        exact h0
      have h2 : ((U ++ V).map (fun e => e.1)).Perm rest := by
        have h3 : ((dx, dy) :: (U ++ V).map (fun e => e.1)).Perm
            ((dx, dy) :: rest) := by
          refine h1.symm.trans ?_
          refine hP1.trans ?_
          rw [hcEq]
          exact hperm2
        exact h3.cons_inv
      exact (h2.cons (cx, cy)).trans hperm1.symm
    · simp only [List.map_cons]
      have h1 := hPsplit.map (fun e => e.2.1)
      simp only [List.map_cons] at h1
      exact h1.symm.trans hP2
    · intro e he
      rcases List.mem_cons.mp he with rfl | he
      · have hpath0 : CratePath b I (dx, dy) e0.2.1 e0.2.2 := by
          have h0 := hP3 e0 he0P
          rw [he0] at h0
          exact h0
        exact CratePath.step hadj hdm hdw hdead hpath0
      · exact hP3 e (hsubUV e he)
    · simp only [List.map_cons, List.sum_cons]
      have h1 := (hPsplit.map (fun e => e.2.2)).sum_eq
      simp only [List.map_cons, List.sum_cons] at h1
      omega

/-- Chain compression: a full crate-goal pairing can be rearranged so
that every crate that sits off the goal tiles is paired with an
**unsatisfied** goal, at no extra total path length.  Whenever a pairing
sends a crate to an occupied goal, its path is extended by the path of
the occupying crate, consuming that crate's own pairing entry; the
number of entries whose crate sits on a goal strictly decreases. -/
lemma chain_merge (b : Board) (I : List (Nat × Nat)) (s : BoardState)
    (hgt : ∀ g ∈ b.goals, b.is_goal g.1.1 g.1.2 = true) :
    ∀ (m : Nat) (P : List ((Nat × Nat) × (Nat × Nat) × Nat)),
      (P.filter (fun e => b.is_goal e.1.1 e.1.2)).length = m →
      (P.map (fun e => e.1)).Nodup →
      (∀ e ∈ P, e.1 ∈ b.iter_crates s) →
      (∀ c ∈ b.iter_crates s, b.is_goal c.1 c.2 = false →
        c ∈ P.map (fun e => e.1)) →
      (P.map (fun e => e.2.1)).Nodup →
      (∀ e ∈ P, e.2.1 ∈ b.goals.map (fun g => g.1)) →
      (∀ e ∈ P, CratePath b I e.1 e.2.1 e.2.2) →
      (∀ e ∈ P, b.is_crate s e.2.1.1 e.2.1.2 = true →
        e.2.1 ∈ P.map (fun e => e.1)) →
      ∃ Q : List ((Nat × Nat) × (Nat × Nat) × Nat),
        ((b.iter_crates s).filter (fun c => !b.is_goal c.1 c.2)).Perm
          (Q.map (fun e => e.1)) ∧
        (∀ e ∈ Q, CratePath b I e.1 e.2.1 e.2.2 ∧
          e.2.1 ∈ b.goals.map (fun g => g.1) ∧
          b.is_crate s e.2.1.1 e.2.1.2 = false) ∧
        (Q.map (fun e => e.2.2)).sum ≤ (P.map (fun e => e.2.2)).sum := by
  intro m
  induction m using Nat.strong_induction_on with
  | _ m ihm =>
  intro P hm hnds hsubs hcov hndt hsubt hpath hlink
  by_cases hx : ∃ e ∈ P, b.is_goal e.1.1 e.1.2 = false ∧
      b.is_crate s e.2.1.1 e.2.1.2 = true
  · -- a merge is possible
    obtain ⟨ec, hecP, hecoff, hecsat⟩ := hx
    obtain ⟨e1, he1P, he1⟩ := List.mem_map.mp (hlink ec hecP hecsat)
    have he1g : b.is_goal e1.1.1 e1.1.2 = true := by
      obtain ⟨gg, hggm, hgg⟩ := List.mem_map.mp (hsubt ec hecP)
      rw [he1, ← hgg]
      exact hgt gg hggm
    have hne1c : e1 ≠ ec := by
      intro h
      rw [h, hecoff] at he1g
      cases he1g
    have hndP : P.Nodup := List.Nodup.of_map _ hnds
    obtain ⟨U, V, hUV⟩ := List.mem_iff_append.mp hecP
    have hnduv : (U ++ ec :: V).Nodup := by rw [← hUV]; exact hndP
    have he1uv : e1 ∈ U ++ V := by
      refine (nodup_middle_mem U V ec e1 hnduv).mpr ⟨?_, hne1c⟩
      rw [← hUV]
      exact he1P
    obtain ⟨X, Y, hXY⟩ := List.mem_iff_append.mp he1uv
    have hPsplit : P.Perm (ec :: e1 :: (X ++ Y)) := by
      rw [hUV]
      refine List.perm_middle.trans ?_
      refine List.Perm.cons ec ?_
      rw [hXY]
      exact List.perm_middle
    have hXYsub : ∀ e, e ∈ X ++ Y → e ∈ P := by
      intro e he
      have h1 : e ∈ U ++ V := by
        rw [hXY]
        rcases List.mem_append.mp he with h | h
        · exact List.mem_append.mpr (Or.inl h)
        · exact List.mem_append.mpr (Or.inr (List.mem_cons_of_mem _ h))
      rw [hUV]
      rcases List.mem_append.mp h1 with h | h
      · exact List.mem_append.mpr (Or.inl h)
      · exact List.mem_append.mpr (Or.inr (List.mem_cons_of_mem _ h))
    have hmap1 : (P.map (fun e => e.1)).Perm
        (ec.1 :: e1.1 :: (X ++ Y).map (fun e => e.1)) := by
      have h0 := hPsplit.map (fun e => e.1)
      simpa using h0
    have hmap2 : (P.map (fun e => e.2.1)).Perm
        (ec.2.1 :: e1.2.1 :: (X ++ Y).map (fun e => e.2.1)) := by
      have h0 := hPsplit.map (fun e => e.2.1)
      simpa using h0
    have hnd1 := hmap1.nodup hnds
    have hnd2 := hmap2.nodup hndt
    rw [List.nodup_cons] at hnd1 hnd2
    obtain ⟨hec1nm, hnd1t⟩ := hnd1
    obtain ⟨hec2nm, hnd2t⟩ := hnd2
    rw [List.nodup_cons] at hnd1t hnd2t
    obtain ⟨he11nm, hnd1tt⟩ := hnd1t
    obtain ⟨he12nm, hnd2tt⟩ := hnd2t
    -- the merged pairing
    have hlt : (((ec.1, e1.2.1, ec.2.2 + e1.2.2) :: (X ++ Y)).filter
        (fun e => b.is_goal e.1.1 e.1.2)).length < m := by
      have hp := (hPsplit.filter (fun e => b.is_goal e.1.1 e.1.2)).length_eq
      rw [hm] at hp
      simp only [List.filter_cons] at hp ⊢
      rw [if_neg (by rw [hecoff]; simp), if_pos (by rw [he1g])] at hp
      rw [if_neg (by rw [hecoff]; simp)]
      simp only [List.length_cons] at hp
      omega
    have hnds'' : ((((ec.1, e1.2.1, ec.2.2 + e1.2.2) :: (X ++ Y)).map
        (fun e => e.1))).Nodup := by
      simp only [List.map_cons]
      rw [List.nodup_cons]
      refine ⟨?_, hnd1tt⟩
      intro hmem
      exact hec1nm (List.mem_cons_of_mem _ hmem)
    have hsubs'' : ∀ e ∈ (ec.1, e1.2.1, ec.2.2 + e1.2.2) :: (X ++ Y),
        e.1 ∈ b.iter_crates s := by
      intro e he
      rcases List.mem_cons.mp he with rfl | he
      · exact hsubs ec hecP
      · exact hsubs e (hXYsub e he)
    have hcov'' : ∀ c ∈ b.iter_crates s, b.is_goal c.1 c.2 = false →
        c ∈ ((ec.1, e1.2.1, ec.2.2 + e1.2.2) :: (X ++ Y)).map (fun e => e.1) := by
      intro c hc hcoff
      have h1 := hmap1.mem_iff.mp (hcov c hc hcoff)
      simp only [List.map_cons, List.mem_cons]
      rcases List.mem_cons.mp h1 with h | h
      · exact Or.inl h
      · rcases List.mem_cons.mp h with h | h
        · exfalso
          rw [h, he1g] at hcoff
          cases hcoff
        · exact Or.inr h
    have hndt'' : ((((ec.1, e1.2.1, ec.2.2 + e1.2.2) :: (X ++ Y)).map
        (fun e => e.2.1))).Nodup := by
      simp only [List.map_cons]
      rw [List.nodup_cons]
      exact ⟨he12nm, hnd2tt⟩
    have hsubt'' : ∀ e ∈ (ec.1, e1.2.1, ec.2.2 + e1.2.2) :: (X ++ Y),
        e.2.1 ∈ b.goals.map (fun g => g.1) := by
      intro e he
      rcases List.mem_cons.mp he with rfl | he
      · exact hsubt e1 he1P
      · exact hsubt e (hXYsub e he)
    have hpath'' : ∀ e ∈ (ec.1, e1.2.1, ec.2.2 + e1.2.2) :: (X ++ Y),
        CratePath b I e.1 e.2.1 e.2.2 := by
      intro e he
      rcases List.mem_cons.mp he with rfl | he
      · have hp1 := hpath ec hecP
        have hp2 := hpath e1 he1P
        rw [he1] at hp2
        exact cratePath_trans b I hp1 hp2
      · exact hpath e (hXYsub e he)
    have hlink'' : ∀ e ∈ (ec.1, e1.2.1, ec.2.2 + e1.2.2) :: (X ++ Y),
        b.is_crate s e.2.1.1 e.2.1.2 = true →
        e.2.1 ∈ ((ec.1, e1.2.1, ec.2.2 + e1.2.2) :: (X ++ Y)).map
          (fun e => e.1) := by
      intro e he hsat
      have htne : e.2.1 ≠ ec.2.1 := by
        intro hEq
        apply hec2nm
        rw [← hEq]
        rcases List.mem_cons.mp he with rfl | he'
        · exact List.mem_cons_self _ _
        · exact List.mem_cons_of_mem _
            (List.mem_map_of_mem (fun e => e.2.1) he')
      have hinP : e.2.1 ∈ P.map (fun e => e.1) := by
        rcases List.mem_cons.mp he with rfl | he'
        · exact hlink e1 he1P hsat
        · exact hlink e (hXYsub e he') hsat
      have h1 := hmap1.mem_iff.mp hinP
      simp only [List.map_cons, List.mem_cons]
      rcases List.mem_cons.mp h1 with h | h
      · exact Or.inl h
      · rcases List.mem_cons.mp h with h | h
        · exfalso
          rw [he1] at h
          exact htne h
        · exact Or.inr h
    obtain ⟨Q, hQ1, hQ2, hQ3⟩ := ihm _ hlt
      ((ec.1, e1.2.1, ec.2.2 + e1.2.2) :: (X ++ Y)) rfl
      hnds'' hsubs'' hcov'' hndt'' hsubt'' hpath'' hlink''
    refine ⟨Q, hQ1, hQ2, ?_⟩
    refine le_trans hQ3 ?_
    have hsum := (hPsplit.map (fun e => e.2.2)).sum_eq
    simp only [List.map_cons, List.sum_cons] at hsum ⊢
    omega
  · -- no merge possible: keep the off-goal entries as they stand
    refine ⟨P.filter (fun e => !b.is_goal e.1.1 e.1.2), ?_, ?_, ?_⟩
    · have hl2nd : ((P.filter (fun e => !b.is_goal e.1.1 e.1.2)).map
          (fun e => e.1)).Nodup := by
        refine List.Nodup.sublist ?_ hnds
        exact (List.filter_sublist P).map _
      refine List.perm_of_nodup_nodup_toFinset_eq
        (((iter_crates_nodup b s).filter _)) hl2nd ?_
      ext a
      simp only [List.mem_toFinset, List.mem_filter]
      constructor
      · rintro ⟨haI, hanot⟩
        have hoff : b.is_goal a.1 a.2 = false := by
          simpa using hanot
        obtain ⟨e, heP, heq⟩ := List.mem_map.mp (hcov a haI hoff)
        refine List.mem_map.mpr ⟨e, List.mem_filter.mpr ⟨heP, ?_⟩, heq⟩
        rw [heq]
        simpa using hoff
      · intro ha
        obtain ⟨e, hef, rfl⟩ := List.mem_map.mp ha
        obtain ⟨heP, henot⟩ := List.mem_filter.mp hef
        exact ⟨hsubs e heP, henot⟩
    · intro e he
      obtain ⟨heP, henot⟩ := List.mem_filter.mp he
      have heoff : b.is_goal e.1.1 e.1.2 = false := by simpa using henot
      refine ⟨hpath e heP, hsubt e heP, ?_⟩
      by_contra hc
      have hsat : b.is_crate s e.2.1.1 e.2.1.2 = true := by
        cases h : b.is_crate s e.2.1.1 e.2.1.2
        · exact absurd h hc
        · rfl
      exact hx ⟨e, heP, heoff, hsat⟩
    · refine List.Sublist.sum_le_sum ?_ ?_
      · exact (List.filter_sublist P).map _
      · intro x _
        exact Nat.zero_le x

/-- On a goal state every goal is satisfied, the unsatisfied-goal list is
empty, and each crate's `min?.getD 0` collapses to `0`. -/
lemma heuristic_goal_state (b : Board) (s : BoardState)
    (h : b.is_goal_state s = true) : b.heuristic s = 0 := by
  rw [Board.is_goal_state, List.all_eq_true] at h
  have hempty : b.goals.filter (fun g => !b.is_crate s g.1.1 g.1.2) = [] := by
    rw [List.filter_eq_nil_iff]
    intro g hg
    have := h g hg
    simp only [decide_eq_true_eq] at this ⊢
    simp [this]
  simp only [Board.heuristic, hempty, List.map_nil, List.min?_nil,
    Option.getD_none]
  exact List.sum_eq_zero (by
    intro x hx
    obtain ⟨c, _, rfl⟩ := List.mem_map.mp hx
    rfl)

/-- The heuristic is bounded by the total path length of any pairing of
the off-goal crates with unsatisfied goals. -/
lemma heuristic_le_chain_sum (b : Board) (I : List (Nat × Nat))
    (hI : InteriorOk b I)
    (hgI : ∀ g ∈ b.goals, g.1 ∈ I)
    (htab : ∀ g ∈ b.goals, g.2 =
      calculate_goal_distance g.1 b.width b.walls b.dead_tiles)
    (s : BoardState)
    (hcI : ∀ c ∈ b.iter_crates s, c ∈ I)
    (Q : List ((Nat × Nat) × (Nat × Nat) × Nat))
    (hQ1 : ((b.iter_crates s).filter (fun c => !b.is_goal c.1 c.2)).Perm
      (Q.map (fun e => e.1)))
    (hQ2 : ∀ e ∈ Q, CratePath b I e.1 e.2.1 e.2.2 ∧
      e.2.1 ∈ b.goals.map (fun g => g.1) ∧
      b.is_crate s e.2.1.1 e.2.1.2 = false) :
    b.heuristic s ≤ (Q.map (fun e => e.2.2)).sum := by
  simp only [Board.heuristic]
  have hsum1 := (hQ1.map (fun c : Nat × Nat =>
    ((((b.goals.filter (fun g => !b.is_crate s g.1.1 g.1.2)).map
        (fun g => g.2)).map
      (fun dists => dists.getD (c.2 * b.width + c.1) 0)).min?).getD 0)).sum_eq
  rw [hsum1, List.map_map]
  refine List.sum_le_sum ?_
  intro e he
  simp only [Function.comp_apply]
  obtain ⟨hpath, htg, hunsat⟩ := hQ2 e he
  obtain ⟨gg, hggm, hggeq⟩ := List.mem_map.mp htg
  have hgfil : gg ∈ b.goals.filter (fun g => !b.is_crate s g.1.1 g.1.2) := by
    refine List.mem_filter.mpr ⟨hggm, ?_⟩
    rw [hggeq]
    simp [hunsat]
  have hvmem : gg.2.getD (e.1.2 * b.width + e.1.1) 0 ∈
      ((b.goals.filter (fun g => !b.is_crate s g.1.1 g.1.2)).map
        (fun g => g.2)).map
      (fun dists => dists.getD (e.1.2 * b.width + e.1.1) 0) :=
    List.mem_map.mpr ⟨gg.2, List.mem_map.mpr ⟨gg, hgfil, rfl⟩, rfl⟩
  cases hmin : (((b.goals.filter (fun g => !b.is_crate s g.1.1 g.1.2)).map
      (fun g => g.2)).map
      (fun dists => dists.getD (e.1.2 * b.width + e.1.1) 0)).min? with
  | none =>
    rw [List.min?_eq_none_iff] at hmin
    rw [hmin] at hvmem
    cases hvmem
  | some mval =>
    rw [Option.getD_some]
    rw [List.min?_eq_some_iff'] at hmin
    have h1 : mval ≤ gg.2.getD (e.1.2 * b.width + e.1.1) 0 := hmin.2 _ hvmem
    have he1I : e.1 ∈ I := by
      refine hcI e.1 ?_
      have h2 : e.1 ∈ Q.map (fun e => e.1) := List.mem_map_of_mem _ he
      exact (List.mem_filter.mp (hQ1.mem_iff.mpr h2)).1
    have hgI' : e.2.1 ∈ I := by
      rw [← hggeq]
      exact hgI gg hggm
    have h2 : (calculate_goal_distance e.2.1 b.width b.walls b.dead_tiles).getD
        (tidx b e.1) 0 ≤ e.2.2 :=
      goal_distance_bound b I hI e.2.1 hgI' e.1 e.2.2 he1I hpath
    have h3 : gg.2.getD (e.1.2 * b.width + e.1.1) 0 ≤ e.2.2 := by
      rw [htab gg hggm, hggeq]
      exact h2
    omega

/-- C4: under the data-model preconditions established by the parser
(agent and crates strictly inside a wall-enclosed interior, goal list of
distinct interior goal tiles with their `goal_tiles` bits set and
carrying the tables of `calculate_goal_distance`, crate count equal to
goal count), the heuristic never exceeds the push count of any solution
reachable through `create_children` — admissibility; occupied goals are
handled by chaining each displaced crate's path onto its displacer's.
And on any goal state the heuristic returns 0. -/
theorem heuristic_admissible (b : Board) (I : List (Nat × Nat))
    (s : BoardState) (n : Nat)
    (hI : InteriorOk b I)
    (hplayer : s.player ∈ I)
    (hcr : ∀ i, i < s.crates.length → s.crates.getD i false = true →
      ∃ t ∈ I, tidx b t = i)
    (hclen : s.crates.length = b.walls.length)
    (hnum : (b.iter_crates s).length = b.goals.length)
    (hgnd : (b.goals.map (fun g => g.1)).Nodup)
    (hgI : ∀ g ∈ b.goals, g.1 ∈ I)
    (hgt : ∀ g ∈ b.goals, b.is_goal g.1.1 g.1.2 = true)
    (htab : ∀ g ∈ b.goals, g.2 =
      calculate_goal_distance g.1 b.width b.walls b.dead_tiles)
    (hreach : ReachesGoal b s n) :
    b.heuristic s ≤ n ∧
    ∀ (b' : Board) (s' : BoardState), b'.is_goal_state s' = true →
      b'.heuristic s' = 0 := by
  refine ⟨?_, fun b' s' h => heuristic_goal_state b' s' h⟩
  obtain ⟨P, hP1, hP2, hP3, hP4⟩ :=
    reaches_matchbound b I hI hgI hgnd n s hreach hcr hplayer hclen hnum
  have hnds : (P.map (fun e => e.1)).Nodup :=
    hP1.symm.nodup (iter_crates_nodup b s)
  have hsubs : ∀ e ∈ P, e.1 ∈ b.iter_crates s := by
    intro e he
    exact hP1.mem_iff.mp (List.mem_map_of_mem _ he)
  have hcov : ∀ c ∈ b.iter_crates s, b.is_goal c.1 c.2 = false →
      c ∈ P.map (fun e => e.1) := by
    intro c hc _
    exact hP1.mem_iff.mpr hc
  have hndt : (P.map (fun e => e.2.1)).Nodup := hP2.symm.nodup hgnd
  have hsubt : ∀ e ∈ P, e.2.1 ∈ b.goals.map (fun g => g.1) := by
    intro e he
    exact hP2.mem_iff.mp (List.mem_map_of_mem _ he)
  have hlink : ∀ e ∈ P, b.is_crate s e.2.1.1 e.2.1.2 = true →
      e.2.1 ∈ P.map (fun e => e.1) := by
    intro e he hsat
    obtain ⟨gg, hggm, hggeq⟩ := List.mem_map.mp (hsubt e he)
    have hw : e.2.1.1 < b.width := by
      have hb := hI.bounds gg.1 (hgI gg hggm)
      rw [hggeq] at hb
      omega
    have hbit : s.crates.getD (tidx b e.2.1) false = true := hsat
    exact hP1.mem_iff.mpr (iter_crates_mem_of_bit b s e.2.1 hw hbit)
  obtain ⟨Q, hQ1, hQ2, hQ3⟩ := chain_merge b I s hgt
    (P.filter (fun e => b.is_goal e.1.1 e.1.2)).length P rfl
    hnds hsubs hcov hndt hsubt hP3 hlink
  have hcI : ∀ c ∈ b.iter_crates s, c ∈ I := by
    intro c hc
    exact (crates_in_interior b s I hI hcr c hc).1
  have hle := heuristic_le_chain_sum b I hI hgI htab s hcI Q hQ1 hQ2
  omega

/-- Witness for `heuristic_admissible` at the trivial level: the single
push right is a 1-push solution and the heuristic at the start is at
most 1. -/
theorem heuristic_admissible_witness :
    (InteriorOk parsed_trivial.1 [(1, 1), (2, 1), (3, 1)] ∧
      ReachesGoal parsed_trivial.1 parsed_trivial.2 1) ∧
    parsed_trivial.1.heuristic parsed_trivial.2 ≤ 1 := by
  have hI : InteriorOk parsed_trivial.1 [(1, 1), (2, 1), (3, 1)] :=
    interiorOk_of_closed4 _ _ (by decide) (by decide) (by decide) (by decide)
  have hreach : ReachesGoal parsed_trivial.1 parsed_trivial.2 1 :=
    @ReachesGoal.step parsed_trivial.1 parsed_trivial.2
      (push_result parsed_trivial.1 parsed_trivial.2 2 1 3 1) [Action.Right] 0
      (by decide)
      (@ReachesGoal.done parsed_trivial.1
        (push_result parsed_trivial.1 parsed_trivial.2 2 1 3 1) (by decide))
  refine ⟨⟨hI, hreach⟩, ?_⟩
  exact (heuristic_admissible parsed_trivial.1 [(1, 1), (2, 1), (3, 1)]
    parsed_trivial.2 1 hI (by decide) (by decide) (by decide) (by decide)
    (by decide) (by decide) (by decide) (by decide) hreach).1

lemma pop_min_none (heap : List Node) :
    pop_min_node heap = none ↔ heap = [] := by
  cases heap with
  | nil => simp [pop_min_node]
  | cons n ns =>
    simp only [pop_min_node]
    cases h : pop_min_node ns with
    | none => simp
    | some p =>
      obtain ⟨m, rest⟩ := p
      by_cases hle : n.h + n.g ≤ m.h + m.g <;> simp [hle]

lemma pop_min_perm : ∀ (heap : List Node) (n : Node) (rest : List Node),
    pop_min_node heap = some (n, rest) → heap.Perm (n :: rest) := by
  intro heap
  induction heap with
  | nil => intro n rest h; cases h
  | cons m ms ih =>
    intro n rest h
    cases hm : pop_min_node ms with
    | none =>
      simp only [pop_min_node, hm] at h
      simp only [Option.some.injEq, Prod.mk.injEq] at h
      obtain ⟨rfl, rfl⟩ := h
      have hms : ms = [] := (pop_min_none ms).mp hm
      subst hms
      exact List.Perm.refl _
    | some p =>
      obtain ⟨k, krest⟩ := p
      simp only [pop_min_node, hm] at h
      by_cases hle : m.h + m.g ≤ k.h + k.g
      · rw [if_pos hle] at h
        simp only [Option.some.injEq, Prod.mk.injEq] at h
        obtain ⟨rfl, rfl⟩ := h
        exact List.Perm.refl _
      · rw [if_neg hle] at h
        simp only [Option.some.injEq, Prod.mk.injEq] at h
        obtain ⟨rfl, rfl⟩ := h
        have h1 := ih k krest hm
        exact (h1.cons m).trans (List.Perm.swap k m krest)

lemma expand_nodes_mono (b : Board) (node : Node) :
    ∀ (cs : List (BoardState × List Action)) (acc : List BoardState × List Node)
      (nd : Node), nd ∈ acc.2 → nd ∈ (cs.foldl (expand_step b node) acc).2 := by
  intro cs
  induction cs with
  | nil => exact fun _ _ h => h
  | cons c cs ih =>
    intro acc nd h
    simp only [List.foldl_cons, expand_step_eq]
    refine ih _ nd ?_
    by_cases hc : c.1 ∈ acc.1 <;> simp [hc, h]

/-- Every state in the seen set after an expansion is an old seen state
or the state of one of the freshly pushed nodes. -/
lemma expand_new_state (b : Board) (node : Node) :
    ∀ (cs : List (BoardState × List Action)) (acc : List BoardState × List Node),
      ∀ x ∈ (cs.foldl (expand_step b node) acc).1,
        x ∈ acc.1 ∨ ∃ nd ∈ (cs.foldl (expand_step b node) acc).2,
          nd.state = x := by
  intro cs
  induction cs with
  | nil => intro acc x hx; exact Or.inl hx
  | cons c cs ih =>
    intro acc x hx
    simp only [List.foldl_cons, expand_step_eq] at hx ⊢
    by_cases hc : c.1 ∈ acc.1
    · simp only [hc, if_true] at hx ⊢
      exact ih acc x hx
    · simp only [hc, if_false] at hx ⊢
      rcases ih _ x hx with h | h
      · rcases List.mem_append.mp h with h | h
        · exact Or.inl h
        · obtain rfl := List.mem_singleton.mp h
          right
          refine ⟨⟨c.1, c.2 :: node.path, b.heuristic c.1, node.g + 1⟩, ?_, rfl⟩
          exact expand_nodes_mono b node cs _ _
            (List.mem_append.mpr (Or.inr (List.mem_singleton.mpr rfl)))
      · exact Or.inr h

/-- If the main loop empties its frontier, the final seen set contains
the initial one, holds no goal state, and is closed under
`create_children`. -/
lemma find_path_exhaust (b : Board) :
    ∀ (fuel : Nat) (seen : List BoardState) (heap : List Node),
      (∀ nd ∈ heap, nd.state ∈ seen) →
      (∀ x ∈ seen, (∃ nd ∈ heap, nd.state = x) ∨
        (b.is_goal_state x = false ∧
          ∀ ca ∈ b.create_children x, ca.1 ∈ seen)) →
      find_path_loop b fuel seen heap = some none →
      ∃ S : List BoardState, seen ⊆ S ∧
        (∀ x ∈ S, b.is_goal_state x = false) ∧
        (∀ x ∈ S, ∀ ca ∈ b.create_children x, ca.1 ∈ S) := by
  intro fuel
  induction fuel with
  | zero =>
    intro seen heap _ _ h
    rw [show find_path_loop b 0 seen heap = none from rfl] at h
    cases h
  | succ fuel ih =>
    intro seen heap hh hinv hres
    cases hpop : pop_min_node heap with
    | none =>
      refine ⟨seen, fun _ h => h, ?_, ?_⟩
      · intro x hx
        rcases hinv x hx with ⟨nd, hnd, _⟩ | ⟨h1, _⟩
        · rw [(pop_min_none heap).mp hpop] at hnd
          cases hnd
        · exact h1
      · intro x hx ca hca
        rcases hinv x hx with ⟨nd, hnd, _⟩ | ⟨_, h2⟩
        · rw [(pop_min_none heap).mp hpop] at hnd
          cases hnd
        · exact h2 ca hca
    | some pr =>
      obtain ⟨node, rest⟩ := pr
      simp only [find_path_loop, hpop] at hres
      by_cases hgoal : b.is_goal_state node.state = true
      · rw [if_pos hgoal] at hres
        cases hres
      · rw [if_neg hgoal] at hres
        have hperm := pop_min_perm heap node rest hpop
        have hexp := expand_invariant b node seen
          (b.create_children node.state) (seen, []) (fun _ h => h) (by simp)
        have hinv1 : ∀ nd ∈ rest ++ (expand b seen node).2,
            nd.state ∈ (expand b seen node).1 := by
          intro nd hnd
          rcases List.mem_append.mp hnd with hnd | hnd
          · have hmem : nd ∈ heap :=
              hperm.mem_iff.mpr (List.mem_cons_of_mem _ hnd)
            exact expand_seen_mono b node _ (seen, []) nd.state (hh nd hmem)
          · exact (hexp.2 nd hnd).1
        have hinv2 : ∀ x ∈ (expand b seen node).1,
            (∃ nd ∈ rest ++ (expand b seen node).2, nd.state = x) ∨
            (b.is_goal_state x = false ∧
              ∀ ca ∈ b.create_children x, ca.1 ∈ (expand b seen node).1) := by
          intro x hx
          rcases expand_new_state b node (b.create_children node.state)
              (seen, []) x hx with hx0 | ⟨nd, hnd, hst⟩
          · rcases hinv x hx0 with ⟨nd, hndh, hst⟩ | ⟨h1, h2⟩
            · rcases List.mem_cons.mp (hperm.mem_iff.mp hndh) with rfl | hndr
              · right
                subst hst
                constructor
                · cases hg : b.is_goal_state nd.state
                  · rfl
                  · exact absurd hg hgoal
                · intro ca hca
                  exact expand_child_in_seen b nd _ (seen, []) ca hca
              · left
                exact ⟨nd, List.mem_append.mpr (Or.inl hndr), hst⟩
            · right
              refine ⟨h1, ?_⟩
              intro ca hca
              exact expand_seen_mono b node _ (seen, []) ca.1 (h2 ca hca)
          · left
            exact ⟨nd, List.mem_append.mpr (Or.inr hnd), hst⟩
        obtain ⟨S, hs1, hs2, hs3⟩ := ih (expand b seen node).1
          (rest ++ (expand b seen node).2) hinv1 hinv2 hres
        refine ⟨S, ?_, hs2, hs3⟩
        intro x hx
        exact hs1 (expand_seen_mono b node _ (seen, []) x hx)

lemma walk_reach_empty (b : Board) (s : BoardState) (t : Nat × Nat)
    (h : WalkReachable b s t) : b.is_empty s t.1 t.2 = true := by
  cases h with
  | base h => exact h
  | step _ _ h => exact h

/-- A crate off every goal forces an unfilled goal: with as many crates
as goals and all-distinct goal indices, the goal bits cannot all be
covered. -/
lemma offgoal_crate_not_goal_state (b : Board) (s : BoardState)
    (I : List (Nat × Nat)) (hI : InteriorOk b I)
    (hcr : ∀ i, i < s.crates.length → s.crates.getD i false = true →
      ∃ t ∈ I, tidx b t = i)
    (hnum : (b.iter_crates s).length = b.goals.length)
    (hgt : ∀ g ∈ b.goals, b.goal_tiles.getD (tidx b g.1) false = true)
    (hgnd : (b.goals.map (fun g => tidx b g.1)).Nodup)
    (c : Nat × Nat) (hc : c ∈ b.iter_crates s)
    (hng : b.is_goal c.1 c.2 = false) :
    b.is_goal_state s = false := by
  cases hgs : b.is_goal_state s
  · rfl
  exfalso
  rw [Board.is_goal_state, List.all_eq_true] at hgs
  have hw0 : 0 < b.width := by
    obtain ⟨hcI, _⟩ := crates_in_interior b s I hI hcr c hc
    have := hI.bounds c hcI
    omega
  have hidxmem : ∀ j, s.crates.getD j false = true →
      j ∈ (b.iter_crates s).map (tidx b) := by
    intro j hj
    have hjw : j % b.width < b.width := Nat.mod_lt _ hw0
    have hmem : ((j % b.width : Nat), (j / b.width : Nat)) ∈ b.iter_crates s := by
      refine iter_crates_mem_of_bit b s _ hjw ?_
      rw [decode_tidx]
      exact hj
    have hdec : tidx b ((j % b.width : Nat), (j / b.width : Nat)) = j :=
      decode_tidx b j
    rw [← hdec]
    exact List.mem_map_of_mem _ hmem
  have hcbit : s.crates.getD (tidx b c) false = true := iter_crates_bit b s c hc
  have hcng : ∀ g ∈ b.goals, tidx b g.1 ≠ tidx b c := by
    intro g hg he
    have hbit := hgt g hg
    rw [he] at hbit
    have hng' : b.goal_tiles.getD (tidx b c) false = false := hng
    rw [hng'] at hbit
    cases hbit
  have hLnd : (tidx b c :: b.goals.map (fun g => tidx b g.1)).Nodup := by
    rw [List.nodup_cons]
    refine ⟨?_, hgnd⟩
    intro hmem
    rw [List.mem_map] at hmem
    obtain ⟨g, hg, he⟩ := hmem
    exact hcng g hg he
  have hLsub : (tidx b c :: b.goals.map (fun g => tidx b g.1)).toFinset ⊆
      ((b.iter_crates s).map (tidx b)).toFinset := by
    intro i hi
    rw [List.mem_toFinset] at hi ⊢
    rcases List.mem_cons.mp hi with rfl | hi
    · exact hidxmem _ hcbit
    · rw [List.mem_map] at hi
      obtain ⟨g, hg, rfl⟩ := hi
      have hbit : s.crates.getD (tidx b g.1) false = true := hgs g hg
      exact hidxmem _ hbit
  have h1 := List.toFinset_card_of_nodup hLnd
  have h2 := Finset.card_le_card hLsub
  have h3 := List.toFinset_card_le ((b.iter_crates s).map (tidx b))
  have h4 : (tidx b c :: b.goals.map (fun g => tidx b g.1)).length =
      b.goals.length + 1 := by simp
  have h5 : ((b.iter_crates s).map (tidx b)).length = b.goals.length := by
    rw [List.length_map, hnum]
  omega

/-- Data of an unrestricted push on an interior board: interior crate
and destination tiles, the agent's empty pushing spot, and the alignment
of the three tiles. -/
lemma ustep_data (b : Board) (I : List (Nat × Nat)) (hI : InteriorOk b I)
    (s z : BoardState)
    (hcr : ∀ i, i < s.crates.length → s.crates.getD i false = true →
      ∃ t ∈ I, tidx b t = i)
    (hplayer : s.player ∈ I)
    (h : UStep b s z) :
    ∃ cx cy dx dy, ∃ p : Nat × Nat,
      (cx, cy) ∈ I ∧ (dx, dy) ∈ I ∧
      b.is_crate s cx cy = true ∧ b.is_empty s dx dy = true ∧
      b.is_empty s p.1 p.2 = true ∧
      z = push_result b s cx cy dx dy ∧
      ((p = (cx, cy + 1) ∧ (dx, dy) = (cx, cy - 1)) ∨
       (p = (cx, cy - 1) ∧ (dx, dy) = (cx, cy + 1)) ∨
       (p = (cx + 1, cy) ∧ (dx, dy) = (cx - 1, cy)) ∨
       (p = (cx - 1, cy) ∧ (dx, dy) = (cx + 1, cy))) := by
  obtain ⟨p, cx, cy, dx, dy, hwalk, hfrom, hcrate, hemp, rfl⟩ := h
  have hpI : p ∈ I := walk_reach_in_interior b s I hI hplayer p hwalk
  obtain ⟨hp1, hp2, hp3, hp4⟩ := hI.bounds p hpI
  have hpemp := walk_reach_empty b s p hwalk
  obtain ⟨hcm, hdm, _⟩ :=
    legal_push_facts b s I hI hcr p cx cy dx dy hpI hfrom hcrate hemp
  refine ⟨cx, cy, dx, dy, p, hcm, hdm, hcrate, hemp, hpemp, rfl, ?_⟩
  rcases hfrom with ⟨h1, h2⟩ | ⟨h1, h2⟩ | ⟨h1, h2⟩ | ⟨h1, h2⟩ <;>
    (rw [Prod.mk.injEq] at h1 h2
     obtain ⟨hc1, hc2⟩ := h1
     obtain ⟨hd1, hd2⟩ := h2)
  · exact Or.inl ⟨Prod.ext (by omega) (by simp only; omega),
      Prod.ext (by omega) (by simp only; omega)⟩
  · exact Or.inr (Or.inl ⟨Prod.ext (by omega) (by simp only; omega),
      Prod.ext (by omega) (by simp only; omega)⟩)
  · exact Or.inr (Or.inr (Or.inl ⟨Prod.ext (by simp only; omega) (by omega),
      Prod.ext (by simp only; omega) (by omega)⟩))
  · exact Or.inr (Or.inr (Or.inr ⟨Prod.ext (by simp only; omega) (by omega),
      Prod.ext (by simp only; omega) (by omega)⟩))

lemma push_bit_unchanged (b : Board) (s : BoardState) (cx cy dx dy : Nat)
    (u : Nat × Nat)
    (hnc : tidx b u ≠ cy * b.width + cx) (hnd : tidx b u ≠ dy * b.width + dx) :
    b.is_crate (push_result b s cx cy dx dy) u.1 u.2 = b.is_crate s u.1 u.2 := by
  show ((s.crates.set (dy * b.width + dx) true).set
    (cy * b.width + cx) false).getD (tidx b u) false =
      s.crates.getD (tidx b u) false
  rw [getD_set_ne _ _ _ (fun hh => hnc hh.symm),
    getD_set_ne _ _ _ (fun hh => hnd hh.symm)]

lemma push_bit_dest (b : Board) (s : BoardState) (cx cy dx dy : Nat)
    (hne : cy * b.width + cx ≠ dy * b.width + dx)
    (hdlen : dy * b.width + dx < s.crates.length) :
    b.is_crate (push_result b s cx cy dx dy) dx dy = true := by
  show ((s.crates.set (dy * b.width + dx) true).set
    (cy * b.width + cx) false).getD (dy * b.width + dx) false = true
  rw [getD_set_ne _ _ _ hne, getD_set_self _ _ hdlen]

/-- Every unrestricted push preserves the data-model invariant. -/
lemma ustep_preserves_sinv (b : Board) (I : List (Nat × Nat))
    (hI : InteriorOk b I) (s z : BoardState)
    (h : UStep b s z) (hs : SInv b I s) : SInv b I z := by
  obtain ⟨hcr, hplayer, hclen, hnum⟩ := hs
  obtain ⟨p, cx, cy, dx, dy, hwalk, hfrom, hcrate, hemp, rfl⟩ := h
  have hpI : p ∈ I := walk_reach_in_interior b s I hI hplayer p hwalk
  obtain ⟨hcm, hdm, _⟩ :=
    legal_push_facts b s I hI hcr p cx cy dx dy hpI hfrom hcrate hemp
  obtain ⟨hd1, hd2, hd3, hd4⟩ := hI.bounds _ hdm
  obtain ⟨hc1, hc2, hc3, hc4⟩ := hI.bounds _ hcm
  have hc2' : cx + 1 < b.width := hc2
  have hd2' : dx + 1 < b.width := hd2
  have hw0 : 0 < b.width := by omega
  simp only [Board.is_empty, Bool.and_eq_true, Bool.not_eq_true'] at hemp
  obtain ⟨hdw, hdc⟩ := hemp
  have hsrc : s.crates.getD (cy * b.width + cx) false = true := hcrate
  have hdst : s.crates.getD (dy * b.width + dx) false = false := hdc
  have hdlen : dy * b.width + dx < s.crates.length := by
    have h1 := tidx_lt_walls_length b I hI (dx, dy) hdm
    have h2 : dy * b.width + dx < b.walls.length := h1
    omega
  obtain ⟨rest, hperm1, hperm2⟩ :=
    iter_crates_push_split b s cx cy dx dy hw0 (by omega) (by omega)
      hsrc hdst hdlen
  have hchild : (push_result b s cx cy dx dy).crates =
      (s.crates.set (dy * b.width + dx) true).set (cy * b.width + cx) false :=
    rfl
  refine ⟨?_, hcm, ?_, ?_⟩
  · intro i hilen hbit
    rw [hchild] at hbit
    by_cases hic : i = cy * b.width + cx
    · subst hic
      rw [getD_set_self _ _
        (by rw [List.length_set]; exact getD_true_lt_length _ _ hsrc) _ _] at hbit
      cases hbit
    · rw [getD_set_ne _ _ _ (fun hh => hic hh.symm) _ _] at hbit
      by_cases hid : i = dy * b.width + dx
      · subst hid
        exact ⟨(dx, dy), hdm, rfl⟩
      · rw [getD_set_ne _ _ _ (fun hh => hid hh.symm) _ _] at hbit
        refine hcr i ?_ hbit
        rw [hchild, List.length_set, List.length_set] at hilen
        exact hilen
  · rw [hchild, List.length_set, List.length_set]
    exact hclen
  · have e1 := hperm1.length_eq
    have e2 := hperm2.length_eq
    simp only [List.length_cons] at e1 e2
    omega

/-- A state the frozen-pair filter rejects holds a stuck pair. -/
lemma unsolvable_stuck (b : Board) (s : BoardState) (I : List (Nat × Nat))
    (hI : InteriorOk b I)
    (hcr : ∀ i, i < s.crates.length → s.crates.getD i false = true →
      ∃ t ∈ I, tidx b t = i)
    (hfz : b.is_unsolvable s = true) : StuckState b I s := by
  rw [Board.is_unsolvable, List.any_eq_true] at hfz
  obtain ⟨c, hc, hfr⟩ := hfz
  obtain ⟨hcI, hcbit⟩ := crates_in_interior b s I hI hcr c hc
  rw [Board.frozen_at, Bool.or_eq_true] at hfr
  rcases hfr with hfr | hfr
  · right; left
    refine ⟨c, hcI, ?_⟩
    simp only [Bool.and_eq_true, Bool.or_eq_true, Bool.not_eq_true'] at hfr
    obtain ⟨⟨⟨hcr2, hw1⟩, hw2⟩, hng⟩ := hfr
    refine ⟨hcbit, hcr2, hw1, hw2, ?_⟩
    rintro ⟨hg1, hg2⟩
    rw [hg1, hg2] at hng
    simp at hng
  · right; right
    refine ⟨c, hcI, ?_⟩
    simp only [Bool.and_eq_true, Bool.or_eq_true, Bool.not_eq_true'] at hfr
    obtain ⟨⟨⟨hcr2, hw1⟩, hw2⟩, hng⟩ := hfr
    refine ⟨hcbit, hcr2, hw1, hw2, ?_⟩
    rintro ⟨hg1, hg2⟩
    rw [hg1, hg2] at hng
    simp at hng

/-- A stuck crate (dead tile or frozen pair) stays stuck across any
unrestricted push: every push of a stuck crate is blocked by a wall, a
crate or lands on a dead tile, and pushes of other crates do not touch
it. -/
lemma stuck_persist (b : Board) (I : List (Nat × Nat)) (hI : InteriorOk b I)
    (hDead : DeadOk b) (s z : BoardState)
    (hs : SInv b I s) (h : UStep b s z) :
    StuckState b I s → StuckState b I z := by
  intro hstuck
  obtain ⟨hcr, hplayer, hclen, hnum⟩ := hs
  obtain ⟨cx, cy, dx, dy, p, hcm, hdm, hcrate, hemp, hpemp, rfl, hdir⟩ :=
    ustep_data b I hI s z hcr hplayer h
  obtain ⟨hc1, hc2, hc3, hc4⟩ := hI.bounds _ hcm
  have hc1' : 0 < cx := hc1
  have hc2' : cx + 1 < b.width := hc2
  have hw0 : 0 < b.width := by omega
  simp only [Board.is_empty, Bool.and_eq_true, Bool.not_eq_true'] at hemp hpemp
  obtain ⟨hdw, hdc⟩ := hemp
  obtain ⟨hpw, hpc⟩ := hpemp
  have hsrc : s.crates.getD (cy * b.width + cx) false = true := hcrate
  have hdst : s.crates.getD (dy * b.width + dx) false = false := hdc
  have hneidx : cy * b.width + cx ≠ dy * b.width + dx := by
    intro hEq
    rw [hEq, hdst] at hsrc
    cases hsrc
  have hdlen : dy * b.width + dx < s.crates.length := by
    have h1 := tidx_lt_walls_length b I hI (dx, dy) hdm
    have h2 : dy * b.width + dx < b.walls.length := h1
    omega
  have hkeep : ∀ u : Nat × Nat, u ∈ I → u ≠ (cx, cy) → u ≠ (dx, dy) →
      b.is_crate (push_result b s cx cy dx dy) u.1 u.2 =
        b.is_crate s u.1 u.2 := by
    intro u huI hne1 hne2
    have huw : u.1 < b.width := by have := hI.bounds u huI; omega
    have hdxw : dx < b.width := by have := hI.bounds _ hdm; omega
    refine push_bit_unchanged b s cx cy dx dy u ?_ ?_
    · intro hEq
      exact hne1 (tidx_inj b u (cx, cy) huw (by omega) hEq)
    · intro hEq
      exact hne2 (tidx_inj b u (dx, dy) huw hdxw hEq)
  have hnotdest : ∀ u : Nat × Nat, b.is_crate s u.1 u.2 = true →
      u ≠ (dx, dy) := by
    intro u hbit hEq
    rw [hEq] at hbit
    have hb2 : s.crates.getD (dy * b.width + dx) false = true := hbit
    rw [hdst] at hb2
    cases hb2
  rcases hstuck with ⟨t, htI, htbit, htdead⟩ | ⟨t, htI, hp⟩ | ⟨t, htI, hp⟩
  · -- a crate on a dead tile
    by_cases hsrceq : t = (cx, cy)
    · subst hsrceq
      have htdead' : b.dead_tiles.getD (cy * b.width + cx) false = true := htdead
      have hlen : cy * b.width + cx < b.dead_tiles.length :=
        getD_true_lt_length _ _ htdead'
      have hD := hDead (cy * b.width + cx) hlen htdead'
      obtain ⟨hm, hdv⟩ := tidx_decode b (cx, cy) (by omega)
      have hm' : (cy * b.width + cx) % b.width = cx := hm
      have hdv' : (cy * b.width + cx) / b.width = cy := hdv
      rw [hm', hdv'] at hD
      have hddead : b.is_dead_tile dx dy = true := by
        rcases hdir with ⟨hpe, hde⟩ | ⟨hpe, hde⟩ | ⟨hpe, hde⟩ | ⟨hpe, hde⟩
        · obtain ⟨hdx, hdy⟩ : dx = cx ∧ dy = cy - 1 := by
            rw [Prod.mk.injEq] at hde; exact hde
          rcases hD.2.1 with hw | hw | hdd
          · rw [hdx, hdy] at hdw
            rw [hdw] at hw; cases hw
          · have hpw' : b.is_wall cx (cy + 1) = false := by
              rw [hpe] at hpw; exact hpw
            rw [hpw'] at hw; cases hw
          · rw [hdx, hdy]; exact hdd
        · obtain ⟨hdx, hdy⟩ : dx = cx ∧ dy = cy + 1 := by
            rw [Prod.mk.injEq] at hde; exact hde
          rcases hD.2.2.1 with hw | hw | hdd
          · rw [hdx, hdy] at hdw
            rw [hdw] at hw; cases hw
          · have hpw' : b.is_wall cx (cy - 1) = false := by
              rw [hpe] at hpw; exact hpw
            rw [hpw'] at hw; cases hw
          · rw [hdx, hdy]; exact hdd
        · obtain ⟨hdx, hdy⟩ : dx = cx - 1 ∧ dy = cy := by
            rw [Prod.mk.injEq] at hde; exact hde
          rcases hD.2.2.2.1 with hw | hw | hdd
          · rw [hdx, hdy] at hdw
            rw [hdw] at hw; cases hw
          · have hpw' : b.is_wall (cx + 1) cy = false := by
              rw [hpe] at hpw; exact hpw
            rw [hpw'] at hw; cases hw
          · rw [hdx, hdy]; exact hdd
        · obtain ⟨hdx, hdy⟩ : dx = cx + 1 ∧ dy = cy := by
            rw [Prod.mk.injEq] at hde; exact hde
          rcases hD.2.2.2.2 with hw | hw | hdd
          · rw [hdx, hdy] at hdw
            rw [hdw] at hw; cases hw
          · have hpw' : b.is_wall (cx - 1) cy = false := by
              rw [hpe] at hpw; exact hpw
            rw [hpw'] at hw; cases hw
          · rw [hdx, hdy]; exact hdd
      exact Or.inl ⟨(dx, dy), hdm,
        push_bit_dest b s cx cy dx dy hneidx hdlen, hddead⟩
    · refine Or.inl ⟨t, htI, ?_, htdead⟩
      rw [hkeep t htI hsrceq (hnotdest t htbit)]
      exact htbit
  · -- a horizontal frozen pair at t, (t.1+1, t.2)
    obtain ⟨hp1, hp2, hp3, hp4, hp5⟩ := hp
    have ht2w : t.1 + 1 < b.width := by have := hI.bounds t htI; omega
    have ht2I : (t.1 + 1, t.2) ∈ I := by
      have hbit : s.crates.getD (t.2 * b.width + (t.1 + 1)) false = true := hp2
      obtain ⟨u, huI, hu⟩ := hcr _ (getD_true_lt_length _ _ hbit) hbit
      have huw : u.1 < b.width := by have := hI.bounds u huI; omega
      have heq : u = (t.1 + 1, t.2) := tidx_inj b u (t.1 + 1, t.2) huw ht2w hu
      rw [← heq]; exact huI
    have hsrc_ne_t : (cx, cy) ≠ t := by
      intro hEq
      obtain ⟨hex, hey⟩ : cx = t.1 ∧ cy = t.2 := by
        rw [Prod.ext_iff] at hEq; exact hEq
      rcases hdir with ⟨hpe, hde⟩ | ⟨hpe, hde⟩ | ⟨hpe, hde⟩ | ⟨hpe, hde⟩
      · rcases hp3 with hw | hw
        · obtain ⟨hdx, hdy⟩ : dx = cx ∧ dy = cy - 1 := by
            rw [Prod.mk.injEq] at hde; exact hde
          rw [hdx, hdy, hex, hey] at hdw
          rw [hdw] at hw; cases hw
        · have hpw' : b.is_wall cx (cy + 1) = false := by
            rw [hpe] at hpw; exact hpw
          rw [hex, hey] at hpw'
          rw [hpw'] at hw; cases hw
      · rcases hp3 with hw | hw
        · have hpw' : b.is_wall cx (cy - 1) = false := by
            rw [hpe] at hpw; exact hpw
          rw [hex, hey] at hpw'
          rw [hpw'] at hw; cases hw
        · obtain ⟨hdx, hdy⟩ : dx = cx ∧ dy = cy + 1 := by
            rw [Prod.mk.injEq] at hde; exact hde
          rw [hdx, hdy, hex, hey] at hdw
          rw [hdw] at hw; cases hw
      · have hpc' : b.is_crate s (cx + 1) cy = false := by
          rw [hpe] at hpc; exact hpc
        rw [hex, hey] at hpc'
        rw [hp2] at hpc'; cases hpc'
      · obtain ⟨hdx, hdy⟩ : dx = cx + 1 ∧ dy = cy := by
          rw [Prod.mk.injEq] at hde; exact hde
        rw [hdx, hdy, hex, hey] at hdc
        rw [hp2] at hdc; cases hdc
    have hsrc_ne_t2 : (cx, cy) ≠ (t.1 + 1, t.2) := by
      intro hEq
      obtain ⟨hex, hey⟩ : cx = t.1 + 1 ∧ cy = t.2 := by
        rw [Prod.mk.injEq] at hEq; exact hEq
      rcases hdir with ⟨hpe, hde⟩ | ⟨hpe, hde⟩ | ⟨hpe, hde⟩ | ⟨hpe, hde⟩
      · rcases hp4 with hw | hw
        · obtain ⟨hdx, hdy⟩ : dx = cx ∧ dy = cy - 1 := by
            rw [Prod.mk.injEq] at hde; exact hde
          rw [hdx, hdy, hex, hey] at hdw
          rw [hdw] at hw; cases hw
        · have hpw' : b.is_wall cx (cy + 1) = false := by
            rw [hpe] at hpw; exact hpw
          rw [hex, hey] at hpw'
          rw [hpw'] at hw; cases hw
      · rcases hp4 with hw | hw
        · have hpw' : b.is_wall cx (cy - 1) = false := by
            rw [hpe] at hpw; exact hpw
          rw [hex, hey] at hpw'
          rw [hpw'] at hw; cases hw
        · obtain ⟨hdx, hdy⟩ : dx = cx ∧ dy = cy + 1 := by
            rw [Prod.mk.injEq] at hde; exact hde
          rw [hdx, hdy, hex, hey] at hdw
          rw [hdw] at hw; cases hw
      · obtain ⟨hdx, hdy⟩ : dx = cx - 1 ∧ dy = cy := by
          rw [Prod.mk.injEq] at hde; exact hde
        have hdx' : dx = t.1 := by omega
        have hdy' : dy = t.2 := by omega
        rw [hdx', hdy'] at hdc
        rw [hp1] at hdc; cases hdc
      · have hpc' : b.is_crate s (cx - 1) cy = false := by
          rw [hpe] at hpc; exact hpc
        have hex' : cx - 1 = t.1 := by omega
        rw [hex', hey] at hpc'
        rw [hp1] at hpc'; cases hpc'
    refine Or.inr (Or.inl ⟨t, htI, ?_, ?_, hp3, hp4, hp5⟩)
    · rw [hkeep t htI (fun hEq => hsrc_ne_t hEq.symm) (hnotdest t hp1)]
      exact hp1
    · have hk := hkeep (t.1 + 1, t.2) ht2I
        (fun hEq => hsrc_ne_t2 hEq.symm) (hnotdest (t.1 + 1, t.2) hp2)
      have hk2 : b.is_crate (push_result b s cx cy dx dy) (t.1 + 1) t.2 =
          b.is_crate s (t.1 + 1) t.2 := hk
      rw [hk2]
      exact hp2
  · -- a vertical frozen pair at t, (t.1, t.2+1)
    obtain ⟨hp1, hp2, hp3, hp4, hp5⟩ := hp
    have ht1w : t.1 < b.width := by have := hI.bounds t htI; omega
    have ht2I : (t.1, t.2 + 1) ∈ I := by
      have hbit : s.crates.getD ((t.2 + 1) * b.width + t.1) false = true := hp2
      obtain ⟨u, huI, hu⟩ := hcr _ (getD_true_lt_length _ _ hbit) hbit
      have huw : u.1 < b.width := by have := hI.bounds u huI; omega
      have heq : u = (t.1, t.2 + 1) := tidx_inj b u (t.1, t.2 + 1) huw ht1w hu
      rw [← heq]; exact huI
    have hsrc_ne_t : (cx, cy) ≠ t := by
      intro hEq
      obtain ⟨hex, hey⟩ : cx = t.1 ∧ cy = t.2 := by
        rw [Prod.ext_iff] at hEq; exact hEq
      rcases hdir with ⟨hpe, hde⟩ | ⟨hpe, hde⟩ | ⟨hpe, hde⟩ | ⟨hpe, hde⟩
      · have hpc' : b.is_crate s cx (cy + 1) = false := by
          rw [hpe] at hpc; exact hpc
        rw [hex, hey] at hpc'
        rw [hp2] at hpc'; cases hpc'
      · obtain ⟨hdx, hdy⟩ : dx = cx ∧ dy = cy + 1 := by
          rw [Prod.mk.injEq] at hde; exact hde
        rw [hdx, hdy, hex, hey] at hdc
        rw [hp2] at hdc; cases hdc
      · rcases hp3 with hw | hw
        · obtain ⟨hdx, hdy⟩ : dx = cx - 1 ∧ dy = cy := by
            rw [Prod.mk.injEq] at hde; exact hde
          rw [hdx, hdy, hex, hey] at hdw
          rw [hdw] at hw; cases hw
        · have hpw' : b.is_wall (cx + 1) cy = false := by
            rw [hpe] at hpw; exact hpw
          rw [hex, hey] at hpw'
          rw [hpw'] at hw; cases hw
      · rcases hp3 with hw | hw
        · have hpw' : b.is_wall (cx - 1) cy = false := by
            rw [hpe] at hpw; exact hpw
          rw [hex, hey] at hpw'
          rw [hpw'] at hw; cases hw
        · obtain ⟨hdx, hdy⟩ : dx = cx + 1 ∧ dy = cy := by
            rw [Prod.mk.injEq] at hde; exact hde
          rw [hdx, hdy, hex, hey] at hdw
          rw [hdw] at hw; cases hw
    have hsrc_ne_t2 : (cx, cy) ≠ (t.1, t.2 + 1) := by
      intro hEq
      obtain ⟨hex, hey⟩ : cx = t.1 ∧ cy = t.2 + 1 := by
        rw [Prod.mk.injEq] at hEq; exact hEq
      rcases hdir with ⟨hpe, hde⟩ | ⟨hpe, hde⟩ | ⟨hpe, hde⟩ | ⟨hpe, hde⟩
      · obtain ⟨hdx, hdy⟩ : dx = cx ∧ dy = cy - 1 := by
          rw [Prod.mk.injEq] at hde; exact hde
        have hdy' : dy = t.2 := by omega
        rw [hdx, hdy', hex] at hdc
        rw [hp1] at hdc; cases hdc
      · have hpc' : b.is_crate s cx (cy - 1) = false := by
          rw [hpe] at hpc; exact hpc
        have hey' : cy - 1 = t.2 := by omega
        rw [hex, hey'] at hpc'
        rw [hp1] at hpc'; cases hpc'
      · rcases hp4 with hw | hw
        · obtain ⟨hdx, hdy⟩ : dx = cx - 1 ∧ dy = cy := by
            rw [Prod.mk.injEq] at hde; exact hde
          rw [hdx, hdy, hex, hey] at hdw
          rw [hdw] at hw; cases hw
        · have hpw' : b.is_wall (cx + 1) cy = false := by
            rw [hpe] at hpw; exact hpw
          rw [hex, hey] at hpw'
          rw [hpw'] at hw; cases hw
      · rcases hp4 with hw | hw
        · have hpw' : b.is_wall (cx - 1) cy = false := by
            rw [hpe] at hpw; exact hpw
          rw [hex, hey] at hpw'
          rw [hpw'] at hw; cases hw
        · obtain ⟨hdx, hdy⟩ : dx = cx + 1 ∧ dy = cy := by
            rw [Prod.mk.injEq] at hde; exact hde
          rw [hdx, hdy, hex, hey] at hdw
          rw [hdw] at hw; cases hw
    refine Or.inr (Or.inr ⟨t, htI, ?_, ?_, hp3, hp4, hp5⟩)
    · rw [hkeep t htI (fun hEq => hsrc_ne_t hEq.symm) (hnotdest t hp1)]
      exact hp1
    · have hk := hkeep (t.1, t.2 + 1) ht2I
        (fun hEq => hsrc_ne_t2 hEq.symm) (hnotdest (t.1, t.2 + 1) hp2)
      have hk2 : b.is_crate (push_result b s cx cy dx dy) t.1 (t.2 + 1) =
          b.is_crate s t.1 (t.2 + 1) := hk
      rw [hk2]
      exact hp2

/-- A stuck state never reaches a goal state, in any number of
unrestricted pushes. -/
lemma stuck_no_solution (b : Board) (I : List (Nat × Nat)) (hI : InteriorOk b I)
    (hDead : DeadOk b)
    (hgt : ∀ g ∈ b.goals, b.goal_tiles.getD (tidx b g.1) false = true)
    (hgnd : (b.goals.map (fun g => tidx b g.1)).Nodup) :
    ∀ n s, SInv b I s → StuckState b I s → ¬UReachesGoal b s n := by
  intro n
  induction n using Nat.strong_induction_on with
  | _ n ihn =>
  intro s hs hstuck hreach
  cases hreach with
  | done hgs =>
    obtain ⟨hcr, hplayer, hclen, hnum⟩ := hs
    have hoff : ∃ c ∈ b.iter_crates s, b.is_goal c.1 c.2 = false := by
      rcases hstuck with ⟨t, htI, htbit, htdead⟩ | ⟨t, htI, hp⟩ | ⟨t, htI, hp⟩
      · have htw : t.1 < b.width := by have := hI.bounds t htI; omega
        have htbit' : s.crates.getD (tidx b t) false = true := htbit
        refine ⟨t, iter_crates_mem_of_bit b s t htw htbit', ?_⟩
        have htdead' : b.dead_tiles.getD (tidx b t) false = true := htdead
        have hlen := getD_true_lt_length _ _ htdead'
        have hD := hDead (tidx b t) hlen htdead'
        obtain ⟨hm, hdv⟩ := tidx_decode b t htw
        have hng : b.goal_tiles.getD (tidx b t) false = false := hD.1
        exact hng
      · obtain ⟨hp1, hp2, hp3, hp4, hp5⟩ := hp
        have htw : t.1 + 1 < b.width := by have := hI.bounds t htI; omega
        by_cases hg1 : b.is_goal t.1 t.2 = true
        · have hg2 : b.is_goal (t.1 + 1) t.2 = false := by
            cases hg : b.is_goal (t.1 + 1) t.2
            · rfl
            · exact absurd ⟨hg1, hg⟩ hp5
          have hbit : s.crates.getD (tidx b (t.1 + 1, t.2)) false = true := hp2
          exact ⟨(t.1 + 1, t.2),
            iter_crates_mem_of_bit b s (t.1 + 1, t.2) htw hbit, hg2⟩
        · have hg1' : b.is_goal t.1 t.2 = false := by
            cases hg : b.is_goal t.1 t.2
            · rfl
            · exact absurd hg hg1
          have hbit : s.crates.getD (tidx b t) false = true := hp1
          exact ⟨t, iter_crates_mem_of_bit b s t (by omega) hbit, hg1'⟩
      · obtain ⟨hp1, hp2, hp3, hp4, hp5⟩ := hp
        have htw : t.1 < b.width := by have := hI.bounds t htI; omega
        by_cases hg1 : b.is_goal t.1 t.2 = true
        · have hg2 : b.is_goal t.1 (t.2 + 1) = false := by
            cases hg : b.is_goal t.1 (t.2 + 1)
            · rfl
            · exact absurd ⟨hg1, hg⟩ hp5
          have hbit : s.crates.getD (tidx b (t.1, t.2 + 1)) false = true := hp2
          exact ⟨(t.1, t.2 + 1),
            iter_crates_mem_of_bit b s (t.1, t.2 + 1) htw hbit, hg2⟩
        · have hg1' : b.is_goal t.1 t.2 = false := by
            cases hg : b.is_goal t.1 t.2
            · rfl
            · exact absurd hg hg1
          have hbit : s.crates.getD (tidx b t) false = true := hp1
          exact ⟨t, iter_crates_mem_of_bit b s t htw hbit, hg1'⟩
    obtain ⟨c, hc, hng⟩ := hoff
    have := offgoal_crate_not_goal_state b s I hI hcr hnum hgt hgnd c hc hng
    rw [this] at hgs
    cases hgs
  | step hU hreach' =>
    rename_i z n'
    have hs' := ustep_preserves_sinv b I hI s z hU hs
    have hstuck' := stuck_persist b I hI hDead s z hs hU hstuck
    exact ihn n' (by omega) z hs' hstuck' hreach'

/-- From a state of a seen set that is goal-free and closed under the
generator, no sequence of unrestricted pushes reaches a goal state:
each step either stays in the set or creates a stuck state. -/
lemma closed_set_no_solution (b : Board) (I : List (Nat × Nat))
    (S : List BoardState) (hI : InteriorOk b I) (hDead : DeadOk b)
    (hgt : ∀ g ∈ b.goals, b.goal_tiles.getD (tidx b g.1) false = true)
    (hgnd : (b.goals.map (fun g => tidx b g.1)).Nodup)
    (hSnog : ∀ x ∈ S, b.is_goal_state x = false)
    (hSclosed : ∀ x ∈ S, ∀ ca ∈ b.create_children x, ca.1 ∈ S) :
    ∀ n x, x ∈ S → SInv b I x → ¬UReachesGoal b x n := by
  intro n
  induction n using Nat.strong_induction_on with
  | _ n ihn =>
  intro x hxS hs hreach
  cases hreach with
  | done hgs =>
    rw [hSnog x hxS] at hgs
    cases hgs
  | step hU hreach' =>
    rename_i z n'
    have hs' := ustep_preserves_sinv b I hI x z hU hs
    obtain ⟨hcr, hplayer, hclen, hnum⟩ := hs
    obtain ⟨p, cx, cy, dx, dy, hwalk, hfrom, hcrate, hemp, hzEq⟩ := hU
    by_cases hdead : b.is_dead_tile dx dy = true
    · -- pruned: the pushed crate lands on a dead tile; the child is stuck
      have hpI : p ∈ I := walk_reach_in_interior b x I hI hplayer p hwalk
      obtain ⟨hcm, hdm, _⟩ :=
        legal_push_facts b x I hI hcr p cx cy dx dy hpI hfrom hcrate hemp
      simp only [Board.is_empty, Bool.and_eq_true, Bool.not_eq_true'] at hemp
      obtain ⟨hdw, hdc⟩ := hemp
      have hsrc : x.crates.getD (cy * b.width + cx) false = true := hcrate
      have hdst : x.crates.getD (dy * b.width + dx) false = false := hdc
      have hneidx : cy * b.width + cx ≠ dy * b.width + dx := by
        intro hEq
        rw [hEq, hdst] at hsrc
        cases hsrc
      have hdlen : dy * b.width + dx < x.crates.length := by
        have h1 := tidx_lt_walls_length b I hI (dx, dy) hdm
        have h2 : dy * b.width + dx < b.walls.length := h1
        omega
      have hstuck : StuckState b I z := by
        rw [hzEq]
        exact Or.inl ⟨(dx, dy), hdm,
          push_bit_dest b x cx cy dx dy hneidx hdlen, hdead⟩
      exact stuck_no_solution b I hI hDead hgt hgnd n' z hs' hstuck hreach'
    · by_cases hfz : b.is_unsolvable z = true
      · have hs'cr := hs'.1
        have hstuck := unsolvable_stuck b z I hI hs'cr hfz
        exact stuck_no_solution b I hI hDead hgt hgnd n' z hs' hstuck hreach'
      · -- the child passes both filters: it is generated, hence in S
        have hdead' : b.is_dead_tile dx dy = false := by
          cases hdd : b.is_dead_tile dx dy
          · rfl
          · exact absurd hdd hdead
        have hfz' : b.is_unsolvable (push_result b x cx cy dx dy) = false := by
          rw [← hzEq]
          cases hff : b.is_unsolvable z
          · rfl
          · exact absurd hff hfz
        have hlegal : legal_push_child b x z :=
          ⟨p, cx, cy, dx, dy, hwalk, hfrom,
            ⟨hcrate, hemp, hdead', hfz'⟩, hzEq⟩
        obtain ⟨acts, hmem⟩ :=
          (create_children_iff b x I hI hplayer z).mpr hlegal
        have hzS : z ∈ S := hSclosed x hxS (z, acts) hmem
        exact ihn n' (by omega) z hzS hs' hreach'

/-- C7: if `find_path` exhausts its frontier and returns `None`
("unsolvable"), then no sequence of legal pushes from the start state —
walks plus pushes of a crate onto an empty tile, with NO pruning at
all — reaches a state in which every goal tile holds a crate: the
dead-square exclusion and the frozen-pair filter only ever discard
states from which no solution exists.  (`hs` is the data-model invariant
a parsed level establishes, `hDead` the soundness certificate of the
dead-tile mask, `hgt`/`hgnd` the goal-list well-formedness of a parsed
level.) -/
theorem exhaustion_unsolvable (b : Board) (s0 : BoardState)
    (I : List (Nat × Nat)) (hI : InteriorOk b I) (hs : SInv b I s0)
    (hDead : DeadOk b)
    (hgt : ∀ g ∈ b.goals, b.goal_tiles.getD (tidx b g.1) false = true)
    (hgnd : (b.goals.map (fun g => tidx b g.1)).Nodup)
    (fuel : Nat) (hnone : find_path fuel b s0 = some none) :
    ∀ n, ¬UReachesGoal b s0 n := by
  have hnone' : find_path_loop b fuel [s0] [⟨s0, [], 0, 0⟩] = some none := hnone
  obtain ⟨S, hsub, hnog, hclosed⟩ :=
    find_path_exhaust b fuel [s0] [⟨s0, [], 0, 0⟩]
      (by intro nd hnd
          rw [List.mem_singleton] at hnd
          subst hnd
          exact List.mem_singleton.mpr rfl)
      (by intro x hx
          rw [List.mem_singleton] at hx
          exact Or.inl ⟨⟨s0, [], 0, 0⟩, List.mem_singleton.mpr rfl, hx.symm⟩)
      hnone'
  intro n
  exact closed_set_no_solution b I S hI hDead hgt hgnd hnog hclosed n s0
    (hsub (List.mem_singleton.mpr rfl)) hs

/-- Witness for `exhaustion_unsolvable`: on the two-chamber level the
crate starts inside an all-dead corridor, `find_path` exhausts at once,
and the theorem yields that not even an unrestricted push sequence
solves the level. -/
theorem exhaustion_unsolvable_witness :
    find_path 2 parsed_chambers.1 parsed_chambers.2 = some none ∧
    ¬UReachesGoal parsed_chambers.1 parsed_chambers.2 0 := by
  have hI : InteriorOk parsed_chambers.1 [(1, 1), (2, 1), (3, 1)] :=
    interiorOk_of_closed4 _ _ (by decide) (by decide) (by decide) (by decide)
  have hs : SInv parsed_chambers.1 [(1, 1), (2, 1), (3, 1)] parsed_chambers.2 :=
    ⟨by decide, by decide, by decide, by decide⟩
  have hD : DeadOk parsed_chambers.1 := by
    unfold DeadOk
    decide
  have hnone : find_path 2 parsed_chambers.1 parsed_chambers.2 = some none := by
    decide
  exact ⟨hnone,
    exhaustion_unsolvable parsed_chambers.1 parsed_chambers.2
      [(1, 1), (2, 1), (3, 1)] hI hs hD (by decide) (by decide) 2 hnone 0⟩

/-- Every node the child loop pushes is an old node of the accumulator
or carries the state of one of the processed children. -/
lemma expand_child_origin (b : Board) (node : Node) :
    ∀ (cs : List (BoardState × List Action)) (acc : List BoardState × List Node),
      ∀ nd ∈ (cs.foldl (expand_step b node) acc).2,
        nd ∈ acc.2 ∨ ∃ ca ∈ cs, nd.state = ca.1 := by
  intro cs
  induction cs with
  | nil => intro acc nd h; exact Or.inl h
  | cons c cs ih =>
    intro acc nd h
    simp only [List.foldl_cons, expand_step_eq] at h
    by_cases hc : c.1 ∈ acc.1
    · simp only [hc, if_true] at h
      rcases ih acc nd h with h | ⟨ca, hca, hnd⟩
      · exact Or.inl h
      · exact Or.inr ⟨ca, List.mem_cons_of_mem _ hca, hnd⟩
    · simp only [hc, if_false] at h
      rcases ih _ nd h with h | ⟨ca, hca, hnd⟩
      · rcases List.mem_append.mp h with h | h
        · exact Or.inl h
        · obtain rfl := List.mem_singleton.mp h
          exact Or.inr ⟨c, List.mem_cons_self _ _, rfl⟩
      · exact Or.inr ⟨ca, List.mem_cons_of_mem _ hca, hnd⟩

/-- Soundness invariant of the search loop: if every heap node's state
can only reach a goal when the start can, a successful run means the
start reaches a goal. -/
lemma find_path_loop_sound (b : Board) (s0 : BoardState) :
    ∀ (fuel : Nat) (seen : List BoardState) (heap : List Node) (acts : List Action),
      (∀ nd ∈ heap, (∃ m, ReachesGoal b nd.state m) → ∃ n, ReachesGoal b s0 n) →
      find_path_loop b fuel seen heap = some (some acts) →
      ∃ n, ReachesGoal b s0 n := by
  intro fuel
  induction fuel with
  | zero =>
    intro seen heap acts _ h
    rw [show find_path_loop b 0 seen heap = none from rfl] at h
    cases h
  | succ fuel ih =>
    intro seen heap acts hinv hres
    cases hpop : pop_min_node heap with
    | none =>
      simp only [find_path_loop, hpop] at hres
      rw [Option.some.injEq] at hres
      cases hres
    | some pr =>
      obtain ⟨node, rest⟩ := pr
      simp only [find_path_loop, hpop] at hres
      have hperm := pop_min_perm heap node rest hpop
      have hmemn : node ∈ heap :=
        hperm.mem_iff.mpr (List.mem_cons_self _ _)
      by_cases hgoal : b.is_goal_state node.state = true
      · exact hinv node hmemn ⟨0, ReachesGoal.done hgoal⟩
      · rw [if_neg hgoal] at hres
        refine ih (expand b seen node).1 (rest ++ (expand b seen node).2)
          acts ?_ hres
        intro nd hnd hg
        rcases List.mem_append.mp hnd with h | h
        · exact hinv nd (hperm.mem_iff.mpr (List.mem_cons_of_mem _ h)) hg
        · rcases expand_child_origin b node (b.create_children node.state)
              (seen, []) nd h with h0 | ⟨ca, hca, hst⟩
          · cases h0
          · obtain ⟨m, hm⟩ := hg
            rw [hst] at hm
            exact hinv node hmemn ⟨m + 1, ReachesGoal.step hca hm⟩

/-- C5 counterexample: on `level_div` the A* loop of `find_path`
(leftmost minimal-`h+g` pop, a legal order for `BinaryHeap`'s
unspecified handling of equal priorities) returns a 9-action solution
while the uninformed breadth-first baseline over the same
push-generation model returns a 6-action solution — both in 4 pushes —
so the two action-sequence lengths differ. -/
theorem find_path_length_counterexample :
    Option.map (Option.map List.length)
      (find_path 12 parsed_div.1 parsed_div.2) = some (some 9) ∧
    Option.map (Option.map List.length)
      (bfs_baseline 12 parsed_div.1 parsed_div.2) = some (some 6) ∧
    (9 : Nat) ≠ 6 :=
  ⟨by decide, by decide, by decide⟩

/-- C5 (corrected): a successful `find_path` run is sound — if it
returns `Some(path)`, some sequence of generator pushes takes the start
state to a state with every goal filled; the action-sequence length of
the returned path, however, need not match the breadth-first baseline's
(see the counterexample). -/
theorem find_path_sound (b : Board) (s0 : BoardState) (fuel : Nat)
    (acts : List Action) (h : find_path fuel b s0 = some (some acts)) :
    ∃ n, ReachesGoal b s0 n := by
  have h' : find_path_loop b fuel [s0] [⟨s0, [], 0, 0⟩] = some (some acts) := h
  refine find_path_loop_sound b s0 fuel [s0] [⟨s0, [], 0, 0⟩] acts ?_ h'
  intro nd hnd hg
  rw [List.mem_singleton] at hnd
  subst hnd
  exact hg

/-- Witness for `find_path_sound`: the trivial level's run returns the
one-push path and the theorem turns it into a reachability fact. -/
theorem find_path_sound_witness :
    find_path 3 parsed_trivial.1 parsed_trivial.2 =
      some (some [Action.Right]) ∧
    ∃ n, ReachesGoal parsed_trivial.1 parsed_trivial.2 n := by
  have h : find_path 3 parsed_trivial.1 parsed_trivial.2 =
      some (some [Action.Right]) := by decide
  exact ⟨h, find_path_sound parsed_trivial.1 parsed_trivial.2 3 [Action.Right] h⟩

end Pushcrate
